import Mathlib

set_option linter.unusedSectionVars false

/-!
Verification of the graph core of `ssort` (`src/ssort/_graphs.py`).

The Python module implements an insertion-ordered directed graph kept as two
mirrored dict-of-dict indices (`_out_edges`, `_in_edges`), an iterative DFS
cycle finder (`_find_cycle`), a cycle breaker (`replace_cycles`) and a stable
Kahn-style topological sort (`topological_sort`).

Python dicts are insertion-ordered maps, so we embed them as association
lists (`List (K × V)`): assignment replaces the value of the first matching
key in place or appends a fresh key at the end, exactly as a dict does.
Fallible operations (Python `KeyError` / assertion failures) are embedded
with `Option` / `Except`.
-/

section AssocList

variable {K : Type} {V : Type} [DecidableEq K]

/-- Keys of an association list, in insertion order (Python `dict` keys view). -/
def keysOf (l : List (K × V)) : List K := l.map Prod.fst

/-- Lookup of a key (Python `d[k]` / `d.get(k)`): value of the first entry
with the given key, if any. -/
def getVal? : List (K × V) → K → Option V
  | [], _ => none
  | (a, v) :: t, k => if a = k then some v else getVal? t k

/-- Python `d[k] = v`: replace the value of the first entry with key `k`
in place, otherwise append `(k, v)` at the end. -/
def setVal : List (K × V) → K → V → List (K × V)
  | [], k, v => [(k, v)]
  | (a, w) :: t, k, v => if a = k then (a, v) :: t else (a, w) :: setVal t k v

/-- Python `d.pop(k, default)`: drop the first entry with key `k`, if any. -/
def popKey : List (K × V) → K → List (K × V)
  | [], _ => []
  | (a, w) :: t, k => if a = k then t else (a, w) :: popKey t k

/-- Python `d.setdefault(k, v)`: append `(k, v)` only when `k` is absent. -/
def setdefault (l : List (K × V)) (k : K) (v : V) : List (K × V) :=
  match getVal? l k with
  | some _ => l
  | none => l ++ [(k, v)]

/-- Python `dst.update(src)` on dicts: assign every entry of `src` into `dst`
in `src`'s iteration order. -/
def dictUpdate (dst src : List (K × V)) : List (K × V) :=
  src.foldl (fun d p => setVal d p.1 p.2) dst

theorem keysOf_nil : keysOf ([] : List (K × V)) = [] := rfl

theorem keysOf_cons {a : K} {w : V} {t : List (K × V)} :
    keysOf ((a, w) :: t) = a :: keysOf t := rfl

theorem keysOf_append {l₁ l₂ : List (K × V)} :
    keysOf (l₁ ++ l₂) = keysOf l₁ ++ keysOf l₂ := List.map_append _ _ _

theorem getVal?_eq_none {l : List (K × V)} {k : K} :
    getVal? l k = none ↔ k ∉ keysOf l := by
  induction l with
  | nil => simp [getVal?, keysOf]
  | cons p t ih =>
    obtain ⟨a, v⟩ := p
    rw [keysOf_cons]
    by_cases h : a = k
    · subst h
      simp [getVal?]
    · simp [getVal?, h, ih, Ne.symm h]

theorem getVal?_isSome {l : List (K × V)} {k : K} :
    (getVal? l k).isSome = true ↔ k ∈ keysOf l := by
  rw [Option.isSome_iff_ne_none]
  constructor
  · intro h
    by_contra hk
    exact h (getVal?_eq_none.2 hk)
  · intro h hn
    exact (getVal?_eq_none.1 hn) h

theorem getVal?_mem {l : List (K × V)} {k : K} {v : V}
    (h : getVal? l k = some v) : (k, v) ∈ l := by
  induction l with
  | nil => simp [getVal?] at h
  | cons p t ih =>
    obtain ⟨a, w⟩ := p
    by_cases ha : a = k
    · simp [getVal?, ha] at h
      subst ha h
      simp
    · simp [getVal?, ha] at h
      exact List.mem_cons_of_mem _ (ih h)

theorem mem_keysOf_of_mem {l : List (K × V)} {p : K × V} (h : p ∈ l) :
    p.1 ∈ keysOf l := List.mem_map_of_mem Prod.fst h

theorem getVal?_of_mem_nodup {l : List (K × V)} {k : K} {v : V}
    (hnd : (keysOf l).Nodup) (h : (k, v) ∈ l) : getVal? l k = some v := by
  induction l with
  | nil => simp at h
  | cons p t ih =>
    obtain ⟨a, w⟩ := p
    rw [keysOf_cons, List.nodup_cons] at hnd
    rcases List.mem_cons.1 h with h1 | h1
    · rw [Prod.mk.injEq] at h1
      simp [getVal?, h1.1, h1.2]
    · have hk : k ∈ keysOf t := mem_keysOf_of_mem h1
      have hak : a ≠ k := fun he => hnd.1 (he ▸ hk)
      simp [getVal?, hak]
      exact ih hnd.2 h1

theorem keysOf_setVal_of_mem {l : List (K × V)} {k : K} (v : V)
    (h : k ∈ keysOf l) : keysOf (setVal l k v) = keysOf l := by
  induction l with
  | nil => simp [keysOf] at h
  | cons p t ih =>
    obtain ⟨a, w⟩ := p
    rw [keysOf_cons] at h
    by_cases ha : a = k
    · simp [setVal, ha, keysOf_cons]
    · rcases List.mem_cons.1 h with h1 | h1
      · exact absurd h1.symm ha
      · simp only [setVal, if_neg ha, keysOf_cons]
        rw [ih h1]

theorem keysOf_setVal_of_not_mem {l : List (K × V)} {k : K} (v : V)
    (h : k ∉ keysOf l) : keysOf (setVal l k v) = keysOf l ++ [k] := by
  induction l with
  | nil => simp [setVal, keysOf]
  | cons p t ih =>
    obtain ⟨a, w⟩ := p
    rw [keysOf_cons, List.mem_cons] at h
    push_neg at h
    have hne : a ≠ k := fun he => h.1 he.symm
    simp only [setVal, if_neg hne, keysOf_cons]
    rw [ih h.2]
    rfl

theorem getVal?_setVal_self {l : List (K × V)} {k : K} (v : V) :
    getVal? (setVal l k v) k = some v := by
  induction l with
  | nil => simp [setVal, getVal?]
  | cons p t ih =>
    obtain ⟨a, w⟩ := p
    by_cases ha : a = k <;> simp [setVal, ha, getVal?, ih]

theorem getVal?_setVal_ne {l : List (K × V)} {k k' : K} (v : V)
    (h : k ≠ k') : getVal? (setVal l k v) k' = getVal? l k' := by
  induction l with
  | nil => simp [setVal, getVal?, h]
  | cons p t ih =>
    obtain ⟨a, w⟩ := p
    by_cases ha : a = k
    · subst ha
      simp [setVal, getVal?, h]
    · simp [setVal, ha, getVal?, ih]

theorem keysOf_popKey {l : List (K × V)} {k : K} :
    keysOf (popKey l k) = (keysOf l).erase k := by
  induction l with
  | nil => simp [popKey, keysOf]
  | cons p t ih =>
    obtain ⟨a, w⟩ := p
    by_cases ha : a = k
    · subst ha
      simp [popKey, keysOf_cons, List.erase_cons_head]
    · simp only [popKey, if_neg ha, keysOf_cons]
      rw [List.erase_cons_tail, ih]
      simp [ha]

theorem getVal?_popKey_self {l : List (K × V)} {k : K}
    (hnd : (keysOf l).Nodup) : getVal? (popKey l k) k = none := by
  rw [getVal?_eq_none, keysOf_popKey]
  exact (hnd.erase_eq_filter k ▸ List.mem_filter).mp.mt (by simp)

theorem popKey_eq_of_not_mem {l : List (K × V)} {k : K}
    (h : k ∉ keysOf l) : popKey l k = l := by
  induction l with
  | nil => rfl
  | cons p t ih =>
    obtain ⟨a, w⟩ := p
    rw [keysOf_cons, List.mem_cons] at h
    push_neg at h
    have hak : a ≠ k := fun hc => h.1 hc.symm
    simp only [popKey, if_neg hak]
    rw [ih h.2]

theorem getVal?_popKey_ne {l : List (K × V)} {k k' : K} (h : k ≠ k') :
    getVal? (popKey l k) k' = getVal? l k' := by
  induction l with
  | nil => simp [popKey]
  | cons p t ih =>
    obtain ⟨a, w⟩ := p
    by_cases ha : a = k
    · subst ha
      simp [popKey, getVal?, h]
    · simp [popKey, ha, getVal?, ih]

theorem length_popKey_of_mem {l : List (K × V)} {k : K}
    (h : k ∈ keysOf l) : (popKey l k).length + 1 = l.length := by
  induction l with
  | nil => simp [keysOf] at h
  | cons p t ih =>
    obtain ⟨a, w⟩ := p
    rw [keysOf_cons] at h
    by_cases ha : a = k
    · simp [popKey, ha]
    · rcases List.mem_cons.1 h with h1 | h1
      · exact absurd h1.symm ha
      · simp only [popKey, if_neg ha, List.length_cons]
        rw [ih h1]

theorem length_setVal_of_mem {l : List (K × V)} {k : K} (v : V)
    (h : k ∈ keysOf l) : (setVal l k v).length = l.length := by
  have := keysOf_setVal_of_mem (l := l) (k := k) v h
  have h1 : (keysOf (setVal l k v)).length = (keysOf l).length := by rw [this]
  simpa [keysOf] using h1

theorem setVal_eq_append_of_not_mem {l : List (K × V)} {k : K} (v : V)
    (h : k ∉ keysOf l) : setVal l k v = l ++ [(k, v)] := by
  induction l with
  | nil => rfl
  | cons p t ih =>
    obtain ⟨a, w⟩ := p
    rw [keysOf_cons, List.mem_cons] at h
    push_neg at h
    have hak : a ≠ k := fun hc => h.1 hc.symm
    simp only [setVal, if_neg hak, List.cons_append]
    rw [ih h.2]

theorem setVal_append_of_not_mem_left {l₁ l₂ : List (K × V)} {k : K} (v : V)
    (h : k ∉ keysOf l₁) : setVal (l₁ ++ l₂) k v = l₁ ++ setVal l₂ k v := by
  induction l₁ with
  | nil => rfl
  | cons p t ih =>
    obtain ⟨a, w⟩ := p
    rw [keysOf_cons, List.mem_cons] at h
    push_neg at h
    have hak : a ≠ k := fun hc => h.1 hc.symm
    simp only [List.cons_append, setVal, if_neg hak]
    rw [show t.append l₂ = t ++ l₂ from rfl, ih h.2]

theorem dictUpdate_nil_acc {src : List (K × V)} :
    ∀ {acc : List (K × V)}, (keysOf src).Nodup →
      (∀ k, k ∈ keysOf src → k ∉ keysOf acc) →
      dictUpdate acc src = acc ++ src := by
  induction src with
  | nil => intro acc _ _; simp [dictUpdate]
  | cons p t ih =>
    intro acc hnd hdisj
    obtain ⟨a, w⟩ := p
    rw [keysOf_cons, List.nodup_cons] at hnd
    have ha : a ∉ keysOf acc := hdisj a (by rw [keysOf_cons]; simp)
    show dictUpdate (setVal acc a w) t = acc ++ (a, w) :: t
    rw [setVal_eq_append_of_not_mem _ ha]
    rw [ih hnd.2 ?_]
    · simp
    · intro k hk
      rw [keysOf_append]
      simp only [List.mem_append, not_or]
      refine ⟨fun hc => hdisj k (by rw [keysOf_cons]; simp [hk]) hc, ?_⟩
      intro hc
      rw [keysOf_cons, keysOf_nil] at hc
      rw [List.mem_singleton] at hc
      exact hnd.1 (hc ▸ hk)

theorem dictUpdate_nil {src : List (K × V)} (h : (keysOf src).Nodup) :
    dictUpdate ([] : List (K × V)) src = src := by
  rw [dictUpdate_nil_acc h (by simp [keysOf])]
  rfl

theorem getVal?_dictUpdate {src : List (K × V)} (hnd : (keysOf src).Nodup) :
    ∀ (dst : List (K × V)) (k : K),
      getVal? (dictUpdate dst src) k =
        match getVal? src k with
        | some v => some v
        | none => getVal? dst k := by
  induction src with
  | nil => intro dst k; simp [dictUpdate, getVal?]
  | cons p t ih =>
    intro dst k
    obtain ⟨a, w⟩ := p
    rw [keysOf_cons, List.nodup_cons] at hnd
    show getVal? (dictUpdate (setVal dst a w) t) k = _
    rw [ih hnd.2 (setVal dst a w) k]
    by_cases hka : a = k
    · subst hka
      have : getVal? t a = none := getVal?_eq_none.2 hnd.1
      rw [this, getVal?_setVal_self]
      simp [getVal?]
    · rw [getVal?_setVal_ne _ hka]
      simp only [getVal?, if_neg hka]

theorem keysOf_dictUpdate {src : List (K × V)} (hnd : (keysOf src).Nodup) :
    ∀ (dst : List (K × V)),
      keysOf (dictUpdate dst src) =
        keysOf dst ++ (keysOf src).filter (fun x => decide (x ∉ keysOf dst)) := by
  induction src with
  | nil => intro dst; simp [dictUpdate, keysOf]
  | cons p t ih =>
    intro dst
    obtain ⟨a, w⟩ := p
    rw [keysOf_cons, List.nodup_cons] at hnd
    show keysOf (dictUpdate (setVal dst a w) t) = _
    rw [ih hnd.2 (setVal dst a w), keysOf_cons]
    by_cases ha : a ∈ keysOf dst
    · rw [keysOf_setVal_of_mem _ ha]
      rw [List.filter_cons_of_neg (by simpa using ha)]
    · rw [keysOf_setVal_of_not_mem _ ha]
      rw [List.filter_cons_of_pos (by simpa using ha)]
      rw [List.append_assoc]
      congr 1
      show [a] ++ _ = a :: _
      rw [List.singleton_append, List.cons.injEq]
      refine ⟨rfl, List.filter_congr ?_⟩
      intro x hx
      have hxa : x ≠ a := fun hc => hnd.1 (hc ▸ hx)
      simp [List.mem_append, hxa]

theorem nodup_keysOf_dictUpdate {src dst : List (K × V)}
    (hs : (keysOf src).Nodup) (hd : (keysOf dst).Nodup) :
    (keysOf (dictUpdate dst src)).Nodup := by
  rw [keysOf_dictUpdate hs dst]
  refine List.Nodup.append hd (List.Nodup.filter _ hs) ?_
  intro x hx hxf
  rcases List.mem_filter.1 hxf with ⟨_, hdec⟩
  have hout : x ∉ keysOf dst := by simpa using hdec
  exact hout hx

theorem getVal?_append {l₁ l₂ : List (K × V)} {k : K} :
    getVal? (l₁ ++ l₂) k =
      match getVal? l₁ k with
      | some v => some v
      | none => getVal? l₂ k := by
  induction l₁ with
  | nil => simp [getVal?]
  | cons p t ih =>
    obtain ⟨a, w⟩ := p
    by_cases ha : a = k <;> simp [getVal?, ha, ih]

theorem getVal?_append_left {l₁ l₂ : List (K × V)} {k : K} {v : V}
    (h : getVal? l₁ k = some v) : getVal? (l₁ ++ l₂) k = some v := by
  rw [getVal?_append, h]

theorem getVal?_append_right {l₁ l₂ : List (K × V)} {k : K}
    (h : getVal? l₁ k = none) : getVal? (l₁ ++ l₂) k = getVal? l₂ k := by
  rw [getVal?_append, h]

theorem getVal?_singleton_self {k : K} {v : V} :
    getVal? [(k, v)] k = some v := by simp [getVal?]

theorem getVal?_singleton_ne {k k' : K} {v : V} (h : k ≠ k') :
    getVal? [(k, v)] k' = none := by simp [getVal?, h]

end AssocList

/-- Embedding of `ssort._graphs.Graph`: the two mirrored dict-of-dict indices
`_out_edges` and `_in_edges`.  Outer dicts map a node to its inner dict of
adjacent nodes with edge labels. -/
structure Graph (N : Type) (E : Type) where
  out_edges : List (N × List (N × E))
  in_edges : List (N × List (N × E))
deriving DecidableEq

namespace Graph

variable {N : Type} {E : Type} [DecidableEq N]

/-- `Graph.__init__`: both indices start empty. -/
def empty : Graph N E := ⟨[], []⟩

/-- `Graph.nodes`: the key view of `_out_edges`, in insertion order. -/
def nodes (g : Graph N E) : List N := keysOf g.out_edges

/-- `Graph.successors(node)`: keys of `_out_edges[node]`; `KeyError` when the
node is absent is modelled by `none`. -/
def successors (g : Graph N E) (n : N) : Option (List N) :=
  (getVal? g.out_edges n).map keysOf

/-- `Graph.predecessors(node)`: keys of `_in_edges[node]`. -/
def predecessors (g : Graph N E) (n : N) : Option (List N) :=
  (getVal? g.in_edges n).map keysOf

/-- `Graph.has_edge(origin, destination)`:
`out_edges = self._out_edges.get(origin); return out_edges is not None and destination in out_edges`. -/
def has_edge (g : Graph N E) (o d : N) : Bool :=
  match getVal? g.out_edges o with
  | none => false
  | some oe => decide (d ∈ keysOf oe)

/-- `Graph.edge(origin, destination)`: `self._out_edges[origin][destination]`,
with `KeyError` as `none`. -/
def edge (g : Graph N E) (o d : N) : Option E :=
  (getVal? g.out_edges o).bind (fun oe => getVal? oe d)

/-- `Graph.add_node(node)`: `setdefault` an empty inner dict in both indices. -/
def add_node (g : Graph N E) (n : N) : Graph N E :=
  ⟨setdefault g.out_edges n [], setdefault g.in_edges n []⟩

/-- `Graph.add_edge(origin, destination, edge)`: look up both inner dicts
first (so a `KeyError` leaves the state untouched), then assign the label
into both. -/
def add_edge (g : Graph N E) (o d : N) (e : E) : Option (Graph N E) :=
  match getVal? g.out_edges o, getVal? g.in_edges d with
  | some oe, some ie =>
      some ⟨setVal g.out_edges o (setVal oe d e),
            setVal g.in_edges d (setVal ie o e)⟩
  | _, _ => none

/-- One step of the cleanup loops in `Graph.remove_node`:
`self._in_edges[destination].pop(node, None)` (indexing may raise, the inner
pop is defaulted). -/
def popInner (m : List (N × List (N × E))) (k inner : N) :
    Option (List (N × List (N × E))) :=
  match getVal? m k with
  | none => none
  | some d => some (setVal m k (popKey d inner))

/-- `Graph.remove_node(node)`: snapshot the two inner dicts (the code copies
them to survive self-loops), drop the mirrored entries of every incident
edge, then pop the node from both indices. -/
def remove_node (g : Graph N E) (n : N) : Option (Graph N E) :=
  match getVal? g.out_edges n, getVal? g.in_edges n with
  | some oe, some ie => do
      let ins ← (keysOf oe).foldlM (fun m d => popInner m d n) g.in_edges
      let outs ← (keysOf ie).foldlM (fun m o => popInner m o n) g.out_edges
      some ⟨popKey outs n, popKey ins n⟩
  | _, _ => none

/-- `Graph.remove_edge(origin, destination)`: index both inner dicts (raising
for a missing node), then pop the edge idempotently from both. -/
def remove_edge (g : Graph N E) (o d : N) : Option (Graph N E) :=
  match getVal? g.out_edges o, getVal? g.in_edges d with
  | some oe, some ie =>
      some ⟨setVal g.out_edges o (popKey oe d),
            setVal g.in_edges d (popKey ie o)⟩
  | _, _ => none

/-- One iteration of `Graph.update(other)`: `self.add_node(node)`, then merge
`other`'s inner dicts for that node into this graph's. -/
def updateNode (other : Graph N E) (acc : Graph N E) (n : N) :
    Option (Graph N E) :=
  let acc := acc.add_node n
  match getVal? acc.out_edges n, getVal? acc.in_edges n,
        getVal? other.out_edges n, getVal? other.in_edges n with
  | some ao, some ai, some bo, some bi =>
      some ⟨setVal acc.out_edges n (dictUpdate ao bo),
            setVal acc.in_edges n (dictUpdate ai bi)⟩
  | _, _, _, _ => none

/-- `Graph.update(other)`: fold `updateNode` over `other.nodes`. -/
def update (g other : Graph N E) : Option (Graph N E) :=
  other.nodes.foldlM (updateNode other) g

/-- `Graph.copy()`: a fresh graph updated from this one. -/
def copy (g : Graph N E) : Option (Graph N E) :=
  update empty g

/-- The mirror invariant of the two indices (spec §3, §4.1): same node keys
in both (the code always touches them in tandem, so they agree as ordered
lists), no duplicate keys anywhere (they embed Python dicts), and an edge
with its label is in the outgoing set of its origin iff it is in the
incoming set of its destination. -/
def WF (g : Graph N E) : Prop :=
  keysOf g.out_edges = keysOf g.in_edges ∧
  (keysOf g.out_edges).Nodup ∧
  (∀ p ∈ g.out_edges, (keysOf p.2).Nodup) ∧
  (∀ p ∈ g.in_edges, (keysOf p.2).Nodup) ∧
  (∀ p ∈ g.out_edges, ∀ q ∈ p.2,
      (getVal? g.in_edges q.1).bind (fun ie => getVal? ie p.1) = some q.2) ∧
  (∀ p ∈ g.in_edges, ∀ q ∈ p.2,
      (getVal? g.out_edges q.1).bind (fun oe => getVal? oe p.1) = some q.2)

instance (g : Graph N E) [DecidableEq E] : Decidable g.WF := by
  unfold WF
  infer_instance

/-- The edge relation of a graph, as used by the specification-level claims. -/
def EdgeRel (g : Graph N E) (a b : N) : Prop := g.has_edge a b = true

/-- A graph has a cycle when some node reaches itself through one or more
edges. -/
def HasCycle (g : Graph N E) : Prop :=
  ∃ n, Relation.TransGen g.EdgeRel n n

/-- The reverse-index view of an edge label. -/
def inEdgeVal (g : Graph N E) (o d : N) : Option E :=
  (getVal? g.in_edges d).bind (fun ie => getVal? ie o)

theorem WF.in_keys {g : Graph N E} (h : g.WF) :
    keysOf g.in_edges = g.nodes := h.1.symm

theorem WF.nodes_nodup {g : Graph N E} (h : g.WF) : g.nodes.Nodup := h.2.1

theorem WF.in_nodup {g : Graph N E} (h : g.WF) :
    (keysOf g.in_edges).Nodup := h.1 ▸ h.2.1

theorem WF.out_inner_nodup {g : Graph N E} (h : g.WF) {n : N}
    {l : List (N × E)} (hl : getVal? g.out_edges n = some l) :
    (keysOf l).Nodup := h.2.2.1 (n, l) (getVal?_mem hl)

theorem WF.in_inner_nodup {g : Graph N E} (h : g.WF) {n : N}
    {l : List (N × E)} (hl : getVal? g.in_edges n = some l) :
    (keysOf l).Nodup := h.2.2.2.1 (n, l) (getVal?_mem hl)

theorem WF.mirror {g : Graph N E} (h : g.WF) {o d : N} {e : E} :
    g.edge o d = some e ↔ g.inEdgeVal o d = some e := by
  constructor
  · intro he
    unfold edge at he
    rcases Option.bind_eq_some.1 he with ⟨oe, hoe, hde⟩
    exact h.2.2.2.2.1 (o, oe) (getVal?_mem hoe) (d, e) (getVal?_mem hde)
  · intro he
    unfold inEdgeVal at he
    rcases Option.bind_eq_some.1 he with ⟨ie, hie, hoe⟩
    exact h.2.2.2.2.2 (d, ie) (getVal?_mem hie) (o, e) (getVal?_mem hoe)

theorem has_edge_iff_edge {g : Graph N E} {o d : N} :
    g.has_edge o d = true ↔ ∃ e, g.edge o d = some e := by
  unfold has_edge edge
  cases hoe : getVal? g.out_edges o with
  | none => simp
  | some oe =>
    simp only [decide_eq_true_eq, Option.some_bind]
    rw [← getVal?_isSome]
    exact ⟨fun h => ⟨(getVal? oe d).get h, Option.eq_some_of_isSome h⟩,
      fun ⟨e, he⟩ => he ▸ rfl⟩

theorem EdgeRel_left_mem {g : Graph N E} {a b : N} (h : g.EdgeRel a b) :
    a ∈ g.nodes := by
  rcases has_edge_iff_edge.1 h with ⟨e, he⟩
  rcases Option.bind_eq_some.1 he with ⟨oe, hoe, _⟩
  rw [nodes, ← getVal?_isSome (l := g.out_edges)]
  simp [hoe]

theorem EdgeRel_right_mem {g : Graph N E} (hw : g.WF) {a b : N}
    (h : g.EdgeRel a b) : b ∈ g.nodes := by
  rcases has_edge_iff_edge.1 h with ⟨e, he⟩
  rcases Option.bind_eq_some.1 (hw.mirror.1 he) with ⟨ie, hie, _⟩
  rw [← hw.in_keys, ← getVal?_isSome (l := g.in_edges)]
  simp [hie]

theorem successors_eq_some {g : Graph N E} {n : N} (h : n ∈ g.nodes) :
    ∃ ss, g.successors n = some ss := by
  rcases Option.isSome_iff_exists.1 ((getVal?_isSome (l := g.out_edges)).2 h)
    with ⟨l, hl⟩
  exact ⟨keysOf l, by simp [successors, hl]⟩

theorem predecessors_eq_some {g : Graph N E} (hw : g.WF) {n : N}
    (h : n ∈ g.nodes) : ∃ ps, g.predecessors n = some ps := by
  rw [← hw.in_keys] at h
  rcases Option.isSome_iff_exists.1 ((getVal?_isSome (l := g.in_edges)).2 h)
    with ⟨l, hl⟩
  exact ⟨keysOf l, by simp [predecessors, hl]⟩

theorem mem_successors {g : Graph N E} {n : N} {ss : List N}
    (h : g.successors n = some ss) {m : N} : m ∈ ss ↔ g.EdgeRel n m := by
  unfold successors at h
  rcases Option.map_eq_some'.1 h with ⟨oe, hoe, hss⟩
  subst hss
  unfold EdgeRel has_edge
  simp [hoe]

theorem mem_predecessors {g : Graph N E} (hw : g.WF) {n : N} {ps : List N}
    (h : g.predecessors n = some ps) {m : N} : m ∈ ps ↔ g.EdgeRel m n := by
  unfold predecessors at h
  rcases Option.map_eq_some'.1 h with ⟨ie, hie, hps⟩
  subst hps
  unfold EdgeRel
  rw [has_edge_iff_edge]
  constructor
  · intro hm
    rcases Option.isSome_iff_exists.1 ((getVal?_isSome (l := ie)).2 hm)
      with ⟨e, he⟩
    exact ⟨e, hw.mirror.2 (by simp [inEdgeVal, hie, he])⟩
  · intro ⟨e, he⟩
    have := hw.mirror.1 he
    rw [inEdgeVal, hie] at this
    simp only [Option.some_bind] at this
    rw [← getVal?_isSome (l := ie)]
    simp [this]

theorem successors_mem_nodes {g : Graph N E} (hw : g.WF) {n : N}
    {ss : List N} (h : g.successors n = some ss) {m : N} (hm : m ∈ ss) :
    m ∈ g.nodes := EdgeRel_right_mem hw ((mem_successors h).1 hm)

theorem predecessors_mem_nodes {g : Graph N E} (hw : g.WF) {n : N}
    {ps : List N} (h : g.predecessors n = some ps) {m : N} (hm : m ∈ ps) :
    m ∈ g.nodes := EdgeRel_left_mem ((mem_predecessors hw h).1 hm)

/-- Build the well-formedness record from pointwise facts about lookups. -/
theorem WF_of {g : Graph N E}
    (h1 : keysOf g.out_edges = keysOf g.in_edges)
    (h2 : (keysOf g.out_edges).Nodup)
    (h3 : ∀ n l, getVal? g.out_edges n = some l → (keysOf l).Nodup)
    (h4 : ∀ n l, getVal? g.in_edges n = some l → (keysOf l).Nodup)
    (h5 : ∀ o d e, g.edge o d = some e ↔ g.inEdgeVal o d = some e) :
    g.WF := by
  have hin2 : (keysOf g.in_edges).Nodup := h1 ▸ h2
  refine ⟨h1, h2, ?_, ?_, ?_, ?_⟩
  · intro p hp
    exact h3 p.1 p.2 (getVal?_of_mem_nodup h2 hp)
  · intro p hp
    exact h4 p.1 p.2 (getVal?_of_mem_nodup hin2 hp)
  · intro p hp q hq
    have hpo : getVal? g.out_edges p.1 = some p.2 := getVal?_of_mem_nodup h2 hp
    have hqi : getVal? p.2 q.1 = some q.2 :=
      getVal?_of_mem_nodup (h3 p.1 p.2 hpo) hq
    exact (h5 p.1 q.1 q.2).1 (by simp [edge, hpo, hqi])
  · intro p hp q hq
    have hpi : getVal? g.in_edges p.1 = some p.2 :=
      getVal?_of_mem_nodup hin2 hp
    have hqo : getVal? p.2 q.1 = some q.2 :=
      getVal?_of_mem_nodup (h4 p.1 p.2 hpi) hq
    exact (h5 q.1 p.1 q.2).2 (by simp [inEdgeVal, hpi, hqo])

theorem add_node_of_mem {g : Graph N E} (hw : g.WF) {n : N}
    (h : n ∈ g.nodes) : g.add_node n = g := by
  have hout : getVal? g.out_edges n ≠ none := fun hc => getVal?_eq_none.1 hc h
  have hin : getVal? g.in_edges n ≠ none := by
    rw [Ne, getVal?_eq_none, hw.in_keys]
    simpa using h
  rcases Option.ne_none_iff_exists'.1 hout with ⟨lo, hlo⟩
  rcases Option.ne_none_iff_exists'.1 hin with ⟨li, hli⟩
  simp [add_node, setdefault, hlo, hli]

theorem add_node_of_not_mem {g : Graph N E} (hw : g.WF) {n : N}
    (h : n ∉ g.nodes) :
    g.add_node n = ⟨g.out_edges ++ [(n, [])], g.in_edges ++ [(n, [])]⟩ := by
  have hout : getVal? g.out_edges n = none := getVal?_eq_none.2 h
  have hin : getVal? g.in_edges n = none := by
    rw [getVal?_eq_none, hw.in_keys]
    simpa using h
  simp [add_node, setdefault, hout, hin]

theorem add_node_nodes {g : Graph N E} (hw : g.WF) (n : N) :
    (g.add_node n).nodes = if n ∈ g.nodes then g.nodes else g.nodes ++ [n] := by
  by_cases h : n ∈ g.nodes
  · rw [add_node_of_mem hw h, if_pos h]
  · rw [add_node_of_not_mem hw h, if_neg h]
    show keysOf (g.out_edges ++ [(n, [])]) = _
    rw [keysOf_append]
    rfl

theorem add_node_edge {g : Graph N E} (hw : g.WF) (n : N) (a b : N) :
    (g.add_node n).edge a b = g.edge a b := by
  by_cases h : n ∈ g.nodes
  · rw [add_node_of_mem hw h]
  · rw [add_node_of_not_mem hw h]
    show ((getVal? (g.out_edges ++ [(n, [])]) a).bind fun oe => getVal? oe b)
        = g.edge a b
    rw [getVal?_append]
    cases hga : getVal? g.out_edges a with
    | some oe => simp [edge, hga]
    | none =>
      by_cases han : n = a
      · subst han
        simp [edge, hga, getVal?_singleton_self, getVal?]
      · simp [edge, hga, getVal?_singleton_ne han]

theorem add_node_WF {g : Graph N E} (hw : g.WF) (n : N) :
    (g.add_node n).WF := by
  by_cases h : n ∈ g.nodes
  · rw [add_node_of_mem hw h]
    exact hw
  · rw [add_node_of_not_mem hw h]
    have hout : getVal? g.out_edges n = none := getVal?_eq_none.2 h
    have hin : getVal? g.in_edges n = none := by
      rw [getVal?_eq_none, hw.in_keys]
      simpa using h
    refine WF_of ?_ ?_ ?_ ?_ ?_
    · show keysOf (g.out_edges ++ [(n, [])]) = keysOf (g.in_edges ++ [(n, [])])
      rw [keysOf_append, keysOf_append, hw.1]
    · show (keysOf (g.out_edges ++ [(n, [])])).Nodup
      rw [keysOf_append]
      refine List.Nodup.append hw.2.1 (by simp [keysOf]) ?_
      intro a ha hb
      simp only [keysOf_cons, keysOf_nil, List.mem_singleton] at hb
      exact h (hb ▸ ha)
    · intro m l hl
      rw [getVal?_append] at hl
      cases hgm : getVal? g.out_edges m with
      | some l0 =>
        rw [hgm] at hl
        exact Option.some_inj.1 hl ▸ hw.out_inner_nodup hgm
      | none =>
        rw [hgm] at hl
        by_cases hmn : n = m
        · subst hmn
          rw [getVal?_singleton_self] at hl
          simp [← Option.some_inj.1 hl, keysOf]
        · rw [getVal?_singleton_ne hmn] at hl
          exact absurd hl (by simp)
    · intro m l hl
      rw [getVal?_append] at hl
      cases hgm : getVal? g.in_edges m with
      | some l0 =>
        rw [hgm] at hl
        exact Option.some_inj.1 hl ▸ hw.in_inner_nodup hgm
      | none =>
        rw [hgm] at hl
        by_cases hmn : n = m
        · subst hmn
          rw [getVal?_singleton_self] at hl
          simp [← Option.some_inj.1 hl, keysOf]
        · rw [getVal?_singleton_ne hmn] at hl
          exact absurd hl (by simp)
    · intro o d e
      have heo : (Graph.mk (g.out_edges ++ [(n, [])]) (g.in_edges ++ [(n, [])])
          : Graph N E).edge o d = g.edge o d := by
        have := add_node_edge hw n o d
        rwa [add_node_of_not_mem hw h] at this
      have hei : (Graph.mk (g.out_edges ++ [(n, [])]) (g.in_edges ++ [(n, [])])
          : Graph N E).inEdgeVal o d = g.inEdgeVal o d := by
        show ((getVal? (g.in_edges ++ [(n, [])]) d).bind fun ie => getVal? ie o)
            = g.inEdgeVal o d
        rw [getVal?_append]
        cases hgd : getVal? g.in_edges d with
        | some ie => simp [inEdgeVal, hgd]
        | none =>
          by_cases hdn : n = d
          · subst hdn
            simp [inEdgeVal, hgd, getVal?_singleton_self, getVal?]
          · simp [inEdgeVal, hgd, getVal?_singleton_ne hdn]
      rw [heo, hei]
      exact hw.mirror

theorem add_edge_spec {g : Graph N E} (hw : g.WF) {o d : N} (e : E)
    (ho : o ∈ g.nodes) (hd : d ∈ g.nodes) :
    ∃ g', g.add_edge o d e = some g' ∧ g'.nodes = g.nodes ∧
      (∀ a b, g'.edge a b = if a = o ∧ b = d then some e else g.edge a b) ∧
      g'.WF := by
  rcases Option.isSome_iff_exists.1 ((getVal?_isSome (l := g.out_edges)).2 ho)
    with ⟨oe, hoe⟩
  have hd' : d ∈ keysOf g.in_edges := hw.in_keys ▸ hd
  rcases Option.isSome_iff_exists.1 ((getVal?_isSome (l := g.in_edges)).2 hd')
    with ⟨ie, hie⟩
  refine ⟨⟨setVal g.out_edges o (setVal oe d e),
           setVal g.in_edges d (setVal ie o e)⟩, ?_, ?_, ?_, ?_⟩
  · simp [add_edge, hoe, hie]
  · show keysOf (setVal g.out_edges o (setVal oe d e)) = g.nodes
    exact keysOf_setVal_of_mem _ ho
  · intro a b
    show ((getVal? (setVal g.out_edges o (setVal oe d e)) a).bind
        fun l => getVal? l b) = _
    by_cases hao : a = o
    · subst hao
      rw [getVal?_setVal_self]
      by_cases hbd : b = d
      · subst hbd
        simp [getVal?_setVal_self]
      · simp only [Option.some_bind]
        rw [getVal?_setVal_ne _ (fun hc => hbd hc.symm)]
        simp [hbd, edge, hoe]
    · rw [getVal?_setVal_ne _ (fun hc => hao hc.symm)]
      rw [if_neg (fun hc : a = o ∧ b = d => hao hc.1)]
      rfl
  · have hedge : ∀ a b, (Graph.mk (setVal g.out_edges o (setVal oe d e))
        (setVal g.in_edges d (setVal ie o e)) : Graph N E).edge a b =
        if a = o ∧ b = d then some e else g.edge a b := by
      intro a b
      show ((getVal? (setVal g.out_edges o (setVal oe d e)) a).bind
          fun l => getVal? l b) = _
      by_cases hao : a = o
      · subst hao
        rw [getVal?_setVal_self]
        by_cases hbd : b = d
        · subst hbd
          simp [getVal?_setVal_self]
        · simp only [Option.some_bind]
          rw [getVal?_setVal_ne _ (fun hc => hbd hc.symm)]
          simp [hbd, edge, hoe]
      · rw [getVal?_setVal_ne _ (fun hc => hao hc.symm)]
        rw [if_neg (fun hc : a = o ∧ b = d => hao hc.1)]
        rfl
    have hinv : ∀ a b, (Graph.mk (setVal g.out_edges o (setVal oe d e))
        (setVal g.in_edges d (setVal ie o e)) : Graph N E).inEdgeVal a b =
        if a = o ∧ b = d then some e else g.inEdgeVal a b := by
      intro a b
      show ((getVal? (setVal g.in_edges d (setVal ie o e)) b).bind
          fun l => getVal? l a) = _
      by_cases hbd : b = d
      · subst hbd
        rw [getVal?_setVal_self]
        by_cases hao : a = o
        · subst hao
          simp [getVal?_setVal_self]
        · simp only [Option.some_bind]
          rw [getVal?_setVal_ne _ (fun hc => hao hc.symm)]
          simp [hao, inEdgeVal, hie]
      · rw [getVal?_setVal_ne _ (fun hc => hbd hc.symm)]
        rw [if_neg (fun hc : a = o ∧ b = d => hbd hc.2)]
        rfl
    refine WF_of ?_ ?_ ?_ ?_ ?_
    · show keysOf (setVal g.out_edges o (setVal oe d e)) =
        keysOf (setVal g.in_edges d (setVal ie o e))
      rw [keysOf_setVal_of_mem _ ho, keysOf_setVal_of_mem _ hd', hw.1]
    · show (keysOf (setVal g.out_edges o (setVal oe d e))).Nodup
      rw [keysOf_setVal_of_mem _ ho]
      exact hw.2.1
    · intro m l hl
      by_cases hmo : m = o
      · subst hmo
        rw [getVal?_setVal_self] at hl
        have hl' : l = setVal oe d e := (Option.some_inj.1 hl).symm
        subst hl'
        by_cases hdo : d ∈ keysOf oe
        · rw [keysOf_setVal_of_mem _ hdo]
          exact hw.out_inner_nodup hoe
        · rw [keysOf_setVal_of_not_mem _ hdo]
          refine List.Nodup.append (hw.out_inner_nodup hoe) (by simp) ?_
          intro a ha hb
          rw [List.mem_singleton] at hb
          exact hdo (hb ▸ ha)
      · rw [getVal?_setVal_ne _ (fun hc => hmo hc.symm)] at hl
        exact hw.out_inner_nodup hl
    · intro m l hl
      by_cases hmd : m = d
      · subst hmd
        rw [getVal?_setVal_self] at hl
        have hl' : l = setVal ie o e := (Option.some_inj.1 hl).symm
        subst hl'
        by_cases hoi : o ∈ keysOf ie
        · rw [keysOf_setVal_of_mem _ hoi]
          exact hw.in_inner_nodup hie
        · rw [keysOf_setVal_of_not_mem _ hoi]
          refine List.Nodup.append (hw.in_inner_nodup hie) (by simp) ?_
          intro a ha hb
          rw [List.mem_singleton] at hb
          exact hoi (hb ▸ ha)
      · rw [getVal?_setVal_ne _ (fun hc => hmd hc.symm)] at hl
        exact hw.in_inner_nodup hl
    · intro a b x
      rw [hedge a b, hinv a b]
      by_cases hc : a = o ∧ b = d
      · simp [hc]
      · simp only [if_neg hc]
        exact hw.mirror

theorem remove_edge_spec {g : Graph N E} (hw : g.WF) {o d : N}
    (ho : o ∈ g.nodes) (hd : d ∈ g.nodes) :
    ∃ g', g.remove_edge o d = some g' ∧ g'.nodes = g.nodes ∧
      (∀ a b, g'.edge a b = if a = o ∧ b = d then none else g.edge a b) ∧
      g'.WF := by
  rcases Option.isSome_iff_exists.1 ((getVal?_isSome (l := g.out_edges)).2 ho)
    with ⟨oe, hoe⟩
  have hd' : d ∈ keysOf g.in_edges := hw.in_keys ▸ hd
  rcases Option.isSome_iff_exists.1 ((getVal?_isSome (l := g.in_edges)).2 hd')
    with ⟨ie, hie⟩
  have hedge : ∀ a b, (Graph.mk (setVal g.out_edges o (popKey oe d))
      (setVal g.in_edges d (popKey ie o)) : Graph N E).edge a b =
      if a = o ∧ b = d then none else g.edge a b := by
    intro a b
    show ((getVal? (setVal g.out_edges o (popKey oe d)) a).bind
        fun l => getVal? l b) = _
    by_cases hao : a = o
    · subst hao
      rw [getVal?_setVal_self]
      by_cases hbd : b = d
      · subst hbd
        simp [getVal?_popKey_self (hw.out_inner_nodup hoe)]
      · simp only [Option.some_bind]
        rw [getVal?_popKey_ne (fun hc => hbd hc.symm)]
        simp [hbd, edge, hoe]
    · rw [getVal?_setVal_ne _ (fun hc => hao hc.symm)]
      rw [if_neg (fun hc : a = o ∧ b = d => hao hc.1)]
      rfl
  have hinv : ∀ a b, (Graph.mk (setVal g.out_edges o (popKey oe d))
      (setVal g.in_edges d (popKey ie o)) : Graph N E).inEdgeVal a b =
      if a = o ∧ b = d then none else g.inEdgeVal a b := by
    intro a b
    show ((getVal? (setVal g.in_edges d (popKey ie o)) b).bind
        fun l => getVal? l a) = _
    by_cases hbd : b = d
    · subst hbd
      rw [getVal?_setVal_self]
      by_cases hao : a = o
      · subst hao
        simp [getVal?_popKey_self (hw.in_inner_nodup hie)]
      · simp only [Option.some_bind]
        rw [getVal?_popKey_ne (fun hc => hao hc.symm)]
        simp [hao, inEdgeVal, hie]
    · rw [getVal?_setVal_ne _ (fun hc => hbd hc.symm)]
      rw [if_neg (fun hc : a = o ∧ b = d => hbd hc.2)]
      rfl
  refine ⟨⟨setVal g.out_edges o (popKey oe d),
           setVal g.in_edges d (popKey ie o)⟩, ?_, ?_, hedge, ?_⟩
  · simp [remove_edge, hoe, hie]
  · show keysOf (setVal g.out_edges o (popKey oe d)) = g.nodes
    exact keysOf_setVal_of_mem _ ho
  · refine WF_of ?_ ?_ ?_ ?_ ?_
    · show keysOf (setVal g.out_edges o (popKey oe d)) =
        keysOf (setVal g.in_edges d (popKey ie o))
      rw [keysOf_setVal_of_mem _ ho, keysOf_setVal_of_mem _ hd', hw.1]
    · show (keysOf (setVal g.out_edges o (popKey oe d))).Nodup
      rw [keysOf_setVal_of_mem _ ho]
      exact hw.2.1
    · intro m l hl
      by_cases hmo : m = o
      · subst hmo
        rw [getVal?_setVal_self] at hl
        rw [← Option.some_inj.1 hl, keysOf_popKey]
        exact (hw.out_inner_nodup hoe).erase d
      · rw [getVal?_setVal_ne _ (fun hc => hmo hc.symm)] at hl
        exact hw.out_inner_nodup hl
    · intro m l hl
      by_cases hmd : m = d
      · subst hmd
        rw [getVal?_setVal_self] at hl
        rw [← Option.some_inj.1 hl, keysOf_popKey]
        exact (hw.in_inner_nodup hie).erase o
      · rw [getVal?_setVal_ne _ (fun hc => hmd hc.symm)] at hl
        exact hw.in_inner_nodup hl
    · intro a b x
      rw [hedge a b, hinv a b]
      by_cases hc : a = o ∧ b = d
      · simp [hc]
      · simp only [if_neg hc]
        exact hw.mirror

/-- Specification of the cleanup folds in `remove_node`: popping `n` out of
the inner dict of every key in `ds`. -/
theorem foldl_popInner_spec {n : N} (ds : List (N × E))
    (m : List (N × List (N × E)))
    (hmem : ∀ d ∈ keysOf ds, d ∈ keysOf m) (hds : (keysOf ds).Nodup) :
    ∃ m', (keysOf ds).foldlM (fun acc d => popInner acc d n) m = some m' ∧
      keysOf m' = keysOf m ∧
      ∀ k, getVal? m' k =
        if k ∈ keysOf ds then (getVal? m k).map (fun l => popKey l n)
        else getVal? m k := by
  induction ds generalizing m with
  | nil =>
    refine ⟨m, rfl, rfl, ?_⟩
    intro k
    simp [keysOf]
  | cons p t ih =>
    obtain ⟨d, w⟩ := p
    rw [keysOf_cons] at hmem hds ⊢
    have hd : d ∈ keysOf m := hmem d (List.mem_cons_self _ _)
    rcases Option.isSome_iff_exists.1 ((getVal?_isSome (l := m)).2 hd)
      with ⟨ld, hld⟩
    have hstep : popInner m d n = some (setVal m d (popKey ld n)) := by
      simp [popInner, hld]
    have hmem' : ∀ x ∈ keysOf t, x ∈ keysOf (setVal m d (popKey ld n)) := by
      intro x hx
      rw [keysOf_setVal_of_mem _ hd]
      exact hmem x (List.mem_cons_of_mem _ hx)
    rcases ih (setVal m d (popKey ld n)) hmem' (List.nodup_cons.1 hds).2
      with ⟨m', hm', hkeys, hget⟩
    refine ⟨m', ?_, ?_, ?_⟩
    · rw [List.foldlM_cons, hstep]
      exact hm'
    · rw [hkeys, keysOf_setVal_of_mem _ hd]
    · intro k
      rw [hget k]
      by_cases hkt : k ∈ keysOf t
      · have hkd : k ≠ d := fun hc => (List.nodup_cons.1 hds).1 (hc ▸ hkt)
        rw [if_pos hkt, if_pos (List.mem_cons_of_mem _ hkt)]
        rw [getVal?_setVal_ne _ (fun hc => hkd hc.symm)]
      · rw [if_neg hkt]
        by_cases hkd : k = d
        · subst hkd
          rw [getVal?_setVal_self, if_pos (List.mem_cons_self _ _), hld]
          rfl
        · rw [getVal?_setVal_ne _ (fun hc => hkd hc.symm)]
          rw [if_neg (by simp [hkd, hkt])]

theorem remove_node_spec {g : Graph N E} (hw : g.WF) {n : N}
    (hn : n ∈ g.nodes) :
    ∃ g', g.remove_node n = some g' ∧ g'.WF ∧
      g'.nodes = g.nodes.erase n ∧
      (∀ a b, g'.edge a b = if a = n ∨ b = n then none else g.edge a b) ∧
      (∀ m l, getVal? g'.out_edges m = some l → n ∉ keysOf l) ∧
      (∀ m l, getVal? g'.in_edges m = some l → n ∉ keysOf l) := by
  rcases Option.isSome_iff_exists.1 ((getVal?_isSome (l := g.out_edges)).2 hn)
    with ⟨oe, hoe⟩
  have hn' : n ∈ keysOf g.in_edges := hw.in_keys ▸ hn
  rcases Option.isSome_iff_exists.1 ((getVal?_isSome (l := g.in_edges)).2 hn')
    with ⟨ie, hie⟩
  have hsucc_in : ∀ d ∈ keysOf oe, d ∈ keysOf g.in_edges := by
    intro d hd
    rcases Option.isSome_iff_exists.1 ((getVal?_isSome (l := oe)).2 hd)
      with ⟨e, he⟩
    have := hw.mirror.1 (show g.edge n d = some e by simp [edge, hoe, he])
    rcases Option.bind_eq_some.1 this with ⟨l, hl, _⟩
    rw [← getVal?_isSome (l := g.in_edges)]
    simp [hl]
  have hpred_out : ∀ o ∈ keysOf ie, o ∈ keysOf g.out_edges := by
    intro o hoi
    rcases Option.isSome_iff_exists.1 ((getVal?_isSome (l := ie)).2 hoi)
      with ⟨e, he⟩
    have := hw.mirror.2 (show g.inEdgeVal o n = some e by
      simp [inEdgeVal, hie, he])
    rcases Option.bind_eq_some.1 this with ⟨l, hl, _⟩
    rw [← getVal?_isSome (l := g.out_edges)]
    simp [hl]
  rcases foldl_popInner_spec (n := n) oe g.in_edges hsucc_in
    (hw.out_inner_nodup hoe) with ⟨ins, hins, hinskeys, hinsget⟩
  rcases foldl_popInner_spec (n := n) ie g.out_edges
    (fun o ho => hpred_out o ho) (hw.in_inner_nodup hie)
    with ⟨outs, houts, houtskeys, houtsget⟩
  -- mirror membership: `n` occurs in the out-list of `a` iff `a` is a key of
  -- `ie`, and in the in-list of `b` iff `b` is a key of `oe`.
  have hmirror_out : ∀ a l, getVal? g.out_edges a = some l →
      (n ∈ keysOf l ↔ a ∈ keysOf ie) := by
    intro a l hl
    constructor
    · intro hnl
      rcases Option.isSome_iff_exists.1 ((getVal?_isSome (l := l)).2 hnl)
        with ⟨e, he⟩
      have := hw.mirror.1 (show g.edge a n = some e by simp [edge, hl, he])
      rw [inEdgeVal, hie] at this
      simp only [Option.some_bind] at this
      rw [← getVal?_isSome (l := ie)]
      simp [this]
    · intro hai
      rcases Option.isSome_iff_exists.1 ((getVal?_isSome (l := ie)).2 hai)
        with ⟨e, he⟩
      have := hw.mirror.2 (show g.inEdgeVal a n = some e by
        simp [inEdgeVal, hie, he])
      rw [edge, hl] at this
      simp only [Option.some_bind] at this
      rw [← getVal?_isSome (l := l)]
      simp [this]
  have hmirror_in : ∀ b l, getVal? g.in_edges b = some l →
      (n ∈ keysOf l ↔ b ∈ keysOf oe) := by
    intro b l hl
    constructor
    · intro hnl
      rcases Option.isSome_iff_exists.1 ((getVal?_isSome (l := l)).2 hnl)
        with ⟨e, he⟩
      have := hw.mirror.2 (show g.inEdgeVal n b = some e by
        simp [inEdgeVal, hl, he])
      rw [edge, hoe] at this
      simp only [Option.some_bind] at this
      rw [← getVal?_isSome (l := oe)]
      simp [this]
    · intro hbo
      rcases Option.isSome_iff_exists.1 ((getVal?_isSome (l := oe)).2 hbo)
        with ⟨e, he⟩
      have := hw.mirror.1 (show g.edge n b = some e by simp [edge, hoe, he])
      rw [inEdgeVal, hl] at this
      simp only [Option.some_bind] at this
      rw [← getVal?_isSome (l := l)]
      simp [this]
  have houtnd : (keysOf outs).Nodup := houtskeys ▸ hw.2.1
  have hinnd : (keysOf ins).Nodup := hinskeys ▸ hw.in_nodup
  -- pointwise description of the final outgoing index
  have hgout : ∀ a, getVal? (popKey outs n) a =
      if a = n then none
      else (getVal? g.out_edges a).map (fun l => popKey l n) := by
    intro a
    by_cases han : a = n
    · subst han
      simp [getVal?_popKey_self houtnd]
    · rw [getVal?_popKey_ne (fun hc => han hc.symm), houtsget a, if_neg han]
      by_cases hai : a ∈ keysOf ie
      · rw [if_pos hai]
      · rw [if_neg hai]
        cases hga : getVal? g.out_edges a with
        | none => rfl
        | some l =>
          have hnl : n ∉ keysOf l := fun hc => hai ((hmirror_out a l hga).1 hc)
          simp [popKey_eq_of_not_mem hnl]
  have hgin : ∀ b, getVal? (popKey ins n) b =
      if b = n then none
      else (getVal? g.in_edges b).map (fun l => popKey l n) := by
    intro b
    by_cases hbn : b = n
    · subst hbn
      simp [getVal?_popKey_self hinnd]
    · rw [getVal?_popKey_ne (fun hc => hbn hc.symm), hinsget b, if_neg hbn]
      by_cases hbo : b ∈ keysOf oe
      · rw [if_pos hbo]
      · rw [if_neg hbo]
        cases hgb : getVal? g.in_edges b with
        | none => rfl
        | some l =>
          have hnl : n ∉ keysOf l := fun hc => hbo ((hmirror_in b l hgb).1 hc)
          simp [popKey_eq_of_not_mem hnl]
  have hedge : ∀ a b, (Graph.mk (popKey outs n) (popKey ins n)
      : Graph N E).edge a b = if a = n ∨ b = n then none else g.edge a b := by
    intro a b
    show ((getVal? (popKey outs n) a).bind fun l => getVal? l b) = _
    rw [hgout a]
    by_cases han : a = n
    · simp [han]
    · rw [if_neg han]
      cases hga : getVal? g.out_edges a with
      | none => simp [edge, hga, if_neg, han]
      | some l =>
        simp only [Option.map_some', Option.some_bind]
        by_cases hbn : b = n
        · subst hbn
          rw [getVal?_popKey_self]
          · simp [han]
          · exact hw.out_inner_nodup hga
        · rw [getVal?_popKey_ne (fun hc => hbn hc.symm)]
          rw [if_neg (by simp [han, hbn])]
          simp [edge, hga]
  have hinv : ∀ a b, (Graph.mk (popKey outs n) (popKey ins n)
      : Graph N E).inEdgeVal a b =
      if a = n ∨ b = n then none else g.inEdgeVal a b := by
    intro a b
    show ((getVal? (popKey ins n) b).bind fun l => getVal? l a) = _
    rw [hgin b]
    by_cases hbn : b = n
    · simp [hbn]
    · rw [if_neg hbn]
      cases hgb : getVal? g.in_edges b with
      | none => simp [inEdgeVal, hgb, hbn]
      | some l =>
        simp only [Option.map_some', Option.some_bind]
        by_cases han : a = n
        · subst han
          rw [getVal?_popKey_self]
          · simp
          · exact hw.in_inner_nodup hgb
        · rw [getVal?_popKey_ne (fun hc => han hc.symm)]
          rw [if_neg (by simp [han, hbn])]
          simp [inEdgeVal, hgb]
  refine ⟨⟨popKey outs n, popKey ins n⟩, ?_, ?_, ?_, hedge, ?_, ?_⟩
  · rw [remove_node, hoe, hie]
    simp only [Option.bind_eq_bind]
    rw [show (keysOf oe).foldlM (fun m d => popInner m d n) g.in_edges =
      some ins from hins]
    rw [Option.some_bind]
    rw [show (keysOf ie).foldlM (fun m o => popInner m o n) g.out_edges =
      some outs from houts]
    rfl
  · refine WF_of ?_ ?_ ?_ ?_ ?_
    · show keysOf (popKey outs n) = keysOf (popKey ins n)
      rw [keysOf_popKey, keysOf_popKey, houtskeys, hinskeys, hw.1]
    · show (keysOf (popKey outs n)).Nodup
      rw [keysOf_popKey]
      exact houtnd.erase n
    · intro m l hl
      rw [hgout m] at hl
      by_cases hmn : m = n
      · rw [if_pos hmn] at hl
        cases hl
      · rw [if_neg hmn] at hl
        rcases Option.map_eq_some'.1 hl with ⟨l0, hl0, hll⟩
        rw [← hll, keysOf_popKey]
        exact (hw.out_inner_nodup hl0).erase n
    · intro m l hl
      rw [hgin m] at hl
      by_cases hmn : m = n
      · rw [if_pos hmn] at hl
        cases hl
      · rw [if_neg hmn] at hl
        rcases Option.map_eq_some'.1 hl with ⟨l0, hl0, hll⟩
        rw [← hll, keysOf_popKey]
        exact (hw.in_inner_nodup hl0).erase n
    · intro a b x
      rw [hedge a b, hinv a b]
      by_cases hc : a = n ∨ b = n
      · simp [hc]
      · simp only [if_neg hc]
        exact hw.mirror
  · show keysOf (popKey outs n) = g.nodes.erase n
    rw [keysOf_popKey, houtskeys]
    rfl
  · intro m l hl
    rw [hgout m] at hl
    by_cases hmn : m = n
    · rw [if_pos hmn] at hl
      cases hl
    · rw [if_neg hmn] at hl
      rcases Option.map_eq_some'.1 hl with ⟨l0, hl0, hll⟩
      rw [← hll, keysOf_popKey]
      exact (hw.out_inner_nodup hl0).not_mem_erase
  · intro m l hl
    rw [hgin m] at hl
    by_cases hmn : m = n
    · rw [if_pos hmn] at hl
      cases hl
    · rw [if_neg hmn] at hl
      rcases Option.map_eq_some'.1 hl with ⟨l0, hl0, hll⟩
      rw [← hll, keysOf_popKey]
      exact (hw.in_inner_nodup hl0).not_mem_erase

/-- The update loop run from an accumulator that already holds a prefix of
the source graph rebuilds the source exactly. -/
theorem update_prefix {g : Graph N E} (hw : g.WF) :
    ∀ (o₂ : List (N × List (N × E))) (o₁ i₁ i₂ : List (N × List (N × E))),
      g.out_edges = o₁ ++ o₂ → g.in_edges = i₁ ++ i₂ →
      keysOf o₁ = keysOf i₁ → keysOf o₂ = keysOf i₂ →
      (keysOf o₂).foldlM (updateNode g) (⟨o₁, i₁⟩ : Graph N E) = some g := by
  intro o₂
  induction o₂ with
  | nil =>
    intro o₁ i₁ i₂ hout hin _ hk2
    have hi2 : i₂ = [] := by
      rw [keysOf_nil] at hk2
      cases i₂ with
      | nil => rfl
      | cons q t => exact absurd hk2.symm (by rw [keysOf_cons]; simp)
    subst hi2
    rw [List.append_nil] at hout hin
    rw [keysOf_nil, List.foldlM_nil]
    rw [← hout, ← hin]
    rfl
  | cons p o₂' ih =>
    intro o₁ i₁ i₂ hout hin hk1 hk2
    obtain ⟨n, oe⟩ := p
    rw [keysOf_cons] at hk2
    obtain ⟨q, i₂', hi2⟩ : ∃ q t, i₂ = q :: t := by
      cases i₂ with
      | nil => exact absurd hk2 (by rw [keysOf_nil]; simp)
      | cons q t => exact ⟨q, t, rfl⟩
    obtain ⟨n₂, ie⟩ := q
    subst hi2
    rw [keysOf_cons] at hk2
    have hn2 : n = n₂ := by
      have := congrArg List.head? hk2
      simpa using this
    subst hn2
    have hk2t : keysOf o₂' = keysOf i₂' := by
      have := congrArg List.tail hk2
      simpa using this
    have hkeys : keysOf g.out_edges = keysOf o₁ ++ n :: keysOf o₂' := by
      rw [hout, keysOf_append, keysOf_cons]
    have hnd := hw.2.1
    rw [hkeys] at hnd
    have hno₁ : n ∉ keysOf o₁ := by
      intro hc
      exact (List.disjoint_of_nodup_append hnd) hc (by simp)
    have hni₁ : n ∉ keysOf i₁ := hk1 ▸ hno₁
    have hgoutn : getVal? g.out_edges n = some oe := by
      rw [hout, getVal?_append, getVal?_eq_none.2 hno₁]
      simp [getVal?]
    have hginn : getVal? g.in_edges n = some ie := by
      rw [hin, getVal?_append, getVal?_eq_none.2 hni₁]
      simp [getVal?]
    have hstep : updateNode g (⟨o₁, i₁⟩ : Graph N E) n =
        some (⟨o₁ ++ [(n, oe)], i₁ ++ [(n, ie)]⟩ : Graph N E) := by
      have hadd : (⟨o₁, i₁⟩ : Graph N E).add_node n =
          (⟨o₁ ++ [(n, [])], i₁ ++ [(n, [])]⟩ : Graph N E) := by
        show (⟨setdefault o₁ n [], setdefault i₁ n []⟩ : Graph N E) = _
        rw [setdefault, setdefault, getVal?_eq_none.2 hno₁,
          getVal?_eq_none.2 hni₁]
      rw [updateNode, hadd]
      show (match getVal? (o₁ ++ [(n, [])]) n, getVal? (i₁ ++ [(n, [])]) n,
          getVal? g.out_edges n, getVal? g.in_edges n with
        | some ao, some ai, some bo, some bi =>
            some (⟨setVal (o₁ ++ [(n, [])]) n (dictUpdate ao bo),
              setVal (i₁ ++ [(n, [])]) n (dictUpdate ai bi)⟩ : Graph N E)
        | _, _, _, _ => none) = _
      rw [getVal?_append_right (getVal?_eq_none.2 hno₁), getVal?_singleton_self]
      rw [getVal?_append_right (getVal?_eq_none.2 hni₁), getVal?_singleton_self]
      rw [hgoutn, hginn]
      dsimp only
      rw [setVal_append_of_not_mem_left _ hno₁,
        setVal_append_of_not_mem_left _ hni₁]
      rw [show setVal [(n, ([] : List (N × E)))] n (dictUpdate [] oe) =
        [(n, dictUpdate [] oe)] by simp [setVal]]
      rw [show setVal [(n, ([] : List (N × E)))] n (dictUpdate [] ie) =
        [(n, dictUpdate [] ie)] by simp [setVal]]
      rw [dictUpdate_nil (hw.out_inner_nodup hgoutn),
        dictUpdate_nil (hw.in_inner_nodup hginn)]
    rw [keysOf_cons, List.foldlM_cons, hstep, Option.bind_eq_bind,
      Option.some_bind]
    exact ih (o₁ ++ [(n, oe)]) (i₁ ++ [(n, ie)]) i₂'
      (by rw [hout]; simp) (by rw [hin]; simp)
      (by rw [keysOf_append, keysOf_append, hk1]; rfl)
      hk2t

/-- Copying a well-formed graph rebuilds it exactly: the private copy that
`topological_sort` consumes coincides with the caller's graph. -/
theorem copy_eq {g : Graph N E} (hw : g.WF) : g.copy = some g := by
  rw [copy, update]
  exact update_prefix hw g.out_edges [] [] g.in_edges rfl rfl rfl hw.1

theorem WF.edge_none_iff {g : Graph N E} (hw : g.WF) {o d : N} :
    g.edge o d = none ↔ g.inEdgeVal o d = none := by
  constructor
  · intro h
    cases hv : g.inEdgeVal o d with
    | none => rfl
    | some v => rw [hw.mirror.2 hv] at h; cases h
  · intro h
    cases hv : g.edge o d with
    | none => rfl
    | some v => rw [hw.mirror.1 hv] at h; cases h

/-- Merge of one node's inner dict during `Graph.update`. -/
def mergeVal (gv ov : Option (List (N × E))) : Option (List (N × E)) :=
  match ov with
  | none => gv
  | some bo => some (dictUpdate (gv.getD []) bo)

theorem update_fold {g other : Graph N E} (hwg : g.WF) (hwo : other.WF) :
    ∀ (Q P : List N) (acc : Graph N E),
      other.nodes = P ++ Q →
      keysOf acc.out_edges = keysOf g.out_edges ++
        P.filter (fun x => decide (x ∉ keysOf g.out_edges)) →
      keysOf acc.in_edges = keysOf g.in_edges ++
        P.filter (fun x => decide (x ∉ keysOf g.in_edges)) →
      (∀ m, getVal? acc.out_edges m = if m ∈ P then
        mergeVal (getVal? g.out_edges m) (getVal? other.out_edges m)
        else getVal? g.out_edges m) →
      (∀ m, getVal? acc.in_edges m = if m ∈ P then
        mergeVal (getVal? g.in_edges m) (getVal? other.in_edges m)
        else getVal? g.in_edges m) →
      ∃ r, Q.foldlM (updateNode other) acc = some r ∧
        keysOf r.out_edges = keysOf g.out_edges ++
          other.nodes.filter (fun x => decide (x ∉ keysOf g.out_edges)) ∧
        keysOf r.in_edges = keysOf g.in_edges ++
          other.nodes.filter (fun x => decide (x ∉ keysOf g.in_edges)) ∧
        (∀ m, getVal? r.out_edges m = if m ∈ other.nodes then
          mergeVal (getVal? g.out_edges m) (getVal? other.out_edges m)
          else getVal? g.out_edges m) ∧
        (∀ m, getVal? r.in_edges m = if m ∈ other.nodes then
          mergeVal (getVal? g.in_edges m) (getVal? other.in_edges m)
          else getVal? g.in_edges m) := by
  intro Q
  induction Q with
  | nil =>
    intro P acc hsplit hko hki hmo hmi
    rw [List.append_nil] at hsplit
    subst hsplit
    exact ⟨acc, rfl, hko, hki, hmo, hmi⟩
  | cons n Q' ih =>
    intro P acc hsplit hko hki hmo hmi
    have hnmem : n ∈ other.nodes := by rw [hsplit]; simp
    have hnP : n ∉ P := by
      have := hwo.nodes_nodup
      rw [hsplit] at this
      have hd := List.disjoint_of_nodup_append this
      exact fun hc => hd hc (by simp)
    have hbo : ∃ bo, getVal? other.out_edges n = some bo :=
      Option.isSome_iff_exists.1 ((getVal?_isSome (l := other.out_edges)).2
        hnmem)
    rcases hbo with ⟨bo, hbo⟩
    have hbi : ∃ bi, getVal? other.in_edges n = some bi :=
      Option.isSome_iff_exists.1 ((getVal?_isSome (l := other.in_edges)).2
        (hwo.in_keys ▸ hnmem))
    rcases hbi with ⟨bi, hbi⟩
    have haccn_out : getVal? acc.out_edges n = getVal? g.out_edges n := by
      rw [hmo n, if_neg hnP]
    have haccn_in : getVal? acc.in_edges n = getVal? g.in_edges n := by
      rw [hmi n, if_neg hnP]
    -- the state after `add_node`
    have hmain : ∃ acc₂ : Graph N E,
        acc.add_node n = acc₂ ∧
        getVal? acc₂.out_edges n = some ((getVal? g.out_edges n).getD []) ∧
        getVal? acc₂.in_edges n = some ((getVal? g.in_edges n).getD []) ∧
        (∀ m, m ≠ n → getVal? acc₂.out_edges m = getVal? acc.out_edges m) ∧
        (∀ m, m ≠ n → getVal? acc₂.in_edges m = getVal? acc.in_edges m) ∧
        keysOf acc₂.out_edges = keysOf acc.out_edges ++
          (if n ∈ keysOf g.out_edges then [] else [n]) ∧
        keysOf acc₂.in_edges = keysOf acc.in_edges ++
          (if n ∈ keysOf g.in_edges then [] else [n]) := by
      by_cases hgn : n ∈ keysOf g.out_edges
      · rcases Option.isSome_iff_exists.1
          ((getVal?_isSome (l := g.out_edges)).2 hgn) with ⟨lo, hlo⟩
        have hgn' : n ∈ keysOf g.in_edges := hwg.1 ▸ hgn
        rcases Option.isSome_iff_exists.1
          ((getVal?_isSome (l := g.in_edges)).2 hgn') with ⟨li, hli⟩
        refine ⟨acc, ?_, ?_, ?_, fun _ _ => rfl, fun _ _ => rfl,
          by simp [hgn], by simp [hgn']⟩
        · show (⟨setdefault acc.out_edges n [], setdefault acc.in_edges n []⟩
            : Graph N E) = acc
          rw [setdefault, setdefault, haccn_out, hlo, haccn_in, hli]
        · rw [haccn_out, hlo]
          rfl
        · rw [haccn_in, hli]
          rfl
      · have hgn' : n ∉ keysOf g.in_edges := hwg.1 ▸ hgn
        have hlo : getVal? g.out_edges n = none := getVal?_eq_none.2 hgn
        have hli : getVal? g.in_edges n = none := getVal?_eq_none.2 hgn'
        refine ⟨⟨acc.out_edges ++ [(n, [])], acc.in_edges ++ [(n, [])]⟩,
          ?_, ?_, ?_, ?_, ?_, by simp [hgn, keysOf_append]; rfl,
          by simp [hgn', keysOf_append]; rfl⟩
        · show (⟨setdefault acc.out_edges n [], setdefault acc.in_edges n []⟩
            : Graph N E) = _
          rw [setdefault, setdefault, haccn_out, hlo, haccn_in, hli]
        · show getVal? (acc.out_edges ++ [(n, [])]) n = _
          rw [getVal?_append_right (haccn_out.trans hlo),
            getVal?_singleton_self, hlo]
          rfl
        · show getVal? (acc.in_edges ++ [(n, [])]) n = _
          rw [getVal?_append_right (haccn_in.trans hli),
            getVal?_singleton_self, hli]
          rfl
        · intro m hm
          show getVal? (acc.out_edges ++ [(n, [])]) m = _
          rw [getVal?_append]
          cases ham : getVal? acc.out_edges m with
          | some v => rfl
          | none => simp [getVal?_singleton_ne (fun hc => hm hc.symm)]
        · intro m hm
          show getVal? (acc.in_edges ++ [(n, [])]) m = _
          rw [getVal?_append]
          cases ham : getVal? acc.in_edges m with
          | some v => rfl
          | none => simp [getVal?_singleton_ne (fun hc => hm hc.symm)]
    rcases hmain with ⟨acc₂, hacc₂, ha2on, ha2in, ha2o, ha2i, hk2o, hk2i⟩
    have hstep : updateNode other acc n =
        some (⟨setVal acc₂.out_edges n
            (dictUpdate ((getVal? g.out_edges n).getD []) bo),
          setVal acc₂.in_edges n
            (dictUpdate ((getVal? g.in_edges n).getD []) bi)⟩ : Graph N E) := by
      rw [updateNode, hacc₂, ha2on, ha2in, hbo, hbi]
    rw [List.foldlM_cons, hstep, Option.bind_eq_bind, Option.some_bind]
    have hn2o : n ∈ keysOf acc₂.out_edges := by
      rw [← getVal?_isSome (l := acc₂.out_edges)]
      simp [ha2on]
    have hn2i : n ∈ keysOf acc₂.in_edges := by
      rw [← getVal?_isSome (l := acc₂.in_edges)]
      simp [ha2in]
    refine ih (P ++ [n]) _ (by rw [hsplit]; simp) ?_ ?_ ?_ ?_
    · show keysOf (setVal acc₂.out_edges n _) = _
      rw [keysOf_setVal_of_mem _ hn2o, hk2o, hko, List.filter_append,
        List.append_assoc]
      congr 1
      by_cases hgn : n ∈ keysOf g.out_edges <;> simp [hgn]
    · show keysOf (setVal acc₂.in_edges n _) = _
      rw [keysOf_setVal_of_mem _ hn2i, hk2i, hki, List.filter_append,
        List.append_assoc]
      congr 1
      by_cases hgn : n ∈ keysOf g.in_edges <;> simp [hgn]
    · intro m
      by_cases hm : m = n
      · subst hm
        show getVal? (setVal acc₂.out_edges m _) m = _
        rw [getVal?_setVal_self, if_pos (by simp), hbo]
        rfl
      · show getVal? (setVal acc₂.out_edges n _) m = _
        rw [getVal?_setVal_ne _ (fun hc => hm hc.symm), ha2o m hm, hmo m]
        by_cases hmP : m ∈ P
        · rw [if_pos hmP, if_pos (by simp [hmP])]
        · rw [if_neg hmP, if_neg (by simp [hmP, hm])]
    · intro m
      by_cases hm : m = n
      · subst hm
        show getVal? (setVal acc₂.in_edges m _) m = _
        rw [getVal?_setVal_self, if_pos (by simp), hbi]
        rfl
      · show getVal? (setVal acc₂.in_edges n _) m = _
        rw [getVal?_setVal_ne _ (fun hc => hm hc.symm), ha2i m hm, hmi m]
        by_cases hmP : m ∈ P
        · rw [if_pos hmP, if_pos (by simp [hmP])]
        · rw [if_neg hmP, if_neg (by simp [hmP, hm])]

theorem update_spec {g other : Graph N E} (hwg : g.WF) (hwo : other.WF) :
    ∃ r, g.update other = some r ∧ r.WF ∧
      r.nodes = g.nodes ++ other.nodes.filter (fun x => decide (x ∉ g.nodes)) ∧
      (∀ a b, r.edge a b =
        match other.edge a b with
        | some v => some v
        | none => g.edge a b) := by
  rcases update_fold hwg hwo other.nodes [] g (by simp)
    (by simp) (by simp) (by intro m; simp) (by intro m; simp)
    with ⟨r, hr, hko, hki, hmo, hmi⟩
  have hedge : ∀ a b, r.edge a b =
      match other.edge a b with
      | some v => some v
      | none => g.edge a b := by
    intro a b
    rw [edge, hmo a]
    by_cases ha : a ∈ other.nodes
    · rw [if_pos ha]
      rcases Option.isSome_iff_exists.1
        ((getVal?_isSome (l := other.out_edges)).2 ha) with ⟨bo, hbo⟩
      rw [hbo]
      show ((some (dictUpdate ((getVal? g.out_edges a).getD []) bo)).bind
        fun oe => getVal? oe b) = _
      rw [Option.some_bind]
      rw [getVal?_dictUpdate (hwo.out_inner_nodup hbo)]
      have hoe : other.edge a b = getVal? bo b := by simp [edge, hbo]
      rw [hoe]
      cases hbob : getVal? bo b with
      | some v => rfl
      | none =>
        cases hga : getVal? g.out_edges a with
        | some l => simp [edge, hga]
        | none => simp [edge, hga, getVal?]
    · rw [if_neg ha]
      have : getVal? other.out_edges a = none :=
        getVal?_eq_none.2 (fun hc => ha hc)
      simp [edge, this]
  have hinvf : ∀ a b, r.inEdgeVal a b =
      match other.inEdgeVal a b with
      | some v => some v
      | none => g.inEdgeVal a b := by
    intro a b
    rw [inEdgeVal, hmi b]
    by_cases hb : b ∈ keysOf other.in_edges
    · rw [if_pos (hwo.in_keys ▸ hb)]
      rcases Option.isSome_iff_exists.1
        ((getVal?_isSome (l := other.in_edges)).2 hb) with ⟨bi, hbi⟩
      rw [hbi]
      show ((some (dictUpdate ((getVal? g.in_edges b).getD []) bi)).bind
        fun ie => getVal? ie a) = _
      rw [Option.some_bind]
      rw [getVal?_dictUpdate (hwo.in_inner_nodup hbi)]
      have hie : other.inEdgeVal a b = getVal? bi a := by simp [inEdgeVal, hbi]
      rw [hie]
      cases hbia : getVal? bi a with
      | some v => rfl
      | none =>
        cases hgb : getVal? g.in_edges b with
        | some l => simp [inEdgeVal, hgb]
        | none => simp [inEdgeVal, hgb, getVal?]
    · rw [if_neg (fun hc => hb (hwo.in_keys ▸ hc))]
      have : getVal? other.in_edges b = none := getVal?_eq_none.2 hb
      simp [inEdgeVal, this]
  refine ⟨r, hr, ?_, hko, hedge⟩
  refine WF_of ?_ ?_ ?_ ?_ ?_
  · rw [hko, hki, hwg.1]
  · rw [hko]
    refine List.Nodup.append hwg.2.1
      (List.Nodup.filter _ hwo.nodes_nodup) ?_
    intro x hx hxf
    rcases List.mem_filter.1 hxf with ⟨_, hdec⟩
    have hout : x ∉ keysOf g.out_edges := by simpa using hdec
    exact hout hx
  · intro m l hl
    rw [hmo m] at hl
    by_cases hm : m ∈ other.nodes
    · rw [if_pos hm] at hl
      cases hbo : getVal? other.out_edges m with
      | none =>
        rw [hbo] at hl
        exact hwg.out_inner_nodup hl
      | some bo =>
        rw [hbo] at hl
        rw [← Option.some_inj.1 hl]
        refine nodup_keysOf_dictUpdate (hwo.out_inner_nodup hbo) ?_
        cases hga : getVal? g.out_edges m with
        | none => simp [keysOf]
        | some l0 => simpa using hwg.out_inner_nodup hga
    · rw [if_neg hm] at hl
      exact hwg.out_inner_nodup hl
  · intro m l hl
    rw [hmi m] at hl
    by_cases hm : m ∈ other.nodes
    · rw [if_pos hm] at hl
      cases hbi : getVal? other.in_edges m with
      | none =>
        rw [hbi] at hl
        exact hwg.in_inner_nodup hl
      | some bi =>
        rw [hbi] at hl
        rw [← Option.some_inj.1 hl]
        refine nodup_keysOf_dictUpdate (hwo.in_inner_nodup hbi) ?_
        cases hga : getVal? g.in_edges m with
        | none => simp [keysOf]
        | some l0 => simpa using hwg.in_inner_nodup hga
    · rw [if_neg hm] at hl
      exact hwg.in_inner_nodup hl
  · intro o d x
    rw [hedge o d, hinvf o d]
    cases hov : other.edge o d with
    | some v =>
      rw [hwo.mirror.1 hov]
    | none =>
      rw [hwo.edge_none_iff.1 hov]
      exact hwg.mirror

theorem WF_empty : (empty : Graph N E).WF := by
  refine ⟨rfl, List.nodup_nil, ?_, ?_, ?_, ?_⟩ <;> intro p hp <;> cases hp

end Graph

section TopologicalSort

variable {N : Type} {E : Type} [DecidableEq N]

/-- Modelled from the spec: `sort_key_from_iter` lives in `ssort._utils`,
which is not part of the sources at hand.  Per spec §4.4 and §6 it maps a
node to its zero-based position in the reference sequence, with a defined
fallback for nodes absent from the sequence — we place those after all
present nodes, the policy the spec offers as its example. -/
def sort_key_from_iter (ns : List N) (n : N) : Nat :=
  match ns.findIdx? (fun x => decide (x = n)) with
  | some i => i
  | none => ns.length

/-- Stable insertion of one element into a list sorted by `key` ascending:
the element lands before the first strictly-later entry with a key not
smaller than its own, so earlier input stays first among equal keys — the
stability contract of Python `sorted`. -/
def insertByKey (key : N → Nat) (x : N) : List N → List N
  | [] => [x]
  | y :: ys => if key x ≤ key y then x :: y :: ys else y :: insertByKey key x ys

/-- Stable ascending sort by key, as Python `sorted(pending, key=key)`. -/
def sortByKey (key : N → Nat) (l : List N) : List N :=
  l.foldr (insertByKey key) []

/-- Errors of the embedded `topological_sort`: Python `KeyError`, the
`assert not remaining.nodes` failure (a residual cycle), the
`assert is_topologically_sorted(...)` failure, and exhaustion of the
recursion fuel (never reached; the fuel paid covers every run). -/
inductive SortErr
  | keyError
  | cycleAssert
  | orderAssert
  | fuelOut
deriving DecidableEq

/-- The inner `for dependency in dependencies` loop of `topological_sort`:
a dependency whose predecessor set just became empty is queued, unless it
is already pending. -/
def depPass (remaining : Graph N E) (pending : List N) (deps : List N) :
    Option (List N) :=
  deps.foldlM (fun pnd dep =>
    match remaining.predecessors dep with
    | none => none
    | some ps => some (if ps.isEmpty ∧ dep ∉ pnd then pnd ++ [dep] else pnd))
    pending

/-- The `while pending:` loop of `topological_sort`: sort the pending list
by rank, pop the last (highest-ranked) node, snapshot its successors,
remove it from the working graph, queue its now-free dependencies and
record the node. -/
def sortLoop (key : N → Nat) :
    Nat → List N → Graph N E → List N → Except SortErr (List N × Graph N E)
  | fuel, pending, remaining, result =>
    match (sortByKey key pending).reverse with
    | [] => .ok (result, remaining)
    | node :: restRev =>
      match fuel with
      | 0 => .error .fuelOut
      | fuel + 1 =>
        match remaining.successors node with
        | none => .error .keyError
        | some dependencies =>
          match remaining.remove_node node with
          | none => .error .keyError
          | some remaining' =>
            match depPass remaining' restRev.reverse dependencies with
            | none => .error .keyError
            | some pending' =>
              sortLoop key fuel pending' remaining' (result ++ [node])

/-- Embedding of `is_topologically_sorted`: walk the list accumulating a
visited set, demanding every successor of a node be already visited (the
node itself included). -/
def istsGo (g : Graph N E) : List N → List N → Option Bool
  | [], _ => some true
  | n :: rest, visited =>
    match g.successors n with
    | none => none
    | some deps =>
      if deps.all (fun d => decide (d ∈ n :: visited)) then
        istsGo g rest (n :: visited)
      else some false

/-- Embedding of `is_topologically_sorted(nodes, graph)`. -/
def is_topologically_sorted (nodes : List N) (g : Graph N E) : Option Bool :=
  istsGo g nodes []

/-- The `pending` seed of `topological_sort`: every graph node without
predecessors, in node order. -/
def initPending (g : Graph N E) : Option (List N) :=
  g.nodes.foldlM (fun acc n =>
    match g.predecessors n with
    | none => none
    | some ps => some (if ps.isEmpty then acc ++ [n] else acc)) []

/-- Body of `topological_sort` once the target has been resolved into a
requested-node list `ns` and a graph (`nodes`/`graph` in the Python code):
copy the graph, build the rank function and the pending seed, run the
loop, reverse, check the two defensive assertions, and filter the result
to the requested nodes. -/
def topological_sort_core (ns : List N) (g : Graph N E) :
    Except SortErr (List N) :=
  match g.copy with
  | none => .error .keyError
  | some remaining =>
    match initPending g with
    | none => .error .keyError
    | some pending =>
      match sortLoop (sort_key_from_iter ns) g.nodes.length pending
          remaining [] with
      | .error e => .error e
      | .ok (result, remaining') =>
        if remaining'.nodes.isEmpty then
          match is_topologically_sorted result.reverse g with
          | none => .error .keyError
          | some true =>
              .ok (result.reverse.filter (fun x => decide (x ∈ ns)))
          | some false => .error .orderAssert
        else .error .cycleAssert

/-- `topological_sort(graph)` — graph-only mode: the requested nodes and the
reference sequence are the graph's own nodes in insertion order. -/
def topological_sort_graph (g : Graph N E) : Except SortErr (List N) :=
  topological_sort_core g.nodes g

/-- `topological_sort(nodes, graph=graph)` — projection mode: an explicit
node list is the requested set and the reference sequence. -/
def topological_sort_list (ns : List N) (g : Graph N E) :
    Except SortErr (List N) :=
  topological_sort_core ns g

/-- Strict precedence in a list: `a` occurs strictly before `b`. -/
def Before (l : List N) (a b : N) : Prop :=
  ∃ l₁ l₂ l₃, l = l₁ ++ a :: l₂ ++ b :: l₃

theorem Before.append_right {l : List N} {a b : N} (h : Before l a b)
    (l' : List N) : Before (l ++ l') a b := by
  rcases h with ⟨l₁, l₂, l₃, rfl⟩
  exact ⟨l₁, l₂, l₃ ++ l', by simp⟩

theorem Before.snoc {l : List N} {a : N} (h : a ∈ l) (b : N) :
    Before (l ++ [b]) a b := by
  rcases List.append_of_mem h with ⟨l₁, l₂, rfl⟩
  exact ⟨l₁, l₂, [], by simp⟩

theorem Before.reverse {l : List N} {a b : N} (h : Before l a b) :
    Before l.reverse b a := by
  rcases h with ⟨l₁, l₂, l₃, rfl⟩
  exact ⟨l₃.reverse, l₂.reverse, l₁.reverse, by simp⟩

theorem Before.filter {l : List N} {a b : N} (p : N → Bool)
    (h : Before l a b) (ha : p a = true) (hb : p b = true) :
    Before (l.filter p) a b := by
  rcases h with ⟨l₁, l₂, l₃, rfl⟩
  refine ⟨l₁.filter p, l₂.filter p, l₃.filter p, ?_⟩
  simp [List.filter_append, ha, hb]

theorem insertByKey_perm (key : N → Nat) (x : N) (l : List N) :
    (insertByKey key x l).Perm (x :: l) := by
  induction l with
  | nil => simp [insertByKey]
  | cons y ys ih =>
    rw [insertByKey]
    by_cases h : key x ≤ key y
    · rw [if_pos h]
    · rw [if_neg h]
      exact (List.Perm.cons y ih).trans (List.Perm.swap x y ys)

theorem sortByKey_perm (key : N → Nat) (l : List N) :
    (sortByKey key l).Perm l := by
  induction l with
  | nil => rfl
  | cons x xs ih =>
    show (insertByKey key x (sortByKey key xs)).Perm _
    exact (insertByKey_perm key x _).trans (ih.cons x)

theorem insertByKey_sorted (key : N → Nat) (x : N) {l : List N}
    (h : l.Pairwise (fun a b => key a ≤ key b)) :
    (insertByKey key x l).Pairwise (fun a b => key a ≤ key b) := by
  induction l with
  | nil => simp [insertByKey]
  | cons y ys ih =>
    rw [List.pairwise_cons] at h
    rw [insertByKey]
    by_cases hxy : key x ≤ key y
    · rw [if_pos hxy]
      refine List.Pairwise.cons ?_ (List.Pairwise.cons h.1 h.2)
      intro z hz
      rcases List.mem_cons.1 hz with rfl | hz
      · exact hxy
      · exact hxy.trans (h.1 z hz)
    · rw [if_neg hxy]
      refine List.Pairwise.cons ?_ (ih h.2)
      intro z hz
      have hz' := (insertByKey_perm key x ys).mem_iff.1 hz
      rcases List.mem_cons.1 hz' with rfl | hz'
      · exact Nat.le_of_not_le hxy
      · exact h.1 z hz'

theorem sortByKey_sorted (key : N → Nat) (l : List N) :
    (sortByKey key l).Pairwise (fun a b => key a ≤ key b) := by
  induction l with
  | nil => exact List.Pairwise.nil
  | cons x xs ih => exact insertByKey_sorted key x ih

theorem sortByKey_eq_self (key : N → Nat) {l : List N}
    (h : l.Pairwise (fun a b => key a ≤ key b)) : sortByKey key l = l := by
  induction l with
  | nil => rfl
  | cons x xs ih =>
    rw [List.pairwise_cons] at h
    show insertByKey key x (sortByKey key xs) = x :: xs
    rw [ih h.2]
    cases xs with
    | nil => rfl
    | cons y ys =>
      rw [insertByKey, if_pos (h.1 y (by simp))]

theorem insertByKey_congr {key₁ key₂ : N → Nat} (x : N) {l : List N}
    (h : ∀ y ∈ l, (key₁ x ≤ key₁ y ↔ key₂ x ≤ key₂ y)) :
    insertByKey key₁ x l = insertByKey key₂ x l := by
  induction l with
  | nil => rfl
  | cons y ys ih =>
    rw [insertByKey, insertByKey]
    by_cases h1 : key₁ x ≤ key₁ y
    · rw [if_pos h1, if_pos ((h y (by simp)).1 h1)]
    · rw [if_neg h1, if_neg (fun hc => h1 ((h y (by simp)).2 hc))]
      rw [ih (fun z hz => h z (by simp [hz]))]

theorem sortByKey_congr {key₁ key₂ : N → Nat} {l : List N}
    (h : ∀ a ∈ l, ∀ b ∈ l, (key₁ a ≤ key₁ b ↔ key₂ a ≤ key₂ b)) :
    sortByKey key₁ l = sortByKey key₂ l := by
  induction l with
  | nil => rfl
  | cons x xs ih =>
    show insertByKey key₁ x (sortByKey key₁ xs) = _
    rw [ih (fun a ha b hb => h a (by simp [ha]) b (by simp [hb]))]
    exact insertByKey_congr x (fun y hy =>
      h x (by simp) y (by simp [(sortByKey_perm key₂ xs).mem_iff.1 hy]))

/-- Invariant of the `while pending:` loop, relating the loop state to the
input graph `g`. -/
structure LoopInv (g : Graph N E) (fuel : Nat) (pending : List N)
    (remaining : Graph N E) (result : List N) : Prop where
  wf : remaining.WF
  fuel_eq : fuel = remaining.nodes.length
  sub_nodes : ∀ m ∈ remaining.nodes, m ∈ g.nodes
  sub_edge : ∀ a b, remaining.EdgeRel a b ↔
    g.EdgeRel a b ∧ a ∈ remaining.nodes ∧ b ∈ remaining.nodes
  pend_nodup : pending.Nodup
  pend_mem : ∀ p ∈ pending, p ∈ remaining.nodes
  pend_free : ∀ p ∈ pending, remaining.predecessors p = some []
  pend_complete : ∀ m ∈ remaining.nodes,
    remaining.predecessors m = some [] → m ∈ pending
  res_nodup : result.Nodup
  res_mem : ∀ x ∈ result, x ∈ g.nodes
  res_not_rem : ∀ x ∈ result, x ∉ remaining.nodes
  cover : ∀ x ∈ g.nodes, x ∈ result ∨ x ∈ remaining.nodes
  res_before : ∀ s ∈ result, ∀ m, g.EdgeRel m s → Before result m s

/-- A set of nodes each of which keeps a predecessor inside the set: the
sort can never drain such a set. -/
def Trapped (r : Graph N E) (S : List N) : Prop :=
  (∀ x ∈ S, x ∈ r.nodes) ∧ (∀ x ∈ S, ∃ y ∈ S, r.EdgeRel y x)

theorem depPass_spec {remaining : Graph N E} :
    ∀ (deps pnd : List N),
      (∀ d ∈ deps, d ∈ remaining.nodes) → remaining.WF → pnd.Nodup →
      ∃ res, depPass remaining pnd deps = some res ∧ res.Nodup ∧
        (∀ x, x ∈ res ↔ x ∈ pnd ∨
          (x ∈ deps ∧ remaining.predecessors x = some [])) := by
  intro deps
  induction deps with
  | nil =>
    intro pnd _ _ hnd
    exact ⟨pnd, rfl, hnd, by simp [depPass]⟩
  | cons d rest ih =>
    intro pnd hmem hw hnd
    rcases Graph.predecessors_eq_some hw (hmem d (by simp)) with ⟨ps, hps⟩
    have hstep : depPass remaining pnd (d :: rest) =
        depPass remaining
          (if ps.isEmpty ∧ d ∉ pnd then pnd ++ [d] else pnd) rest := by
      rw [depPass, List.foldlM_cons, hps]
      rfl
    by_cases hcond : ps.isEmpty ∧ d ∉ pnd
    · rw [if_pos hcond] at hstep
      have hnd' : (pnd ++ [d]).Nodup := by
        refine List.Nodup.append hnd (by simp) ?_
        intro x hx hxd
        rw [List.mem_singleton] at hxd
        exact hcond.2 (hxd ▸ hx)
      rcases ih (pnd ++ [d]) (fun x hx => hmem x (by simp [hx])) hw hnd'
        with ⟨res, hres, hrnd, hrmem⟩
      refine ⟨res, hstep ▸ hres, hrnd, ?_⟩
      intro x
      rw [hrmem x]
      have hfree : remaining.predecessors d = some [] := by
        rw [hps, List.isEmpty_iff.1 hcond.1]
      constructor
      · rintro (hx | hx)
        · rcases List.mem_append.1 hx with hx | hx
          · exact Or.inl hx
          · rw [List.mem_singleton] at hx
            exact Or.inr ⟨by simp [hx], hx ▸ hfree⟩
        · exact Or.inr ⟨by simp [hx.1], hx.2⟩
      · rintro (hx | ⟨hx1, hx2⟩)
        · exact Or.inl (by simp [hx])
        · rcases List.mem_cons.1 hx1 with rfl | hx1
          · exact Or.inl (by simp)
          · exact Or.inr ⟨hx1, hx2⟩
    · rw [if_neg hcond] at hstep
      rcases ih pnd (fun x hx => hmem x (by simp [hx])) hw hnd
        with ⟨res, hres, hrnd, hrmem⟩
      refine ⟨res, hstep ▸ hres, hrnd, ?_⟩
      intro x
      rw [hrmem x]
      constructor
      · rintro (hx | hx)
        · exact Or.inl hx
        · exact Or.inr ⟨by simp [hx.1], hx.2⟩
      · rintro (hx | ⟨hx1, hx2⟩)
        · exact Or.inl hx
        · rcases List.mem_cons.1 hx1 with rfl | hx1
          · by_cases hdp : x ∈ pnd
            · exact Or.inl hdp
            · exfalso
              rw [hps] at hx2
              have : ps = [] := Option.some_inj.1 hx2
              exact hcond ⟨by simp [this], hdp⟩
          · exact Or.inr ⟨hx1, hx2⟩

theorem initPending_spec {g : Graph N E} (hw : g.WF) :
    ∃ P, initPending g = some P ∧ P.Nodup ∧
      (∀ x, x ∈ P ↔ x ∈ g.nodes ∧ g.predecessors x = some []) := by
  have hgo : ∀ (l acc : List N), (∀ n ∈ l, n ∈ g.nodes) → l.Nodup →
      acc.Nodup → (∀ x ∈ acc, x ∉ l) →
      ∃ P, l.foldlM (fun acc n =>
          match g.predecessors n with
          | none => none
          | some ps => some (if ps.isEmpty then acc ++ [n] else acc)) acc =
        some P ∧ P.Nodup ∧
        (∀ x, x ∈ P ↔ x ∈ acc ∨
          (x ∈ l ∧ g.predecessors x = some [])) := by
    intro l
    induction l with
    | nil =>
      intro acc _ _ hand _
      exact ⟨acc, rfl, hand, by simp⟩
    | cons n rest ih =>
      intro acc hmem hlnd hand hdisj
      rcases Graph.predecessors_eq_some hw (hmem n (by simp)) with ⟨ps, hps⟩
      rw [List.nodup_cons] at hlnd
      have hstep : ∀ (acc' : List N),
          (n :: rest).foldlM (fun acc n =>
            match g.predecessors n with
            | none => none
            | some ps => some (if ps.isEmpty then acc ++ [n] else acc)) acc =
          rest.foldlM (fun acc n =>
            match g.predecessors n with
            | none => none
            | some ps => some (if ps.isEmpty then acc ++ [n] else acc))
            (if ps.isEmpty then acc ++ [n] else acc) := by
        intro _
        rw [List.foldlM_cons, hps]
        rfl
      by_cases hfree : ps.isEmpty
      · have hand' : (acc ++ [n]).Nodup := by
          refine List.Nodup.append hand (by simp) ?_
          intro x hx hxn
          rw [List.mem_singleton] at hxn
          exact hdisj x hx (by simp [hxn])
        have hdisj' : ∀ x ∈ acc ++ [n], x ∉ rest := by
          intro x hx
          rcases List.mem_append.1 hx with hx | hx
          · exact fun hc => hdisj x hx (by simp [hc])
          · rw [List.mem_singleton] at hx
            exact fun hc => hlnd.1 (hx ▸ hc)
        rcases ih (acc ++ [n]) (fun x hx => hmem x (by simp [hx])) hlnd.2
          hand' hdisj' with ⟨P, hP, hPnd, hPmem⟩
        refine ⟨P, by rw [hstep acc, if_pos hfree]; exact hP, hPnd, ?_⟩
        intro x
        rw [hPmem x]
        have hfr : g.predecessors n = some [] := by
          rw [hps, List.isEmpty_iff.1 hfree]
        constructor
        · rintro (hx | hx)
          · rcases List.mem_append.1 hx with hx | hx
            · exact Or.inl hx
            · rw [List.mem_singleton] at hx
              exact Or.inr ⟨by simp [hx], hx ▸ hfr⟩
          · exact Or.inr ⟨by simp [hx.1], hx.2⟩
        · rintro (hx | ⟨hx1, hx2⟩)
          · exact Or.inl (by simp [hx])
          · rcases List.mem_cons.1 hx1 with rfl | hx1
            · exact Or.inl (by simp)
            · exact Or.inr ⟨hx1, hx2⟩
      · rcases ih acc (fun x hx => hmem x (by simp [hx])) hlnd.2 hand
          (fun x hx hc => hdisj x hx (by simp [hc]))
          with ⟨P, hP, hPnd, hPmem⟩
        refine ⟨P, by rw [hstep acc, if_neg hfree]; exact hP, hPnd, ?_⟩
        intro x
        rw [hPmem x]
        constructor
        · rintro (hx | hx)
          · exact Or.inl hx
          · exact Or.inr ⟨by simp [hx.1], hx.2⟩
        · rintro (hx | ⟨hx1, hx2⟩)
          · exact Or.inl hx
          · rcases List.mem_cons.1 hx1 with rfl | hx1
            · exfalso
              rw [hps] at hx2
              have : ps = [] := Option.some_inj.1 hx2
              exact hfree (by simp [this])
            · exact Or.inr ⟨hx1, hx2⟩
  rcases hgo g.nodes [] (fun _ h => h) hw.nodes_nodup List.nodup_nil
    (by simp) with ⟨P, hP, hPnd, hPmem⟩
  exact ⟨P, hP, hPnd, fun x => by rw [hPmem x]; simp⟩

theorem sortStep {g : Graph N E} (key : N → Nat)
    {fuel : Nat} {pending result : List N} {remaining : Graph N E}
    (hInv : LoopInv g (fuel + 1) pending remaining result)
    (hne : pending ≠ []) :
    ∃ node restRev deps remaining' pending',
      (sortByKey key pending).reverse = node :: restRev ∧
      remaining.successors node = some deps ∧
      remaining.remove_node node = some remaining' ∧
      depPass remaining' restRev.reverse deps = some pending' ∧
      LoopInv g fuel pending' remaining' (result ++ [node]) ∧
      (∀ S, Trapped remaining S → Trapped remaining' S) := by
  have hperm : (sortByKey key pending).Perm pending := sortByKey_perm key pending
  obtain ⟨node, restRev, hrev⟩ : ∃ node restRev,
      (sortByKey key pending).reverse = node :: restRev := by
    cases hs : (sortByKey key pending).reverse with
    | nil =>
      exfalso
      have : sortByKey key pending = [] := by
        have := congrArg List.reverse hs
        simpa using this
      exact hne (hperm.symm.trans (this ▸ List.Perm.refl _)).eq_nil
    | cons a b => exact ⟨a, b, rfl⟩
  have hsorted_eq : sortByKey key pending = restRev.reverse ++ [node] := by
    have := congrArg List.reverse hrev
    simpa using this
  have hpend_perm : pending.Perm (restRev.reverse ++ [node]) :=
    (hperm.symm).trans (hsorted_eq ▸ List.Perm.refl _)
  have hnds : (restRev.reverse ++ [node]).Nodup :=
    hpend_perm.nodup_iff.1 hInv.pend_nodup
  have hnode_not : node ∉ restRev.reverse := by
    rw [List.nodup_append] at hnds
    exact fun hc => hnds.2.2 hc (by simp)
  have hRnd : restRev.reverse.Nodup := (List.nodup_append.1 hnds).1
  have hnode_pend : node ∈ pending := hpend_perm.mem_iff.2 (by simp)
  have hx_pend_iff : ∀ x, x ∈ restRev.reverse ↔ x ∈ pending ∧ x ≠ node := by
    intro x
    constructor
    · intro hx
      exact ⟨hpend_perm.mem_iff.2 (by simp [hx]),
        fun hc => hnode_not (hc ▸ hx)⟩
    · intro ⟨hx1, hx2⟩
      rcases List.mem_append.1 (hpend_perm.mem_iff.1 hx1) with hx | hx
      · exact hx
      · rw [List.mem_singleton] at hx
        exact absurd hx hx2
  have hnodeRem : node ∈ remaining.nodes := hInv.pend_mem node hnode_pend
  have hfreeN : remaining.predecessors node = some [] :=
    hInv.pend_free node hnode_pend
  have hnopred : ∀ m, ¬ remaining.EdgeRel m node := by
    intro m hm
    have := (Graph.mem_predecessors hInv.wf hfreeN).2 hm
    simp at this
  rcases Graph.successors_eq_some hnodeRem with ⟨deps, hdeps⟩
  have hdep_rel : ∀ d ∈ deps, remaining.EdgeRel node d :=
    fun d hd => (Graph.mem_successors hdeps).1 hd
  have hdep_nodes : ∀ d ∈ deps, d ∈ remaining.nodes :=
    fun d hd => Graph.EdgeRel_right_mem hInv.wf (hdep_rel d hd)
  have hdep_ne : ∀ d ∈ deps, d ≠ node :=
    fun d hd hc => hnopred node (hc ▸ hdep_rel d hd)
  rcases Graph.remove_node_spec hInv.wf hnodeRem
    with ⟨rem', hrem', hwf', hnodes', hedge', _, _⟩
  have hmem' : ∀ m, m ∈ rem'.nodes ↔ m ∈ remaining.nodes ∧ m ≠ node := by
    intro m
    rw [hnodes', List.Nodup.mem_erase_iff hInv.wf.nodes_nodup]
    tauto
  have hEdge' : ∀ a b, rem'.EdgeRel a b ↔
      remaining.EdgeRel a b ∧ a ≠ node ∧ b ≠ node := by
    intro a b
    unfold Graph.EdgeRel
    rw [Graph.has_edge_iff_edge, Graph.has_edge_iff_edge]
    constructor
    · intro ⟨e, he⟩
      rw [hedge' a b] at he
      by_cases hc : a = node ∨ b = node
      · rw [if_pos hc] at he
        cases he
      · rw [if_neg hc] at he
        push_neg at hc
        exact ⟨⟨e, he⟩, hc.1, hc.2⟩
    · intro ⟨⟨e, he⟩, ha, hb⟩
      refine ⟨e, ?_⟩
      rw [hedge' a b, if_neg (by simp [ha, hb])]
      exact he
  have hdep_nodes' : ∀ d ∈ deps, d ∈ rem'.nodes :=
    fun d hd => (hmem' d).2 ⟨hdep_nodes d hd, hdep_ne d hd⟩
  rcases depPass_spec deps restRev.reverse hdep_nodes' hwf' hRnd
    with ⟨pending', hdp, hpnd', hpmem'⟩
  have hlen' : rem'.nodes.length + 1 = remaining.nodes.length := by
    rw [hnodes']
    exact List.length_erase_add_one hnodeRem
  have hfree' : ∀ x, x ∈ restRev.reverse →
      rem'.predecessors x = some [] := by
    intro x hx
    have hxp := (hx_pend_iff x).1 hx
    have hxr' : x ∈ rem'.nodes :=
      (hmem' x).2 ⟨hInv.pend_mem x hxp.1, hxp.2⟩
    rcases Graph.predecessors_eq_some hwf' hxr' with ⟨ps', hps'⟩
    have : ps' = [] := by
      rw [List.eq_nil_iff_forall_not_mem]
      intro m hm
      have hrel' := (Graph.mem_predecessors hwf' hps').1 hm
      have hrel := ((hEdge' m x).1 hrel').1
      have := (Graph.mem_predecessors hInv.wf
        (hInv.pend_free x hxp.1)).2 hrel
      simp at this
    rw [hps', this]
  refine ⟨node, restRev, deps, rem', pending', hrev, hdeps, hrem', hdp,
    ?_, ?_⟩
  · refine ⟨hwf', by have h1 := hInv.fuel_eq; omega, ?_, ?_, hpnd', ?_, ?_,
      ?_, ?_, ?_, ?_, ?_, ?_⟩
    · intro m hm
      exact hInv.sub_nodes m ((hmem' m).1 hm).1
    · intro a b
      rw [hEdge' a b, hInv.sub_edge a b, hmem' a, hmem' b]
      constructor
      · intro ⟨⟨h1, h2, h3⟩, h4, h5⟩
        exact ⟨h1, ⟨h2, h4⟩, h3, h5⟩
      · intro ⟨h1, ⟨h2, h4⟩, h3, h5⟩
        exact ⟨⟨h1, h2, h3⟩, h4, h5⟩
    · intro p hp
      rcases (hpmem' p).1 hp with hp | hp
      · have hxp := (hx_pend_iff p).1 hp
        exact (hmem' p).2 ⟨hInv.pend_mem p hxp.1, hxp.2⟩
      · exact hdep_nodes' p hp.1
    · intro p hp
      rcases (hpmem' p).1 hp with hp | hp
      · exact hfree' p hp
      · exact hp.2
    · intro m hm hmfree
      by_cases hold : remaining.predecessors m = some []
      · have hmp : m ∈ pending :=
          hInv.pend_complete m ((hmem' m).1 hm).1 hold
        refine (hpmem' m).2 (Or.inl ?_)
        exact (hx_pend_iff m).2 ⟨hmp, ((hmem' m).1 hm).2⟩
      · rcases Graph.predecessors_eq_some hInv.wf ((hmem' m).1 hm).1
          with ⟨ps, hps⟩
        have hpsne : ps ≠ [] := fun hc => hold (hc ▸ hps)
        rcases List.exists_mem_of_ne_nil ps hpsne with ⟨y, hy⟩
        have hyrel : remaining.EdgeRel y m :=
          (Graph.mem_predecessors hInv.wf hps).1 hy
        have hynode : y = node := by
          by_contra hyn
          have : rem'.EdgeRel y m :=
            (hEdge' y m).2 ⟨hyrel, hyn, ((hmem' m).1 hm).2⟩
          have := (Graph.mem_predecessors hwf' hmfree).2 this
          simp at this
        refine (hpmem' m).2 (Or.inr ⟨?_, hmfree⟩)
        exact (Graph.mem_successors hdeps).2 (hynode ▸ hyrel)
    · rw [List.nodup_append]
      refine ⟨hInv.res_nodup, by simp, ?_⟩
      intro x hx hxn
      rw [List.mem_singleton] at hxn
      exact hInv.res_not_rem x hx (hxn ▸ hnodeRem)
    · intro x hx
      rcases List.mem_append.1 hx with hx | hx
      · exact hInv.res_mem x hx
      · rw [List.mem_singleton] at hx
        exact hx ▸ hInv.sub_nodes node hnodeRem
    · intro x hx hxr
      rcases List.mem_append.1 hx with hx | hx
      · exact hInv.res_not_rem x hx ((hmem' x).1 hxr).1
      · rw [List.mem_singleton] at hx
        exact ((hmem' x).1 hxr).2 hx
    · intro x hx
      rcases hInv.cover x hx with hc | hc
      · exact Or.inl (by simp [hc])
      · by_cases hxn : x = node
        · exact Or.inl (by simp [hxn])
        · exact Or.inr ((hmem' x).2 ⟨hc, hxn⟩)
    · intro s hs m hrel
      rcases List.mem_append.1 hs with hs | hs
      · exact (hInv.res_before s hs m hrel).append_right [node]
      · rw [List.mem_singleton] at hs
        subst hs
        have hmg : m ∈ g.nodes := Graph.EdgeRel_left_mem hrel
        have hmnr : m ∉ remaining.nodes := by
          intro hmr
          exact hnopred m ((hInv.sub_edge m s).2 ⟨hrel, hmr, hnodeRem⟩)
        rcases hInv.cover m hmg with hc | hc
        · exact Before.snoc hc s
        · exact absurd hc hmnr
  · intro S hS
    have hnodeS : node ∉ S := by
      intro hc
      rcases hS.2 node hc with ⟨y, _, hyrel⟩
      exact hnopred y hyrel
    constructor
    · intro x hx
      exact (hmem' x).2 ⟨hS.1 x hx, fun hc => hnodeS (hc ▸ hx)⟩
    · intro x hx
      rcases hS.2 x hx with ⟨y, hy, hyrel⟩
      refine ⟨y, hy, (hEdge' y x).2 ⟨hyrel, ?_, ?_⟩⟩
      · exact fun hc => hnodeS (hc ▸ hy)
      · exact fun hc => hnodeS (hc ▸ hx)

end TopologicalSort


theorem sortLoop_step_eq {N E : Type} [DecidableEq N] {key : N → Nat}
    {fuel : Nat} {pending result : List N} {remaining : Graph N E}
    {node : N} {restRev deps : List N} {remaining' : Graph N E}
    {pending' : List N}
    (hrev : (sortByKey key pending).reverse = node :: restRev)
    (hdeps : remaining.successors node = some deps)
    (hrem : remaining.remove_node node = some remaining')
    (hdp : depPass remaining' restRev.reverse deps = some pending') :
    sortLoop key (fuel + 1) pending remaining result =
      sortLoop key fuel pending' remaining' (result ++ [node]) := by
  rw [sortLoop.eq_def]
  dsimp only
  rw [hrev]
  dsimp only
  rw [hdeps]
  dsimp only
  rw [hrem]
  dsimp only
  rw [hdp]

theorem sortLoop_nil_eq {N E : Type} [DecidableEq N] {key : N → Nat}
    {fuel : Nat} {result : List N} {remaining : Graph N E} :
    sortLoop key fuel [] remaining result = .ok (result, remaining) := by
  rw [sortLoop.eq_def]
  rfl

/-- Master lemma: from any state satisfying the loop invariant, the loop
runs to completion, returns `ok`, and the final state again satisfies the
invariant with an empty pending list; trapped node sets survive. -/
theorem sortLoop_ok {N E : Type} [DecidableEq N] {g : Graph N E}
    (key : N → Nat) :
    ∀ (fuel : Nat) (pending result : List N) (remaining : Graph N E),
      LoopInv g fuel pending remaining result →
      ∃ result' remaining',
        sortLoop key fuel pending remaining result =
          .ok (result', remaining') ∧
        LoopInv g remaining'.nodes.length [] remaining' result' ∧
        (∀ S, Trapped remaining S → Trapped remaining' S) := by
  intro fuel
  induction fuel with
  | zero =>
    intro pending result remaining hInv
    have hempty : remaining.nodes = [] :=
      List.eq_nil_of_length_eq_zero hInv.fuel_eq.symm
    have hpend : pending = [] := by
      rw [List.eq_nil_iff_forall_not_mem]
      intro p hp
      have := hInv.pend_mem p hp
      rw [hempty] at this
      cases this
    subst hpend
    exact ⟨result, remaining, sortLoop_nil_eq,
      { hInv with fuel_eq := rfl }, fun S hS => hS⟩
  | succ fuel ih =>
    intro pending result remaining hInv
    by_cases hne : pending = []
    · subst hne
      exact ⟨result, remaining, sortLoop_nil_eq,
        { hInv with fuel_eq := rfl }, fun S hS => hS⟩
    · rcases sortStep key hInv hne with
        ⟨node, restRev, deps, remaining', pending', hrev, hdeps, hrem, hdp,
          hInv', htrap⟩
      rcases ih pending' (result ++ [node]) remaining' hInv'
        with ⟨result', remaining'', hrun, hfin, htrap'⟩
      refine ⟨result', remaining'', ?_, hfin, fun S hS => htrap' S (htrap S hS)⟩
      rw [sortLoop_step_eq hrev hdeps hrem hdp]
      exact hrun

section SortAnalysis

variable {N : Type} {E : Type} [DecidableEq N]

/-- A nonempty node set in which every member keeps a predecessor inside the
set forces a cycle (pigeonhole along the chosen predecessor chain). -/
theorem hasCycle_of_all_pred {g : Graph N E} {S : List N} (hne : S ≠ [])
    (hpred : ∀ x ∈ S, ∃ y ∈ S, g.EdgeRel y x) : g.HasCycle := by
  have hstep : ∃ f : {x // x ∈ S} → {x // x ∈ S},
      ∀ x, g.EdgeRel (f x).1 x.1 := by
    have hch := fun (x : {x // x ∈ S}) => hpred x.1 x.2
    choose f hf1 hf2 using hch
    exact ⟨fun x => ⟨f x, hf1 x⟩, hf2⟩
  obtain ⟨f, hf⟩ := hstep
  rcases List.exists_mem_of_ne_nil S hne with ⟨s0, hs0⟩
  have hiter : ∀ (x : {x // x ∈ S}) (k : Nat),
      Relation.TransGen g.EdgeRel (f^[k + 1] x).1 x.1 := by
    intro x k
    induction k with
    | zero => exact Relation.TransGen.single (hf x)
    | succ k ihk =>
      rw [Function.iterate_succ_apply']
      exact Relation.TransGen.head (hf _) ihk
  have hmaps : ∀ i : Fin (S.length + 1),
      (f^[i.1] ⟨s0, hs0⟩).1 ∈ S.toFinset := by
    intro i
    exact List.mem_toFinset.2 (f^[i.1] ⟨s0, hs0⟩).2
  have hcard : S.toFinset.card < (Finset.univ : Finset (Fin (S.length + 1))).card := by
    rw [Finset.card_univ, Fintype.card_fin]
    exact Nat.lt_succ_of_le (S.toFinset_card_le)
  rcases Finset.exists_ne_map_eq_of_card_lt_of_maps_to
    (by rw [Finset.card_univ, Fintype.card_fin]; exact Nat.lt_succ_of_le S.toFinset_card_le)
    (fun i _ => hmaps i) with ⟨i, _, j, _, hij, heq⟩
  rcases Nat.lt_or_ge i.1 j.1 with hlt | hge
  · obtain ⟨d, hd⟩ : ∃ d, j.1 = i.1 + (d + 1) :=
      ⟨j.1 - i.1 - 1, by omega⟩
    have heqv : f^[j.1] ⟨s0, hs0⟩ = f^[i.1] ⟨s0, hs0⟩ := Subtype.ext heq.symm
    have := hiter (f^[i.1] ⟨s0, hs0⟩) d
    rw [← Function.iterate_add_apply, Nat.add_comm _ i.1, ← hd, heqv] at this
    exact ⟨_, this⟩
  · have hlt : j.1 < i.1 := by
      rcases Nat.lt_or_ge j.1 i.1 with h | h
      · exact h
      · exact absurd (Fin.ext (Nat.le_antisymm h hge)) hij
    obtain ⟨d, hd⟩ : ∃ d, i.1 = j.1 + (d + 1) :=
      ⟨i.1 - j.1 - 1, by omega⟩
    have heqv : f^[i.1] ⟨s0, hs0⟩ = f^[j.1] ⟨s0, hs0⟩ := Subtype.ext heq
    have := hiter (f^[j.1] ⟨s0, hs0⟩) d
    rw [← Function.iterate_add_apply, Nat.add_comm _ j.1, ← hd, heqv] at this
    exact ⟨_, this⟩

theorem chain_pred {r : N → N → Prop} :
    ∀ {l : List N} {a : N}, List.Chain r a l →
      ∀ x ∈ l, ∃ y ∈ a :: l, r y x := by
  intro l
  induction l with
  | nil => intro a _ x hx; cases hx
  | cons b l' ih =>
    intro a hch x hx
    rw [List.chain_cons] at hch
    rcases List.mem_cons.1 hx with rfl | hx
    · exact ⟨a, by simp, hch.1⟩
    · rcases ih hch.2 x hx with ⟨y, hy, hr⟩
      exact ⟨y, by rcases List.mem_cons.1 hy with rfl | hy <;> simp [hy], hr⟩

/-- A cycle yields a nonempty trapped node set. -/
theorem trapped_of_hasCycle {g : Graph N E} (hg : g.WF)
    (hcyc : g.HasCycle) : ∃ S, S ≠ [] ∧ Trapped g S := by
  obtain ⟨n, htg⟩ := hcyc
  rcases Relation.TransGen.head'_iff.1 htg with ⟨c, hnc, hcn⟩
  rcases List.exists_chain_of_relationReflTransGen hcn with ⟨l, hch, hlast⟩
  have hnmem : n ∈ c :: l := by
    rw [← hlast]
    exact List.getLast_mem _
  refine ⟨c :: l, by simp, ⟨?_, ?_⟩⟩
  · intro x hx
    rcases List.mem_cons.1 hx with rfl | hx
    · exact Graph.EdgeRel_right_mem hg hnc
    · rcases chain_pred hch x hx with ⟨y, _, hr⟩
      exact Graph.EdgeRel_right_mem hg hr
  · intro x hx
    rcases List.mem_cons.1 hx with rfl | hx
    · exact ⟨n, hnmem, hnc⟩
    · exact chain_pred hch x hx

/-- Sufficient condition for the defensive order check to succeed. -/
theorem istsGo_true {g : Graph N E} :
    ∀ (l visited : List N), l.Nodup →
      (∀ x ∈ l, x ∈ g.nodes) →
      (∀ a ∈ l, ∀ b, g.EdgeRel a b → b = a ∨ Before l b a ∨ b ∈ visited) →
      istsGo g l visited = some true := by
  intro l
  induction l with
  | nil => intro visited _ _ _; rfl
  | cons n rest ih =>
    intro visited hnd hmem hcond
    rcases Graph.successors_eq_some (hmem n (by simp)) with ⟨deps, hdeps⟩
    rw [istsGo, hdeps]
    rw [List.nodup_cons] at hnd
    have hall : deps.all (fun d => decide (d ∈ n :: visited)) = true := by
      rw [List.all_eq_true]
      intro d hd
      rw [decide_eq_true_eq]
      have hrel : g.EdgeRel n d := (Graph.mem_successors hdeps).1 hd
      rcases hcond n (by simp) d hrel with h | h | h
      · simp [h]
      · exfalso
        rcases h with ⟨l₁, l₂, l₃, hsplit⟩
        cases l₁ with
        | nil =>
          rw [List.nil_append] at hsplit
          have h2 : rest = l₂ ++ n :: l₃ := by
            have := congrArg List.tail hsplit
            simpa using this
          exact hnd.1 (h2 ▸ (by simp))
        | cons c l₁' =>
          have h2 : rest = l₁' ++ d :: l₂ ++ n :: l₃ := by
            have := congrArg List.tail hsplit
            simpa using this
          exact hnd.1 (h2 ▸ (by simp))
      · simp [h]
    dsimp only
    rw [if_pos hall]
    refine ih (n :: visited) hnd.2 (fun x hx => hmem x (by simp [hx])) ?_
    intro a ha b hrel
    rcases hcond a (by simp [ha]) b hrel with h | h | h
    · exact Or.inl h
    · rcases h with ⟨l₁, l₂, l₃, hsplit⟩
      cases l₁ with
      | nil =>
        rw [List.nil_append] at hsplit
        have h1 : n = b := by
          have := congrArg List.head? hsplit
          simpa using this
        exact Or.inr (Or.inr (by simp [h1.symm]))
      | cons c l₁' =>
        have h2 : rest = l₁' ++ b :: l₂ ++ a :: l₃ := by
          have := congrArg List.tail hsplit
          simpa using this
        exact Or.inr (Or.inl ⟨l₁', l₂, l₃, h2⟩)
    · exact Or.inr (Or.inr (by simp [h]))

/-- The common run of `topological_sort_core`: the copy, the pending seed
and the full loop. -/
theorem core_run {g : Graph N E} (hg : g.WF) (ns : List N) :
    ∃ (P result' : List N) (remaining' : Graph N E),
      initPending g = some P ∧
      sortLoop (sort_key_from_iter ns) g.nodes.length P g [] =
        .ok (result', remaining') ∧
      LoopInv g remaining'.nodes.length [] remaining' result' ∧
      (∀ S, Trapped g S → Trapped remaining' S) := by
  rcases initPending_spec hg with ⟨P, hP, hPnd, hPmem⟩
  have hInv0 : LoopInv g g.nodes.length P g [] :=
    { wf := hg
      fuel_eq := rfl
      sub_nodes := fun _ hm => hm
      sub_edge := fun a b => ⟨fun h =>
        ⟨h, Graph.EdgeRel_left_mem h, Graph.EdgeRel_right_mem hg h⟩,
        fun h => h.1⟩
      pend_nodup := hPnd
      pend_mem := fun p hp => ((hPmem p).1 hp).1
      pend_free := fun p hp => ((hPmem p).1 hp).2
      pend_complete := fun m hm hfree => (hPmem m).2 ⟨hm, hfree⟩
      res_nodup := List.nodup_nil
      res_mem := fun x hx => absurd hx (List.not_mem_nil x)
      res_not_rem := fun x hx => absurd hx (List.not_mem_nil x)
      cover := fun _ hx => Or.inr hx
      res_before := fun s hs => absurd hs (List.not_mem_nil s) }
  rcases sortLoop_ok (sort_key_from_iter ns) g.nodes.length P [] g hInv0
    with ⟨result', remaining', hrun, hfin, htrap⟩
  exact ⟨P, result', remaining', hP, hrun, hfin, htrap⟩

/-- On a well-formed acyclic graph the sort succeeds and its output is the
requested nodes present in the graph, dependency-first. -/
theorem core_acyclic {g : Graph N E} (hg : g.WF) (hacy : ¬ g.HasCycle)
    (ns : List N) :
    ∃ res, topological_sort_core ns g = .ok res ∧ res.Nodup ∧
      (∀ x, x ∈ res ↔ x ∈ ns ∧ x ∈ g.nodes) ∧
      (∀ a b, g.EdgeRel a b → a ∈ ns → b ∈ ns → Before res b a) := by
  rcases core_run hg ns with ⟨P, result', remaining', hP, hrun, hfin, htrap⟩
  have hempty : remaining'.nodes = [] := by
    by_contra hne
    have hpred : ∀ x ∈ remaining'.nodes,
        ∃ y ∈ remaining'.nodes, remaining'.EdgeRel y x := by
      intro x hx
      rcases Graph.predecessors_eq_some hfin.wf hx with ⟨ps, hps⟩
      have hne2 : ps ≠ [] := by
        intro hc
        have := hfin.pend_complete x hx (hc ▸ hps)
        cases this
      rcases List.exists_mem_of_ne_nil ps hne2 with ⟨y, hy⟩
      have hrel := (Graph.mem_predecessors hfin.wf hps).1 hy
      exact ⟨y, Graph.EdgeRel_left_mem hrel, hrel⟩
    obtain ⟨n, htn⟩ := hasCycle_of_all_pred hne hpred
    exact hacy ⟨n,
      Relation.TransGen.mono (fun a b h => ((hfin.sub_edge a b).1 h).1) htn⟩
  have hresmem : ∀ x, x ∈ result' ↔ x ∈ g.nodes := by
    intro x
    constructor
    · exact hfin.res_mem x
    · intro hx
      rcases hfin.cover x hx with h | h
      · exact h
      · rw [hempty] at h
        cases h
  have hists : is_topologically_sorted result'.reverse g = some true := by
    rw [is_topologically_sorted]
    refine istsGo_true result'.reverse [] (List.nodup_reverse.2 hfin.res_nodup)
      (fun x hx => hfin.res_mem x (List.mem_reverse.1 hx)) ?_
    intro a ha b hrel
    have hb : b ∈ result' := (hresmem b).2 (Graph.EdgeRel_right_mem hg hrel)
    exact Or.inr (Or.inl (hfin.res_before b hb a hrel).reverse)
  refine ⟨result'.reverse.filter (fun x => decide (x ∈ ns)), ?_, ?_, ?_, ?_⟩
  · rw [topological_sort_core.eq_def, Graph.copy_eq hg]
    dsimp only
    rw [hP]
    dsimp only
    rw [hrun]
    dsimp only
    rw [hempty]
    rw [if_pos (by rfl)]
    rw [hists]
  · exact List.Nodup.filter _ (List.nodup_reverse.2 hfin.res_nodup)
  · intro x
    rw [List.mem_filter, List.mem_reverse, decide_eq_true_eq, hresmem x]
    tauto
  · intro a b hrel ha hb
    have hag : a ∈ g.nodes := Graph.EdgeRel_left_mem hrel
    have hbg : b ∈ g.nodes := Graph.EdgeRel_right_mem hg hrel
    have hbr : b ∈ result' := (hresmem b).2 hbg
    have hbefore := (hfin.res_before b hbr a hrel).reverse
    exact hbefore.filter _ (by simp [hb]) (by simp [ha])

/-- On a well-formed cyclic graph the first defensive assertion fires. -/
theorem core_cyclic {g : Graph N E} (hg : g.WF) (hcyc : g.HasCycle)
    (ns : List N) :
    topological_sort_core ns g = .error .cycleAssert := by
  rcases core_run hg ns with ⟨P, result', remaining', hP, hrun, hfin, htrap⟩
  rcases trapped_of_hasCycle hg hcyc with ⟨S, hSne, hS⟩
  have hS' := htrap S hS
  have hne : remaining'.nodes ≠ [] := by
    rcases List.exists_mem_of_ne_nil S hSne with ⟨x, hx⟩
    intro hc
    have := hS'.1 x hx
    rw [hc] at this
    cases this
  rw [topological_sort_core.eq_def, Graph.copy_eq hg]
  dsimp only
  rw [hP]
  dsimp only
  rw [hrun]
  dsimp only
  rw [if_neg (fun hc => hne (List.isEmpty_iff.1 hc))]

end SortAnalysis

section ConcreteGraphs

/-- A two-node graph with the single edge `0 → 1`. -/
def gEdge01 : Graph Nat Bool :=
  ⟨[(0, [(1, true)]), (1, [])], [(0, []), (1, [(0, true)])]⟩

/-- A two-node graph with the cycle `0 → 1 → 0`. -/
def gCyc2 : Graph Nat Bool :=
  ⟨[(0, [(1, true)]), (1, [(0, true)])],
   [(0, [(1, true)]), (1, [(0, true)])]⟩

theorem gEdge01_edge_char : ∀ a b, gEdge01.EdgeRel a b → a = 0 ∧ b = 1 := by
  intro a b h
  unfold Graph.EdgeRel Graph.has_edge at h
  by_cases h0 : (0 : Nat) = a
  · subst h0
    simp [gEdge01, getVal?, keysOf] at h
    exact ⟨rfl, h⟩
  · by_cases h1 : (1 : Nat) = a
    · subst h1
      simp [gEdge01, getVal?, h0, keysOf] at h
    · simp [gEdge01, getVal?, h0, h1] at h

theorem gEdge01_acyclic : ¬ gEdge01.HasCycle := by
  intro ⟨n, htn⟩
  have hchar : ∀ x y, Relation.TransGen gEdge01.EdgeRel x y →
      x = 0 ∧ y = 1 := by
    intro x y h
    induction h with
    | single h => exact gEdge01_edge_char _ _ h
    | tail _ hby ih =>
      have h2 := gEdge01_edge_char _ _ hby
      omega
  have := hchar n n htn
  omega

theorem gCyc2_hasCycle : gCyc2.HasCycle :=
  ⟨0, Relation.TransGen.head (b := 1) rfl (Relation.TransGen.single rfl)⟩

end ConcreteGraphs

/-- C1: on an acyclic well-formed graph, for every edge `a → b` whose two
endpoints are requested, the returned ordering places `b` strictly before
`a`.  In graph-only mode (`topological_sort_graph`) the requested nodes are
the graph's own nodes, so edge endpoints are always requested; in
projection mode (`topological_sort_list ns`) they must belong to the
supplied list `ns`.  Both modes run `topological_sort_core` on their
respective requested-node list. -/
theorem claim_C1 {N E : Type} [DecidableEq N] (g : Graph N E) (ns : List N)
    (a b : N) (hwf : g.WF) (hacy : ¬ g.HasCycle) (hedge : g.EdgeRel a b) :
    (a ∈ ns → b ∈ ns →
      ∃ res, topological_sort_list ns g = .ok res ∧ Before res b a) ∧
    (∃ res, topological_sort_graph g = .ok res ∧ Before res b a) := by
  constructor
  · intro ha hb
    rcases core_acyclic hwf hacy ns with ⟨res, hres, _, _, horder⟩
    exact ⟨res, hres, horder a b hedge ha hb⟩
  · rcases core_acyclic hwf hacy g.nodes with ⟨res, hres, _, _, horder⟩
    exact ⟨res, hres, horder a b hedge (Graph.EdgeRel_left_mem hedge)
      (Graph.EdgeRel_right_mem hwf hedge)⟩

/-- Witness for C1 at the single-edge graph `0 → 1` with the request list
`[0, 1]`: the output must place `1` before `0`. -/
theorem claim_C1_witness :
    ∃ res, topological_sort_list [0, 1] gEdge01 = .ok res ∧ Before res 1 0 :=
  (claim_C1 gEdge01 [0, 1] 0 1 (by decide) gEdge01_acyclic rfl).1
    (by decide) (by decide)

/-- C2 counterexample: in projection mode the requested node `0` is absent
from the (empty) graph; the call succeeds but returns `[]`, so the output
is not a permutation of the requested nodes — it omits a requested node. -/
theorem claim_C2_counterexample :
    topological_sort_list [0] (Graph.empty : Graph Nat Bool) = .ok [] ∧
    (0 : Nat) ∈ [0] ∧ (0 : Nat) ∉ ([] : List Nat) := by
  refine ⟨rfl, by decide, by decide⟩

/-- C2 (amended): on an acyclic well-formed graph the output is a
duplicate-free list containing exactly the requested nodes that are nodes
of the graph.  In graph-only mode the requested nodes are the graph's own
nodes, so there the output is a permutation of exactly the graph's node
set. -/
theorem claim_C2 {N E : Type} [DecidableEq N] (g : Graph N E) (ns : List N)
    (hwf : g.WF) (hacy : ¬ g.HasCycle) :
    (∃ res, topological_sort_list ns g = .ok res ∧ res.Nodup ∧
      (∀ x, x ∈ res ↔ x ∈ ns ∧ x ∈ g.nodes)) ∧
    (∃ res, topological_sort_graph g = .ok res ∧ res.Perm g.nodes) := by
  constructor
  · rcases core_acyclic hwf hacy ns with ⟨res, hres, hnd, hmem, _⟩
    exact ⟨res, hres, hnd, hmem⟩
  · rcases core_acyclic hwf hacy g.nodes with ⟨res, hres, hnd, hmem, _⟩
    refine ⟨res, hres, ?_⟩
    refine List.perm_of_nodup_nodup_toFinset_eq hnd hwf.nodes_nodup ?_
    ext x
    rw [List.mem_toFinset, List.mem_toFinset, hmem x]
    tauto

/-- Witness for the amended C2 at the single-edge graph `0 → 1` with the
request list `[1, 0, 5]` (node `5` is absent from the graph). -/
theorem claim_C2_witness :
    (∃ res, topological_sort_list [1, 0, 5] gEdge01 = .ok res ∧ res.Nodup ∧
      (∀ x, x ∈ res ↔ x ∈ [1, 0, 5] ∧ x ∈ gEdge01.nodes)) ∧
    (∃ res, topological_sort_graph gEdge01 = .ok res ∧
      res.Perm gEdge01.nodes) :=
  claim_C2 gEdge01 [1, 0, 5] (by decide) gEdge01_acyclic

/-- C6: with a well-formed input graph, a cycle makes `topological_sort`
fail on the `assert not remaining.nodes` check — the run ends in the
assertion-style fatal error, never in a returned list — and without a cycle
the defensive assertions pass and the call returns normally.  The statement
covers both calling modes, which share `topological_sort_core`. -/
theorem claim_C6 {N E : Type} [DecidableEq N] (g : Graph N E) (ns : List N)
    (hwf : g.WF) :
    (g.HasCycle → topological_sort_core ns g = .error .cycleAssert) ∧
    (¬ g.HasCycle → ∃ res, topological_sort_core ns g = .ok res) := by
  constructor
  · intro hcyc
    exact core_cyclic hwf hcyc ns
  · intro hacy
    rcases core_acyclic hwf hacy ns with ⟨res, hres, _⟩
    exact ⟨res, hres⟩

/-- Witness for C6: the two-cycle graph dies on the cycle assertion, the
single-edge graph returns normally. -/
theorem claim_C6_witness :
    topological_sort_core [0, 1] gCyc2 = .error .cycleAssert ∧
    (∃ res, topological_sort_core [0, 1] gEdge01 = .ok res) :=
  ⟨(claim_C6 gCyc2 [0, 1] (by decide)).1 gCyc2_hasCycle,
   (claim_C6 gEdge01 [0, 1] (by decide)).2 gEdge01_acyclic⟩

section EdgeFreeRun

variable {N : Type} {E : Type} [DecidableEq N]

theorem sort_key_cons_self (h : N) (t : List N) :
    sort_key_from_iter (h :: t) h = 0 := by
  simp [sort_key_from_iter]

theorem sort_key_cons_ne {h x : N} (t : List N) (hxh : x ≠ h) :
    sort_key_from_iter (h :: t) x = 1 + sort_key_from_iter t x := by
  rw [sort_key_from_iter, sort_key_from_iter]
  rw [List.findIdx?_cons, if_neg (by simp [Ne.symm hxh]), List.findIdx?_succ]
  cases hfi : t.findIdx? (fun y => decide (y = x)) with
  | some i => simp [Nat.add_comm]
  | none => simp [Nat.add_comm]

theorem sort_key_self_pairwise :
    ∀ (l : List N), l.Nodup →
      l.Pairwise (fun a b => sort_key_from_iter l a ≤ sort_key_from_iter l b) := by
  intro l
  induction l with
  | nil => intro _; exact List.Pairwise.nil
  | cons h t ih =>
    intro hnd
    rw [List.nodup_cons] at hnd
    refine List.Pairwise.cons ?_ ?_
    · intro x _
      rw [sort_key_cons_self]
      exact Nat.zero_le _
    · refine List.Pairwise.imp_of_mem ?_ (ih hnd.2)
      intro a b ha hb hle
      rw [sort_key_cons_ne t (fun hc : a = h => hnd.1 (hc ▸ ha)),
        sort_key_cons_ne t (fun hc : b = h => hnd.1 (hc ▸ hb))]
      omega

/-- Reformulation of the `remove_node` edge formula at the relation level. -/
theorem EdgeRel_of_edge_formula {g g' : Graph N E} {n : N}
    (hedge : ∀ a b, g'.edge a b =
      if a = n ∨ b = n then none else g.edge a b) :
    ∀ a b, g'.EdgeRel a b ↔ g.EdgeRel a b ∧ a ≠ n ∧ b ≠ n := by
  intro a b
  unfold Graph.EdgeRel
  rw [Graph.has_edge_iff_edge, Graph.has_edge_iff_edge]
  constructor
  · intro ⟨e, he⟩
    rw [hedge a b] at he
    by_cases hc : a = n ∨ b = n
    · rw [if_pos hc] at he
      cases he
    · rw [if_neg hc] at he
      push_neg at hc
      exact ⟨⟨e, he⟩, hc.1, hc.2⟩
  · intro ⟨⟨e, he⟩, ha, hb⟩
    refine ⟨e, ?_⟩
    rw [hedge a b, if_neg (by simp [ha, hb])]
    exact he

/-- The run of the sort loop on an edge-free working graph: the pending
nodes are emitted in sorted order and nothing else happens. -/
theorem sortLoop_edge_free (key : N → Nat) :
    ∀ (fuel : Nat) (pending result : List N) (remaining : Graph N E),
      remaining.WF → (∀ a b, ¬ remaining.EdgeRel a b) →
      pending.Nodup → (∀ p ∈ pending, p ∈ remaining.nodes) →
      pending.length ≤ fuel →
      ∃ remaining', sortLoop key fuel pending remaining result =
        .ok (result ++ (sortByKey key pending).reverse, remaining') ∧
        (∀ m, m ∈ remaining'.nodes ↔ m ∈ remaining.nodes ∧ m ∉ pending) := by
  intro fuel
  induction fuel with
  | zero =>
    intro pending result remaining _ _ _ _ hlen
    have hpend : pending = [] := List.eq_nil_of_length_eq_zero (by omega)
    subst hpend
    exact ⟨remaining, by rw [sortLoop_nil_eq]; simp [sortByKey], by simp⟩
  | succ fuel ih =>
    intro pending result remaining hwf hEF hnd hmem hlen
    by_cases hne : pending = []
    · subst hne
      exact ⟨remaining, by rw [sortLoop_nil_eq]; simp [sortByKey], by simp⟩
    · have hperm : (sortByKey key pending).Perm pending :=
        sortByKey_perm key pending
      obtain ⟨node, restRev, hrev⟩ : ∃ node restRev,
          (sortByKey key pending).reverse = node :: restRev := by
        cases hs : (sortByKey key pending).reverse with
        | nil =>
          exfalso
          have : sortByKey key pending = [] := by
            have := congrArg List.reverse hs
            simpa using this
          exact hne (hperm.symm.trans (this ▸ List.Perm.refl _)).eq_nil
        | cons a b => exact ⟨a, b, rfl⟩
      have hsorted_eq : sortByKey key pending = restRev.reverse ++ [node] := by
        have := congrArg List.reverse hrev
        simpa using this
      have hpend_perm : pending.Perm (restRev.reverse ++ [node]) :=
        (hperm.symm).trans (hsorted_eq ▸ List.Perm.refl _)
      have hnds : (restRev.reverse ++ [node]).Nodup :=
        hpend_perm.nodup_iff.1 hnd
      have hnode_not : node ∉ restRev.reverse := by
        rw [List.nodup_append] at hnds
        exact fun hc => hnds.2.2 hc (by simp)
      have hRnd : restRev.reverse.Nodup := (List.nodup_append.1 hnds).1
      have hnode_pend : node ∈ pending := hpend_perm.mem_iff.2 (by simp)
      have hnodeRem : node ∈ remaining.nodes := hmem node hnode_pend
      rcases Graph.successors_eq_some hnodeRem with ⟨deps, hdeps⟩
      have hdeps_nil : deps = [] := by
        rw [List.eq_nil_iff_forall_not_mem]
        intro d hd
        exact hEF node d ((Graph.mem_successors hdeps).1 hd)
      subst hdeps_nil
      rcases Graph.remove_node_spec hwf hnodeRem
        with ⟨rem₂, hrem₂, hwf₂, hnodes₂, hedge₂, _, _⟩
      have hER₂ := EdgeRel_of_edge_formula hedge₂
      have hEF₂ : ∀ a b, ¬ rem₂.EdgeRel a b :=
        fun a b hc => hEF a b ((hER₂ a b).1 hc).1
      have hmem₂ : ∀ m, m ∈ rem₂.nodes ↔ m ∈ remaining.nodes ∧ m ≠ node := by
        intro m
        rw [hnodes₂, List.Nodup.mem_erase_iff hwf.nodes_nodup]
        tauto
      have hdp : depPass rem₂ restRev.reverse [] = some restRev.reverse := rfl
      have hsortedRest : sortByKey key restRev.reverse = restRev.reverse := by
        refine sortByKey_eq_self key ?_
        have hsub : restRev.reverse.Sublist (sortByKey key pending) := by
          rw [hsorted_eq]
          exact List.sublist_append_left _ _
        exact (sortByKey_sorted key pending).sublist hsub
      have hlen₂ : restRev.reverse.length ≤ fuel := by
        have h1 : (sortByKey key pending).length = pending.length :=
          hperm.length_eq
        have h2 : (restRev.reverse ++ [node]).length = pending.length := by
          rw [← hsorted_eq, h1]
        simp only [List.length_append, List.length_singleton] at h2
        omega
      have hsubp : ∀ p ∈ restRev.reverse, p ∈ pending :=
        fun p hp => hpend_perm.mem_iff.2 (by simp [hp])
      have hmemr : ∀ p ∈ restRev.reverse, p ∈ rem₂.nodes := by
        intro p hp
        exact (hmem₂ p).2 ⟨hmem p (hsubp p hp),
          fun hc => hnode_not (hc ▸ hp)⟩
      rcases ih restRev.reverse (result ++ [node]) rem₂ hwf₂ hEF₂ hRnd
        hmemr hlen₂ with ⟨rem', hrun', hmem'⟩
      refine ⟨rem', ?_, ?_⟩
      · rw [sortLoop_step_eq hrev hdeps hrem₂ hdp, hrun', hsortedRest, hrev]
        simp
      · intro m
        rw [hmem' m, hmem₂ m]
        constructor
        · intro ⟨⟨hm1, hm2⟩, hm3⟩
          refine ⟨hm1, fun hc => ?_⟩
          rcases List.mem_append.1 (hpend_perm.mem_iff.1 hc) with hc | hc
          · exact hm3 hc
          · rw [List.mem_singleton] at hc
            exact hm2 hc
        · intro ⟨hm1, hm2⟩
          exact ⟨⟨hm1, fun hc => hm2 (hc ▸ hnode_pend)⟩,
            fun hc => hm2 (hsubp m hc)⟩

/-- When every node is free of predecessors, the pending seed is the whole
node list in order. -/
theorem initPending_eq_nodes {g : Graph N E}
    (hfree : ∀ n ∈ g.nodes, g.predecessors n = some []) :
    initPending g = some g.nodes := by
  have hgo : ∀ (l acc : List N), (∀ n ∈ l, g.predecessors n = some []) →
      l.foldlM (fun acc n =>
        match g.predecessors n with
        | none => none
        | some ps => some (if ps.isEmpty then acc ++ [n] else acc)) acc =
      some (acc ++ l) := by
    intro l
    induction l with
    | nil => intro acc _; simp
    | cons n rest ih =>
      intro acc hf
      rw [List.foldlM_cons, hf n (by simp)]
      show (some (if ([] : List N).isEmpty then acc ++ [n] else acc)).bind _
        = _
      rw [Option.some_bind,
        if_pos (show ([] : List N).isEmpty = true from rfl)]
      rw [ih (acc ++ [n]) (fun x hx => hf x (by simp [hx]))]
      simp
  rw [initPending, hgo g.nodes [] (fun n hn => hfree n hn)]
  rfl

theorem edge_free_of_no_has_edge {g : Graph N E}
    (h : ∀ a b, g.has_edge a b = false) : ∀ a b, ¬ g.EdgeRel a b := by
  intro a b hc
  rw [Graph.EdgeRel, h a b] at hc
  cases hc

theorem preds_nil_of_edge_free {g : Graph N E} (hwf : g.WF)
    (hEF : ∀ a b, ¬ g.EdgeRel a b) :
    ∀ n ∈ g.nodes, g.predecessors n = some [] := by
  intro n hn
  rcases Graph.predecessors_eq_some hwf hn with ⟨ps, hps⟩
  have : ps = [] := by
    rw [List.eq_nil_iff_forall_not_mem]
    intro y hy
    exact hEF y n ((Graph.mem_predecessors hwf hps).1 hy)
  rw [hps, this]

end EdgeFreeRun

/-- C4: on a well-formed graph with zero edges, graph-only `topological_sort`
returns the nodes in exactly their insertion (reference) order. -/
theorem claim_C4 {N E : Type} [DecidableEq N] (g : Graph N E) (hwf : g.WF)
    (hEF : ∀ a b, g.has_edge a b = false) :
    topological_sort_graph g = .ok g.nodes := by
  have hEF' : ∀ a b, ¬ g.EdgeRel a b := edge_free_of_no_has_edge hEF
  have hfree := preds_nil_of_edge_free hwf hEF'
  have hsorted : sortByKey (sort_key_from_iter g.nodes) g.nodes = g.nodes :=
    sortByKey_eq_self _ (sort_key_self_pairwise g.nodes hwf.nodes_nodup)
  rcases sortLoop_edge_free (sort_key_from_iter g.nodes) g.nodes.length
    g.nodes [] g hwf hEF' hwf.nodes_nodup (fun p hp => hp) (Nat.le_refl _)
    with ⟨remaining', hrun, hmem'⟩
  have hempty : remaining'.nodes = [] := by
    rw [List.eq_nil_iff_forall_not_mem]
    intro m hm
    have := (hmem' m).1 hm
    exact this.2 this.1
  have hists : is_topologically_sorted (([] : List N) ++
      (sortByKey (sort_key_from_iter g.nodes) g.nodes).reverse).reverse g =
      some true := by
    rw [hsorted, List.nil_append, List.reverse_reverse]
    exact istsGo_true g.nodes [] hwf.nodes_nodup (fun x hx => hx)
      (fun a _ b hrel => absurd hrel (hEF' a b))
  rw [topological_sort_graph, topological_sort_core.eq_def,
    Graph.copy_eq hwf]
  dsimp only
  rw [initPending_eq_nodes hfree]
  dsimp only
  rw [hrun]
  dsimp only
  rw [hempty]
  rw [if_pos (by rfl)]
  rw [hists]
  rw [hsorted, List.nil_append, List.reverse_reverse]
  rw [List.filter_eq_self.2 (fun x hx => by simpa using hx)]

/-- The example graph of the claim: nodes added in order `7, 3, 9, 1`, no
edges. -/
def gNodes7391 : Graph Nat Bool :=
  ⟨[(7, []), (3, []), (9, []), (1, [])],
   [(7, []), (3, []), (9, []), (1, [])]⟩

theorem gNodes7391_edge_free : ∀ a b, gNodes7391.has_edge a b = false := by
  intro a b
  unfold Graph.has_edge
  by_cases h7 : (7 : Nat) = a
  · subst h7
    simp [gNodes7391, getVal?, keysOf]
  · by_cases h3 : (3 : Nat) = a
    · subst h3
      simp [gNodes7391, getVal?, keysOf]
    · by_cases h9 : (9 : Nat) = a
      · subst h9
        simp [gNodes7391, getVal?, h7, h3, keysOf]
      · by_cases h1 : (1 : Nat) = a
        · subst h1
          simp [gNodes7391, getVal?, h7, h3, h9, keysOf]
        · simp [gNodes7391, getVal?, h7, h3, h9, h1]

/-- Witness for C4 at the spec's example: nodes `[7, 3, 9, 1]`, no edges,
output `[7, 3, 9, 1]`. -/
theorem claim_C4_witness : topological_sort_graph gNodes7391 = .ok [7, 3, 9, 1] :=
  claim_C4 gNodes7391 (by decide) gNodes7391_edge_free

/-- C5: each Graph operation, run on well-formed input (and, where the
operation addresses nodes, with those nodes present so that it succeeds),
produces a graph that again satisfies the mirror invariant `Graph.WF`:
node-key views of the two indices coincide, no index holds duplicate keys,
and an edge with its label sits in the outgoing set of its origin exactly
when it sits in the incoming set of its destination. -/
theorem claim_C5 {N E : Type} [DecidableEq N] (g other : Graph N E)
    (n₀ n o d : N) (e : E) (hwf : g.WF) (hwo : other.WF)
    (hn : n ∈ g.nodes) (ho : o ∈ g.nodes) (hd : d ∈ g.nodes) :
    (g.add_node n₀).WF ∧
    (∃ g', g.add_edge o d e = some g' ∧ g'.WF) ∧
    (∃ g', g.remove_node n = some g' ∧ g'.WF) ∧
    (∃ g', g.remove_edge o d = some g' ∧ g'.WF) ∧
    (∃ g', g.update other = some g' ∧ g'.WF) ∧
    (∃ g', g.copy = some g' ∧ g'.WF) := by
  refine ⟨Graph.add_node_WF hwf n₀, ?_, ?_, ?_, ?_, ?_⟩
  · rcases Graph.add_edge_spec hwf e ho hd with ⟨g', h1, _, _, h4⟩
    exact ⟨g', h1, h4⟩
  · rcases Graph.remove_node_spec hwf hn with ⟨g', h1, h2, _⟩
    exact ⟨g', h1, h2⟩
  · rcases Graph.remove_edge_spec hwf ho hd with ⟨g', h1, _, _, h4⟩
    exact ⟨g', h1, h4⟩
  · rcases Graph.update_spec hwf hwo with ⟨g', h1, h2, _⟩
    exact ⟨g', h1, h2⟩
  · exact ⟨g, Graph.copy_eq hwf, hwf⟩

/-- Witness for C5 at the single-edge graph, updating with the two-cycle
graph. -/
theorem claim_C5_witness :
    ((gEdge01.add_node 5).WF ∧
    (∃ g', gEdge01.add_edge 0 1 false = some g' ∧ g'.WF) ∧
    (∃ g', gEdge01.remove_node 0 = some g' ∧ g'.WF) ∧
    (∃ g', gEdge01.remove_edge 0 1 = some g' ∧ g'.WF) ∧
    (∃ g', gEdge01.update gCyc2 = some g' ∧ g'.WF) ∧
    (∃ g', gEdge01.copy = some g' ∧ g'.WF)) :=
  claim_C5 gEdge01 gCyc2 5 0 0 1 false (by decide) (by decide)
    (by decide) (by decide) (by decide)

/-- C8: the mutation performed by `topological_sort` is confined to its
private copy.  In this embedding the sort is a pure function of the caller's
graph — `topological_sort_core` threads `g` itself through untouched and
only the value bound to `remaining` is consumed by `remove_node` — so the
caller's graph trivially keeps its node set, edges and labels across the
call.  The residual verifiable content is that the private copy the sort
consumes is exactly the caller's graph: same node set, same edges, same
labels (indeed the same value), so the order computed from the copy is the
order of the caller's graph. -/
theorem claim_C8 {N E : Type} [DecidableEq N] (g : Graph N E) (ns : List N)
    (hwf : g.WF) :
    ∃ c, g.copy = some c ∧ c.nodes = g.nodes ∧
      (∀ a b, c.edge a b = g.edge a b) ∧
      topological_sort_core ns g = topological_sort_core ns c :=
  ⟨g, Graph.copy_eq hwf, rfl, fun _ _ => rfl, rfl⟩

/-- Witness for C8 at the single-edge graph. -/
theorem claim_C8_witness :
    ∃ c, gEdge01.copy = some c ∧ c.nodes = gEdge01.nodes ∧
      (∀ a b, c.edge a b = gEdge01.edge a b) ∧
      topological_sort_core [0, 1] gEdge01 = topological_sort_core [0, 1] c :=
  claim_C8 gEdge01 [0, 1] (by decide)

/-- C9: removing a node that carries an edge to itself succeeds and leaves
no entry mentioning the node in either index: it is a key of neither index
and appears in no other node's inner successor or predecessor dict. -/
theorem claim_C9 {N E : Type} [DecidableEq N] (g : Graph N E) (n : N)
    (hwf : g.WF) (hself : g.has_edge n n = true) :
    ∃ g', g.remove_node n = some g' ∧
      n ∉ g'.nodes ∧ n ∉ keysOf g'.in_edges ∧
      (∀ m l, getVal? g'.out_edges m = some l → n ∉ keysOf l) ∧
      (∀ m l, getVal? g'.in_edges m = some l → n ∉ keysOf l) := by
  have hn : n ∈ g.nodes := Graph.EdgeRel_left_mem (g := g) hself
  rcases Graph.remove_node_spec hwf hn
    with ⟨g', h1, hwf', hnodes', _, hout, hin⟩
  refine ⟨g', h1, ?_, ?_, hout, hin⟩
  · rw [hnodes']
    exact hwf.nodes_nodup.not_mem_erase
  · rw [hwf'.in_keys, hnodes']
    exact hwf.nodes_nodup.not_mem_erase

/-- The example graph for C9: node `0` has a self-loop plus an incoming
edge from `1` and an outgoing edge to `2`. -/
def gSelf : Graph Nat Bool :=
  ⟨[(0, [(0, true), (2, true)]), (1, [(0, true)]), (2, [])],
   [(0, [(1, true), (0, true)]), (1, []), (2, [(0, true)])]⟩

/-- Witness for C9 at `gSelf`, removing the self-referencing node `0`. -/
theorem claim_C9_witness :
    ∃ g', gSelf.remove_node 0 = some g' ∧
      (0 : Nat) ∉ g'.nodes ∧ (0 : Nat) ∉ keysOf g'.in_edges ∧
      (∀ m l, getVal? g'.out_edges m = some l → (0 : Nat) ∉ keysOf l) ∧
      (∀ m l, getVal? g'.in_edges m = some l → (0 : Nat) ∉ keysOf l) :=
  claim_C9 gSelf 0 (by decide) rfl

section Projection

variable {N : Type} {E : Type} [DecidableEq N]

theorem sort_key_nil (a : N) : sort_key_from_iter ([] : List N) a = 0 := rfl

/-- Dropping one value from the reference sequence does not change any rank
comparison between values different from it. -/
theorem filter_key_iso (l : List N) (x a b : N) (ha : a ≠ x) (hb : b ≠ x) :
    (sort_key_from_iter l a ≤ sort_key_from_iter l b ↔
     sort_key_from_iter (l.filter (fun y => decide (y ≠ x))) a ≤
       sort_key_from_iter (l.filter (fun y => decide (y ≠ x))) b) := by
  induction l with
  | nil => simp [sort_key_nil]
  | cons h t ih =>
    by_cases hhx : h = x
    · rw [List.filter_cons_of_neg (by simp [hhx])]
      rw [sort_key_cons_ne t (hhx ▸ ha), sort_key_cons_ne t (hhx ▸ hb)]
      rw [← ih]
      omega
    · rw [List.filter_cons_of_pos (by simp [hhx])]
      by_cases hah : a = h
      · subst hah
        rw [sort_key_cons_self, sort_key_cons_self]
        simp
      · rw [sort_key_cons_ne t hah, sort_key_cons_ne _ hah]
        by_cases hbh : b = h
        · subst hbh
          rw [sort_key_cons_self, sort_key_cons_self]
          omega
        · rw [sort_key_cons_ne t hbh, sort_key_cons_ne _ hbh]
          rw [show (1 + sort_key_from_iter t a ≤ 1 + sort_key_from_iter t b)
            ↔ (sort_key_from_iter t a ≤ sort_key_from_iter t b) by omega]
          rw [ih]
          omega

/-- The loop is driven by the rank function only through comparisons of
pending nodes, which all live in the graph. -/
theorem sortLoop_congr {g : Graph N E} {key₁ key₂ : N → Nat}
    (hiso : ∀ a b, a ∈ g.nodes → b ∈ g.nodes →
      (key₁ a ≤ key₁ b ↔ key₂ a ≤ key₂ b)) :
    ∀ (fuel : Nat) (pending result : List N) (remaining : Graph N E),
      LoopInv g fuel pending remaining result →
      sortLoop key₁ fuel pending remaining result =
        sortLoop key₂ fuel pending remaining result := by
  intro fuel
  induction fuel with
  | zero =>
    intro pending result remaining hInv
    have hempty : remaining.nodes = [] :=
      List.eq_nil_of_length_eq_zero hInv.fuel_eq.symm
    have hpend : pending = [] := by
      rw [List.eq_nil_iff_forall_not_mem]
      intro p hp
      have := hInv.pend_mem p hp
      rw [hempty] at this
      cases this
    subst hpend
    rw [sortLoop_nil_eq, sortLoop_nil_eq]
  | succ fuel ih =>
    intro pending result remaining hInv
    by_cases hne : pending = []
    · subst hne
      rw [sortLoop_nil_eq, sortLoop_nil_eq]
    · rcases sortStep key₁ hInv hne with
        ⟨node, restRev, deps, remaining', pending', hrev, hdeps, hrem, hdp,
          hInv', _⟩
      have hsort_eq : sortByKey key₁ pending = sortByKey key₂ pending := by
        refine sortByKey_congr ?_
        intro a ha b hb
        exact hiso a b (hInv.sub_nodes a (hInv.pend_mem a ha))
          (hInv.sub_nodes b (hInv.pend_mem b hb))
      have hrev₂ : (sortByKey key₂ pending).reverse = node :: restRev :=
        hsort_eq ▸ hrev
      rw [sortLoop_step_eq hrev hdeps hrem hdp,
        sortLoop_step_eq hrev₂ hdeps hrem hdp]
      exact ih pending' (result ++ [node]) remaining' hInv'

/-- The initial state of the loop satisfies the invariant. -/
theorem initial_inv {g : Graph N E} (hg : g.WF) {P : List N}
    (hPnd : P.Nodup)
    (hPmem : ∀ x, x ∈ P ↔ x ∈ g.nodes ∧ g.predecessors x = some []) :
    LoopInv g g.nodes.length P g [] :=
  { wf := hg
    fuel_eq := rfl
    sub_nodes := fun _ hm => hm
    sub_edge := fun a b => ⟨fun h =>
      ⟨h, Graph.EdgeRel_left_mem h, Graph.EdgeRel_right_mem hg h⟩,
      fun h => h.1⟩
    pend_nodup := hPnd
    pend_mem := fun p hp => ((hPmem p).1 hp).1
    pend_free := fun p hp => ((hPmem p).1 hp).2
    pend_complete := fun m hm hfree => (hPmem m).2 ⟨hm, hfree⟩
    res_nodup := List.nodup_nil
    res_mem := fun x hx => absurd hx (List.not_mem_nil x)
    res_not_rem := fun x hx => absurd hx (List.not_mem_nil x)
    cover := fun _ hx => Or.inr hx
    res_before := fun s hs => absurd hs (List.not_mem_nil s) }

/-- Acyclicity drains the working graph completely. -/
theorem final_empty_of_acyclic {g : Graph N E} (hacy : ¬ g.HasCycle)
    {remaining' : Graph N E} {result' : List N}
    (hfin : LoopInv g remaining'.nodes.length [] remaining' result') :
    remaining'.nodes = [] := by
  by_contra hne
  have hpred : ∀ x ∈ remaining'.nodes,
      ∃ y ∈ remaining'.nodes, remaining'.EdgeRel y x := by
    intro x hx
    rcases Graph.predecessors_eq_some hfin.wf hx with ⟨ps, hps⟩
    have hne2 : ps ≠ [] := by
      intro hc
      have := hfin.pend_complete x hx (hc ▸ hps)
      cases this
    rcases List.exists_mem_of_ne_nil ps hne2 with ⟨y, hy⟩
    have hrel := (Graph.mem_predecessors hfin.wf hps).1 hy
    exact ⟨y, Graph.EdgeRel_left_mem hrel, hrel⟩
  obtain ⟨n, htn⟩ := hasCycle_of_all_pred hne hpred
  exact hacy ⟨n,
    Relation.TransGen.mono (fun a b h => ((hfin.sub_edge a b).1 h).1) htn⟩

/-- C10 helper: the defensive order check passes on the drained final
state. -/
theorem final_ists {g : Graph N E} (hg : g.WF)
    {remaining' : Graph N E} {result' : List N}
    (hfin : LoopInv g remaining'.nodes.length [] remaining' result')
    (hempty : remaining'.nodes = []) :
    is_topologically_sorted result'.reverse g = some true := by
  have hresmem : ∀ x, x ∈ result' ↔ x ∈ g.nodes := by
    intro x
    constructor
    · exact hfin.res_mem x
    · intro hx
      rcases hfin.cover x hx with h | h
      · exact h
      · rw [hempty] at h
        cases h
  rw [is_topologically_sorted]
  refine istsGo_true result'.reverse [] (List.nodup_reverse.2 hfin.res_nodup)
    (fun x hx => hfin.res_mem x (List.mem_reverse.1 hx)) ?_
  intro a ha b hrel
  have hb : b ∈ result' := (hresmem b).2 (Graph.EdgeRel_right_mem hg hrel)
  exact Or.inr (Or.inl (hfin.res_before b hb a hrel).reverse)

end Projection

/-- C10: in projection mode, a requested node absent from the graph raises
nothing and is silently left out: the call still succeeds, the missing node
does not occur in the output, and the remaining requested nodes come out in
exactly the order they would have had if the missing node had not been
requested at all. -/
theorem claim_C10 {N E : Type} [DecidableEq N] (g : Graph N E)
    (ns : List N) (x : N) (hwf : g.WF) (hacy : ¬ g.HasCycle)
    (hx : x ∉ g.nodes) :
    ∃ res, topological_sort_list ns g = .ok res ∧ x ∉ res ∧
      topological_sort_list (ns.filter (fun y => decide (y ≠ x))) g =
        .ok res := by
  rcases initPending_spec hwf with ⟨P, hP, hPnd, hPmem⟩
  have hInv0 := initial_inv hwf hPnd hPmem
  have hiso : ∀ a b, a ∈ g.nodes → b ∈ g.nodes →
      (sort_key_from_iter ns a ≤ sort_key_from_iter ns b ↔
       sort_key_from_iter (ns.filter (fun y => decide (y ≠ x))) a ≤
         sort_key_from_iter (ns.filter (fun y => decide (y ≠ x))) b) := by
    intro a b ha hb
    exact filter_key_iso ns x a b (fun hc => hx (hc ▸ ha))
      (fun hc => hx (hc ▸ hb))
  have hcongr := sortLoop_congr hiso g.nodes.length P [] g hInv0
  rcases sortLoop_ok (sort_key_from_iter ns) g.nodes.length P [] g hInv0
    with ⟨result', remaining', hrun, hfin, _⟩
  have hrun₂ : sortLoop
      (sort_key_from_iter (ns.filter (fun y => decide (y ≠ x))))
      g.nodes.length P g [] = .ok (result', remaining') := by
    rw [← hcongr]
    exact hrun
  have hempty : remaining'.nodes = [] := final_empty_of_acyclic hacy hfin
  have hists := final_ists hwf hfin hempty
  have hfilter_eq : result'.reverse.filter (fun y => decide (y ∈ ns)) =
      result'.reverse.filter (fun y => decide
        (y ∈ ns.filter (fun z => decide (z ≠ x)))) := by
    refine (List.filter_congr ?_).symm
    intro y hy
    have hyg : y ∈ g.nodes := hfin.res_mem y (List.mem_reverse.1 hy)
    have hyx : y ≠ x := fun hc => hx (hc ▸ hyg)
    simp [List.mem_filter, hyx]
  refine ⟨result'.reverse.filter (fun y => decide (y ∈ ns)), ?_, ?_, ?_⟩
  · rw [topological_sort_list, topological_sort_core.eq_def,
      Graph.copy_eq hwf]
    dsimp only
    rw [hP]
    dsimp only
    rw [hrun]
    dsimp only
    rw [hempty]
    rw [if_pos (by rfl)]
    rw [hists]
  · intro hc
    rcases List.mem_filter.1 hc with ⟨hc1, _⟩
    exact hx (hfin.res_mem x (List.mem_reverse.1 hc1))
  · rw [topological_sort_list, topological_sort_core.eq_def,
      Graph.copy_eq hwf]
    dsimp only
    rw [hP]
    dsimp only
    rw [hrun₂]
    dsimp only
    rw [hempty]
    rw [if_pos (by rfl)]
    rw [hists]
    rw [← hfilter_eq]

/-- Witness for C10: requesting `[1, 7, 0]` on the single-edge graph, where
node `7` is absent. -/
theorem claim_C10_witness :
    ∃ res, topological_sort_list [1, 7, 0] gEdge01 = .ok res ∧ 7 ∉ res ∧
      topological_sort_list ([1, 7, 0].filter (fun y => decide (y ≠ 7)))
        gEdge01 = .ok res :=
  claim_C10 gEdge01 [1, 7, 0] 7 (by decide) gEdge01_acyclic (by decide)

section CycleFinder

variable {N : Type} {E : Type} [DecidableEq N]

/-- Errors of the embedded `_find_cycle`: a Python `KeyError`
(`graph.successors` of an absent node, `in_stack.remove` of an absent
member), the `IndexError` of indexing an emptied stack during cycle
reconstruction, and fuel exhaustion (never reached — see
`findCycleLoop_ok`). -/
inductive FcErr
  | keyError
  | indexError
  | fuelOut
deriving DecidableEq

/-- Python `set.add`: append if absent. -/
def addSet (s : List N) (x : N) : List N := if x ∈ s then s else s ++ [x]

/-- The cycle reconstruction of `_find_cycle`
(`cycle = [dependency]; while stack[-1][0] != dependency: cycle.append(stack[-1][0]); stack.pop()`):
the stack is kept top-first here; `none` models the `IndexError` were the
stack to run dry. -/
def buildCycle (dep : N) : List (N × List N) → List N → Option (List N)
  | [], _ => none
  | (n, _) :: rest, cycle =>
    if n = dep then some cycle else buildCycle dep rest (cycle ++ [n])

/-- The `while stack:` loop of `_find_cycle`.  A frame holds a node and its
set of not-yet-drawn successors (drawn from the front; the Python code pops
from an unordered set, whose draw order the spec leaves open).  Returns the
found cycle (if any) with the updated `processed` set. -/
def findCycleLoop (g : Graph N E) :
    Nat → List N → List N → List (N × List N) →
    Except FcErr (Option (List N) × List N)
  | _, processed, _, [] => .ok (none, processed)
  | fuel, processed, in_stack, (topN, topDeps) :: rest =>
    match fuel with
    | 0 => .error .fuelOut
    | fuel + 1 =>
      match topDeps with
      | [] =>
        if topN ∈ in_stack then
          findCycleLoop g fuel (addSet processed topN)
            (in_stack.erase topN) rest
        else .error .keyError
      | dep :: depsRest =>
        if dep ∈ in_stack then
          match buildCycle dep ((topN, depsRest) :: rest) [dep] with
          | none => .error .indexError
          | some c => .ok (some c, processed)
        else if dep ∈ processed then
          findCycleLoop g fuel processed in_stack ((topN, depsRest) :: rest)
        else
          match g.successors dep with
          | none => .error .keyError
          | some ds =>
            findCycleLoop g fuel processed (addSet in_stack dep)
              ((dep, ds) :: (topN, depsRest) :: rest)

/-- The `for node in graph.nodes:` loop of `_find_cycle`, threading the
`processed` set across roots. -/
def findCycleOuter (g : Graph N E) (fuel : Nat) :
    List N → List N → Except FcErr (Option (List N))
  | [], _ => .ok none
  | n :: rest, processed =>
    if n ∈ processed then findCycleOuter g fuel rest processed
    else
      match g.successors n with
      | none => .error .keyError
      | some ds =>
        match findCycleLoop g fuel processed [n] [(n, ds)] with
        | .error e => .error e
        | .ok (some c, _) => .ok (some c)
        | .ok (none, processed') => findCycleOuter g fuel rest processed'

/-- Number of successors of a node (0 for an absent node). -/
def succLen (g : Graph N E) (n : N) : Nat :=
  match g.successors n with
  | some l => l.length
  | none => 0

/-- Fuel that dominates the DFS measure from any root. -/
def fcFuel (g : Graph N E) : Nat :=
  (g.nodes.map (fun n => 2 + succLen g n)).sum

/-- Embedding of `_find_cycle(graph)`. -/
def _find_cycle (g : Graph N E) : Except FcErr (Option (List N)) :=
  findCycleOuter g (fcFuel g) g.nodes []

/-- Embedding of `_remove_self_references(graph)`. -/
def _remove_self_references (g : Graph N E) : Option (Graph N E) :=
  g.nodes.foldlM (fun acc n => acc.remove_edge n n) g

/-- The nested edge-removal loops of `replace_cycles`. -/
def removeCycleEdges (g : Graph N E) (cycle : List N) : Option (Graph N E) :=
  cycle.foldlM (fun acc node =>
    cycle.foldlM (fun acc2 dep => acc2.remove_edge node dep) acc) g

/-- The chain-rebuilding loop of `replace_cycles`:
`nodes = iter(sorted(cycle, key=key)); prev = next(nodes); for node in nodes: graph.add_edge(node, prev, True)`.
`none` models the `StopIteration` of `next` on an empty iterator (the loop
is entered only with nonempty cycles). -/
def chainLink (key : N → Nat) (g : Graph N Bool) (cycle : List N) :
    Option (Graph N Bool) :=
  match sortByKey key cycle with
  | [] => none
  | first :: rest =>
    (rest.foldlM (fun (p : Graph N Bool × N) node =>
      (p.1.add_edge node p.2 true).map (fun g2 => (g2, node))) (g, first)).map
      Prod.fst

/-- Errors of the embedded `replace_cycles`. -/
inductive RcErr
  | fc (e : FcErr)
  | keyError
  | fuelOut
deriving DecidableEq

/-- The `while True:` loop of `replace_cycles`. -/
def replaceLoop (key : N → Nat) :
    Nat → Graph N Bool → Except RcErr (Graph N Bool)
  | 0, _ => .error .fuelOut
  | fuel + 1, g =>
    match _find_cycle g with
    | .error e => .error (.fc e)
    | .ok none => .ok g
    | .ok (some cycle) =>
      if cycle = [] then .ok g
      else
        match removeCycleEdges g cycle with
        | none => .error .keyError
        | some g2 =>
          match chainLink key g2 cycle with
          | none => .error .keyError
          | some g3 => replaceLoop key fuel g3

/-- Ordered pairs `(origin, destination)` of all edges, per the outgoing
index. -/
def edgePairs (g : Graph N E) : List (N × N) :=
  g.out_edges.bind (fun p => p.2.map (fun q => (p.1, q.1)))

/-- Total number of edges. -/
def edgeCount (g : Graph N E) : Nat := (edgePairs g).length

/-- Embedding of `replace_cycles(graph, key=key)`.  The fuel
`edgeCount g + 1` suffices because every iteration deletes at least one
more edge than it adds (`replaceLoop_ok`). -/
def replace_cycles (g : Graph N Bool) (key : N → Nat) :
    Except RcErr (Graph N Bool) :=
  match _remove_self_references g with
  | none => .error .keyError
  | some g1 => replaceLoop key (edgeCount g1 + 1) g1

/-- What `_find_cycle` promises about a returned list: nonempty, duplicate
free nodes of the graph, consecutive entries joined by edges pointing at
the earlier entry, and a closing edge from the first entry to the last. -/
structure CycleSpec (g : Graph N E) (c : List N) : Prop where
  ne : c ≠ []
  nodup : c.Nodup
  mem : ∀ x ∈ c, x ∈ g.nodes
  chain : List.Chain' (fun a b => g.EdgeRel b a) c
  closing : ∀ (h : c ≠ []), g.EdgeRel (c.head h) (c.getLast h)

/-- Invariants of the DFS stack. -/
structure DfsInv (g : Graph N E) (in_stack : List N)
    (stack : List (N × List N)) : Prop where
  inv1 : in_stack = (stack.map Prod.fst).reverse
  inv2 : (stack.map Prod.fst).Nodup
  inv3 : ∀ f ∈ stack, f.1 ∈ g.nodes
  inv4 : ∀ f ∈ stack, ∀ d ∈ f.2, g.EdgeRel f.1 d
  inv5 : List.Chain' (fun a b => g.EdgeRel b.1 a.1) stack

/-- The DFS measure: each frame pays one plus its pending successors, and
each untouched node pays two plus its successor count. -/
def dfsM (g : Graph N E) (processed in_stack : List N)
    (stack : List (N × List N)) : Nat :=
  (stack.map (fun f => 1 + f.2.length)).sum +
  ((g.nodes.filter (fun m => decide (m ∉ processed ∧ m ∉ in_stack))).map
    (fun m => 2 + succLen g m)).sum

end CycleFinder

section BuildCycle

variable {N : Type} [DecidableEq N]

/-- Full description of the reconstruction routine: starting from
accumulator `acc`, it returns `acc` extended with the frame nodes strictly
above the successor's frame, read from the top of the stack downwards. -/
theorem buildCycle_eq (dep : N) :
    ∀ (s : List (N × List N)) (acc : List N), dep ∈ s.map Prod.fst →
      buildCycle dep s acc =
        some (acc ++ (s.map Prod.fst).takeWhile (fun y => decide (y ≠ dep))) := by
  intro s
  induction s with
  | nil => intro acc h; cases h
  | cons f rest ih =>
    intro acc h
    obtain ⟨n, d⟩ := f
    by_cases hnd : n = dep
    · subst hnd
      rw [buildCycle, if_pos rfl]
      rw [List.map_cons, List.takeWhile_cons_of_neg (by simp)]
      simp
    · rw [buildCycle, if_neg hnd]
      rw [List.map_cons] at h ⊢
      rcases List.mem_cons.1 h with h1 | h1
      · exact absurd h1.symm hnd
      · rw [ih (acc ++ [n]) h1, List.takeWhile_cons_of_pos (by simp [hnd])]
        simp

end BuildCycle

/-- The three-node cycle `0 → 1 → 2 → 0` (the DFS pushes frames 0, 1, 2 and
then draws `0`, a stack member, from the top frame). -/
def gCyc3 : Graph Nat Bool :=
  ⟨[(0, [(1, true)]), (1, [(2, true)]), (2, [(0, true)])],
   [(0, [(2, true)]), (1, [(0, true)]), (2, [(1, true)])]⟩

/-- C7 counterexample: when `_find_cycle` on `gCyc3` draws successor `0`
from the top frame, the stack is `0, 1, 2` bottom-to-top (top-first here:
`[(2, []), (1, []), (0, [])]`), so the claimed contiguous suffix in stack
order is `[0, 1, 2]` — but the reconstruction returns `[0, 2, 1]`, the top
frame right after the successor, not last. -/
theorem claim_C7_counterexample :
    buildCycle 0 [(2, ([] : List Nat)), (1, []), (0, [])] [0] =
      some [0, 2, 1] ∧
    _find_cycle gCyc3 = .ok (some [0, 2, 1]) ∧
    [0, 2, 1] ≠ 0 :: ((([(2, ([] : List Nat)), (1, []), (0, [])].map
      Prod.fst).takeWhile (fun y => decide (y ≠ 0))).reverse) := by
  refine ⟨rfl, rfl, by decide⟩

/-- C7 (amended): whenever `_find_cycle` draws a successor currently on the
stack, the list it returns (built by `buildCycle` from the successor and
the current stack, top frame first) consists of the successor's node
followed by the nodes of the frames strictly above the successor's frame in
reverse stack order: the current top comes immediately after the successor
and the frame just above the successor's frame comes last. -/
theorem claim_C7 {N : Type} [DecidableEq N] (dep : N)
    (stack : List (N × List N)) (hdep : dep ∈ stack.map Prod.fst) :
    buildCycle dep stack [dep] =
      some (dep :: (stack.map Prod.fst).takeWhile (fun y => decide (y ≠ dep))) := by
  rw [buildCycle_eq dep stack [dep] hdep]
  rfl

/-- Witness for the amended C7 at the `gCyc3` detection stack. -/
theorem claim_C7_witness :
    buildCycle 0 [(2, ([] : List Nat)), (1, []), (0, [])] [0] =
      some (0 :: (([(2, ([] : List Nat)), (1, []), (0, [])].map
        Prod.fst).takeWhile (fun y => decide (y ≠ 0)))) :=
  claim_C7 0 [(2, []), (1, []), (0, [])] (by decide)

section DfsProof

variable {N : Type} {E : Type} [DecidableEq N]

theorem mem_addSet {s : List N} {x y : N} : y ∈ addSet s x ↔ y ∈ s ∨ y = x := by
  unfold addSet
  by_cases h : x ∈ s
  · rw [if_pos h]
    constructor
    · exact Or.inl
    · rintro (hy | rfl)
      · exact hy
      · exact h
  · rw [if_neg h]
    simp

theorem mem_addSet_self {s : List N} {x : N} : x ∈ addSet s x :=
  mem_addSet.2 (Or.inr rfl)

theorem addSet_eq_append {s : List N} {x : N} (h : x ∉ s) :
    addSet s x = s ++ [x] := if_neg h

theorem sum_filter_drop :
    ∀ {l : List N}, l.Nodup → ∀ {dep : N}, dep ∈ l →
      ∀ {P Q : N → Bool}, P dep = true → Q dep = false →
      (∀ m ∈ l, m ≠ dep → P m = Q m) → ∀ (f : N → Nat),
      ((l.filter P).map f).sum = f dep + ((l.filter Q).map f).sum := by
  intro l
  induction l with
  | nil => intro _ dep h; cases h
  | cons h t ih =>
    intro hnd dep hdep P Q hP hQ hagree f
    rw [List.nodup_cons] at hnd
    by_cases hhd : h = dep
    · subst hhd
      rw [List.filter_cons_of_pos hP, List.filter_cons_of_neg (by simp [hQ])]
      rw [List.map_cons, List.sum_cons]
      congr 1
      refine congrArg _ (congrArg _ (List.filter_congr ?_))
      intro m hm
      exact hagree m (by simp [hm]) (fun hc => hnd.1 (hc ▸ hm))
    · have hdept : dep ∈ t := by
        rcases List.mem_cons.1 hdep with hc | hc
        · exact absurd hc.symm hhd
        · exact hc
      have hPQ : P h = Q h := hagree h (by simp) hhd
      have := ih hnd.2 hdept hP hQ
        (fun m hm hne => hagree m (by simp [hm]) hne) f
      by_cases hPh : P h = true
      · rw [List.filter_cons_of_pos hPh,
          List.filter_cons_of_pos (hPQ ▸ hPh)]
        rw [List.map_cons, List.sum_cons, List.map_cons, List.sum_cons, this]
        omega
      · have hPh' : P h = false := by
          cases hp : P h
          · rfl
          · exact absurd hp hPh
        rw [List.filter_cons_of_neg (by simp [hPh']),
          List.filter_cons_of_neg (by simp [hPQ ▸ hPh'])]
        exact this

/-- The list built by the reconstruction routine is a genuine cycle: the
drawn-back node followed by the stack nodes above its frame. -/
theorem cycleSpec_takeWhile {g : Graph N E} (hg : g.WF) {dep topN : N}
    {L : List N} (hhead : L.head? = some topN)
    (hnd : L.Nodup) (hmemL : ∀ x ∈ L, x ∈ g.nodes)
    (hchainL : List.Chain' (fun a b => g.EdgeRel b a) L)
    (hdepL : dep ∈ L) (hdrawn : g.EdgeRel topN dep) :
    CycleSpec g (dep :: L.takeWhile (fun y => decide (y ≠ dep))) := by
  have hsplit := List.takeWhile_append_dropWhile (fun y => decide (y ≠ dep)) L
  have hdWne : L.dropWhile (fun y => decide (y ≠ dep)) ≠ [] := by
    intro hc
    rw [hc, List.append_nil] at hsplit
    have := List.mem_takeWhile_imp (hsplit ▸ hdepL)
    simp at this
  obtain ⟨suf, hdW⟩ :
      ∃ suf, L.dropWhile (fun y => decide (y ≠ dep)) = dep :: suf := by
    have hh := List.head?_dropWhile_not (fun y => decide (y ≠ dep)) L
    cases hdw : L.dropWhile (fun y => decide (y ≠ dep)) with
    | nil => exact absurd hdw hdWne
    | cons a b =>
      rw [hdw] at hh
      simp at hh
      refine ⟨b, ?_⟩
      rw [← hh]
  rw [hdW] at hsplit
  have hnd2 : (L.takeWhile (fun y => decide (y ≠ dep)) ++ dep :: suf).Nodup := by
    rw [hsplit]
    exact hnd
  have hdep_tW : dep ∉ L.takeWhile (fun y => decide (y ≠ dep)) := by
    rw [List.nodup_append] at hnd2
    exact fun hc => hnd2.2.2 hc (by simp)
  have hchainApp : List.Chain' (fun a b => g.EdgeRel b a)
      (L.takeWhile (fun y => decide (y ≠ dep)) ++ dep :: suf) := by
    rw [hsplit]
    exact hchainL
  refine ⟨List.cons_ne_nil _ _, ?_, ?_, ?_, ?_⟩
  · exact List.nodup_cons.2 ⟨hdep_tW, (List.nodup_append.1 hnd2).1⟩
  · intro x hx
    rcases List.mem_cons.1 hx with rfl | hx
    · exact Graph.EdgeRel_right_mem hg hdrawn
    · exact hmemL x ((List.takeWhile_prefix _).sublist.subset hx)
  · rw [List.chain'_cons']
    constructor
    · intro y hy
      obtain ⟨t₀, tW', htw⟩ : ∃ a l,
          L.takeWhile (fun y => decide (y ≠ dep)) = a :: l := by
        cases h : L.takeWhile (fun y => decide (y ≠ dep)) with
        | nil => rw [h] at hy; cases hy
        | cons a l => exact ⟨a, l, rfl⟩
      rw [htw] at hy
      rw [List.head?_cons, Option.mem_some_iff] at hy
      rw [htw] at hsplit
      have ht0 : topN = t₀ := by
        have := congrArg List.head? hsplit
        rw [hhead] at this
        simpa using this.symm
      exact hy ▸ ht0 ▸ hdrawn
    · exact hchainL.prefix (List.takeWhile_prefix _)
  · intro hne
    have hx : (dep :: L.takeWhile (fun y => decide (y ≠ dep))).getLast? =
        some ((dep :: L.takeWhile (fun y => decide (y ≠ dep))).getLast hne) :=
      List.getLast?_eq_getLast _ hne
    show g.EdgeRel dep _
    suffices hsuf : ∀ x,
        (dep :: L.takeWhile (fun y => decide (y ≠ dep))).getLast? = some x →
        g.EdgeRel dep x from hsuf _ hx
    intro x hx
    cases htw : L.takeWhile (fun y => decide (y ≠ dep)) with
    | nil =>
      rw [htw] at hx
      simp at hx
      subst hx
      rw [htw] at hsplit
      rw [List.nil_append] at hsplit
      have htop : topN = dep := by
        have := congrArg List.head? hsplit
        rw [hhead] at this
        simpa using this.symm
      exact htop ▸ hdrawn
    | cons t₀ tW' =>
      rw [htw, List.getLast?_cons_cons] at hx
      have hfacts := List.chain'_append.1 hchainApp
      have := hfacts.2.2 x (by rw [htw]; exact hx) dep (by simp)
      exact this

/-- At a detection point the reconstruction succeeds and returns a genuine
cycle. -/
theorem cycleSpec_of_detect {g : Graph N E} (hg : g.WF) {topN dep : N}
    {depsRest : List N} {rest : List (N × List N)}
    (hmapnd : (((topN, depsRest) :: rest).map Prod.fst).Nodup)
    (hmem : ∀ f ∈ (topN, depsRest) :: rest, f.1 ∈ g.nodes)
    (hchain : List.Chain' (fun a b => g.EdgeRel b.1 a.1)
      ((topN, depsRest) :: rest))
    (hdep_in : dep ∈ ((topN, depsRest) :: rest).map Prod.fst)
    (hdrawn : g.EdgeRel topN dep) :
    ∃ c, buildCycle dep ((topN, depsRest) :: rest) [dep] = some c ∧
      CycleSpec g c := by
  refine ⟨dep :: ((((topN, depsRest) :: rest).map Prod.fst).takeWhile
    (fun y => decide (y ≠ dep))), ?_, ?_⟩
  · rw [buildCycle_eq dep _ [dep] hdep_in]
    rfl
  · refine cycleSpec_takeWhile hg rfl hmapnd ?_ ?_ hdep_in hdrawn
    · intro x hx
      rcases List.mem_map.1 hx with ⟨f, hf, hfx⟩
      exact hfx ▸ hmem f hf
    · exact (List.chain'_map Prod.fst).2 hchain

theorem findCycleLoop_nil (g : Graph N E) (fuel : Nat)
    (processed in_stack : List N) :
    findCycleLoop g fuel processed in_stack [] = .ok (none, processed) := by
  rw [findCycleLoop.eq_def]

theorem findCycleLoop_frame_done {g : Graph N E} {fuel : Nat}
    {processed in_stack : List N} {topN : N} {rest : List (N × List N)}
    (h : topN ∈ in_stack) :
    findCycleLoop g (fuel + 1) processed in_stack ((topN, []) :: rest) =
      findCycleLoop g fuel (addSet processed topN) (in_stack.erase topN)
        rest := by
  rw [findCycleLoop.eq_def]
  dsimp only
  rw [if_pos h]

theorem findCycleLoop_detect {g : Graph N E} {fuel : Nat}
    {processed in_stack : List N} {topN dep : N} {depsRest : List N}
    {rest : List (N × List N)} {c : List N} (h : dep ∈ in_stack)
    (hbc : buildCycle dep ((topN, depsRest) :: rest) [dep] = some c) :
    findCycleLoop g (fuel + 1) processed in_stack
      ((topN, dep :: depsRest) :: rest) = .ok (some c, processed) := by
  rw [findCycleLoop.eq_def]
  dsimp only
  rw [if_pos h, hbc]

theorem findCycleLoop_skip {g : Graph N E} {fuel : Nat}
    {processed in_stack : List N} {topN dep : N} {depsRest : List N}
    {rest : List (N × List N)} (h1 : dep ∉ in_stack) (h2 : dep ∈ processed) :
    findCycleLoop g (fuel + 1) processed in_stack
      ((topN, dep :: depsRest) :: rest) =
      findCycleLoop g fuel processed in_stack ((topN, depsRest) :: rest) := by
  rw [findCycleLoop.eq_def]
  dsimp only
  rw [if_neg h1, if_pos h2]

theorem findCycleLoop_push {g : Graph N E} {fuel : Nat}
    {processed in_stack : List N} {topN dep : N} {depsRest ds : List N}
    {rest : List (N × List N)} (h1 : dep ∉ in_stack) (h2 : dep ∉ processed)
    (hds : g.successors dep = some ds) :
    findCycleLoop g (fuel + 1) processed in_stack
      ((topN, dep :: depsRest) :: rest) =
      findCycleLoop g fuel processed (addSet in_stack dep)
        ((dep, ds) :: (topN, depsRest) :: rest) := by
  rw [findCycleLoop.eq_def]
  dsimp only
  rw [if_neg h1, if_neg h2, hds]

/-- The DFS loop of `_find_cycle` terminates within the measure and either
finishes with no detection or returns a genuine cycle. -/
theorem findCycleLoop_ok {g : Graph N E} (hg : g.WF) :
    ∀ (fuel : Nat) (processed in_stack : List N)
      (stack : List (N × List N)), DfsInv g in_stack stack →
      dfsM g processed in_stack stack ≤ fuel →
      (∃ p, findCycleLoop g fuel processed in_stack stack =
          .ok (none, p)) ∨
      (∃ c p, findCycleLoop g fuel processed in_stack stack =
          .ok (some c, p) ∧ CycleSpec g c) := by
  intro fuel
  induction fuel with
  | zero =>
    intro processed in_stack stack hInv hM
    cases stack with
    | nil =>
      exact Or.inl ⟨processed, findCycleLoop_nil g 0 processed in_stack⟩
    | cons f rest =>
      exfalso
      unfold dfsM at hM
      simp only [List.map_cons, List.sum_cons] at hM
      omega
  | succ fuel ih =>
    intro processed in_stack stack hInv hM
    cases stack with
    | nil =>
      exact Or.inl ⟨processed, findCycleLoop_nil g _ processed in_stack⟩
    | cons f rest =>
      obtain ⟨topN, topDeps⟩ := f
      cases topDeps with
      | nil =>
        have htop_in : topN ∈ in_stack := by
          rw [hInv.inv1]
          simp
        have hnotin : topN ∉ (rest.map Prod.fst).reverse := by
          have h2 := hInv.inv2
          simp only [List.map_cons, List.nodup_cons] at h2
          simpa using h2.1
        have herase : in_stack.erase topN = (rest.map Prod.fst).reverse := by
          rw [hInv.inv1, List.map_cons, List.reverse_cons,
            List.erase_append_right _ hnotin, List.erase_cons_head,
            List.append_nil]
        have hInv2 : DfsInv g (in_stack.erase topN) rest := by
          rw [herase]
          refine ⟨rfl, ?_, ?_, ?_, ?_⟩
          · have h2 := hInv.inv2
            simp only [List.map_cons, List.nodup_cons] at h2
            exact h2.2
          · intro f hf
            exact hInv.inv3 f (List.mem_cons_of_mem _ hf)
          · intro f hf d hd
            exact hInv.inv4 f (List.mem_cons_of_mem _ hf) d hd
          · exact hInv.inv5.tail
        have hfilter_eq : g.nodes.filter
            (fun m => decide (m ∉ addSet processed topN ∧
              m ∉ in_stack.erase topN)) =
            g.nodes.filter
              (fun m => decide (m ∉ processed ∧ m ∉ in_stack)) := by
          refine List.filter_congr ?_
          intro m hm
          rw [decide_eq_decide]
          by_cases hmt : m = topN
          · subst hmt
            constructor
            · intro hc
              exact absurd mem_addSet_self hc.1
            · intro hc
              exact absurd htop_in hc.2
          · constructor
            · intro hc
              exact ⟨fun hp => hc.1 (mem_addSet.2 (Or.inl hp)),
                fun hs => hc.2 ((List.mem_erase_of_ne hmt).2 hs)⟩
            · intro hc
              refine ⟨fun hp => ?_,
                fun hs => hc.2 ((List.mem_erase_of_ne hmt).1 hs)⟩
              rcases mem_addSet.1 hp with h | h
              · exact hc.1 h
              · exact hmt h
        have hM2 : dfsM g (addSet processed topN) (in_stack.erase topN)
            rest ≤ fuel := by
          unfold dfsM at hM ⊢
          rw [hfilter_eq]
          simp only [List.map_cons, List.sum_cons] at hM
          omega
        rw [findCycleLoop_frame_done htop_in]
        exact ih (addSet processed topN) (in_stack.erase topN) rest hInv2 hM2
      | cons dep depsRest =>
        have hdrawn : g.EdgeRel topN dep :=
          hInv.inv4 (topN, dep :: depsRest) (by simp) dep (by simp)
        have hchain2 : List.Chain' (fun a b => g.EdgeRel b.1 a.1)
            ((topN, depsRest) :: rest) := by
          have h5 := hInv.inv5
          rw [List.chain'_cons'] at h5 ⊢
          exact ⟨h5.1, h5.2⟩
        have hinv3' : ∀ f ∈ (topN, depsRest) :: rest, f.1 ∈ g.nodes := by
          intro f hf
          rcases List.mem_cons.1 hf with rfl | hf
          · exact hInv.inv3 (topN, dep :: depsRest) (by simp)
          · exact hInv.inv3 f (by simp [hf])
        by_cases hdep_in : dep ∈ in_stack
        · have hmapnd :
              (((topN, depsRest) :: rest).map Prod.fst).Nodup := hInv.inv2
          have hdep_in2 : dep ∈ ((topN, depsRest) :: rest).map Prod.fst := by
            have h1 : dep ∈ (((topN, dep :: depsRest) :: rest).map
                Prod.fst).reverse := hInv.inv1 ▸ hdep_in
            rw [List.mem_reverse] at h1
            simpa using h1
          obtain ⟨c, hbc, hcs⟩ :=
            cycleSpec_of_detect hg hmapnd hinv3' hchain2 hdep_in2 hdrawn
          exact Or.inr ⟨c, processed,
            findCycleLoop_detect hdep_in hbc, hcs⟩
        · by_cases hdep_proc : dep ∈ processed
          · have hInv2 : DfsInv g in_stack ((topN, depsRest) :: rest) := by
              refine ⟨hInv.inv1, hInv.inv2, hinv3', ?_, hchain2⟩
              intro f hf d hd
              rcases List.mem_cons.1 hf with rfl | hf
              · exact hInv.inv4 (topN, dep :: depsRest) (by simp) d
                  (by simp [hd])
              · exact hInv.inv4 f (by simp [hf]) d hd
            have hM2 : dfsM g processed in_stack
                ((topN, depsRest) :: rest) ≤ fuel := by
              unfold dfsM at hM ⊢
              simp only [List.map_cons, List.sum_cons, List.length_cons]
                at hM ⊢
              omega
            rw [findCycleLoop_skip hdep_in hdep_proc]
            exact ih processed in_stack ((topN, depsRest) :: rest) hInv2 hM2
          · have hdepnode : dep ∈ g.nodes :=
              Graph.EdgeRel_right_mem hg hdrawn
            obtain ⟨ds, hds⟩ := Graph.successors_eq_some hdepnode
            have hdep_not_stack :
                dep ∉ ((topN, dep :: depsRest) :: rest).map Prod.fst := by
              intro hc
              apply hdep_in
              rw [hInv.inv1, List.mem_reverse]
              exact hc
            have hInv2 : DfsInv g (addSet in_stack dep)
                ((dep, ds) :: (topN, depsRest) :: rest) := by
              refine ⟨?_, ?_, ?_, ?_, ?_⟩
              · rw [addSet_eq_append hdep_in, hInv.inv1]
                simp
              · rw [List.map_cons, List.nodup_cons]
                exact ⟨hdep_not_stack, hInv.inv2⟩
              · intro f hf
                rcases List.mem_cons.1 hf with rfl | hf
                · exact hdepnode
                · exact hinv3' f hf
              · intro f hf d hd
                rcases List.mem_cons.1 hf with rfl | hf
                · exact (Graph.mem_successors hds).1 hd
                · rcases List.mem_cons.1 hf with rfl | hf
                  · exact hInv.inv4 (topN, dep :: depsRest) (by simp) d
                      (by simp [hd])
                  · exact hInv.inv4 f (by simp [hf]) d hd
              · rw [List.chain'_cons']
                refine ⟨?_, hchain2⟩
                intro y hy
                rw [List.head?_cons, Option.mem_some_iff] at hy
                rw [← hy]
                exact hdrawn
            have hP : (fun m => decide (m ∉ processed ∧ m ∉ in_stack)) dep
                = true := by
              simp [hdep_proc, hdep_in]
            have hQ : (fun m => decide (m ∉ processed ∧
                m ∉ addSet in_stack dep)) dep = false := by
              simp [mem_addSet_self]
            have hagree : ∀ m ∈ g.nodes, m ≠ dep →
                (fun m => decide (m ∉ processed ∧ m ∉ in_stack)) m =
                (fun m => decide (m ∉ processed ∧
                  m ∉ addSet in_stack dep)) m := by
              intro m hm hmd
              simp only [decide_eq_decide]
              simp [mem_addSet, hmd]
            have hsd := sum_filter_drop hg.nodes_nodup hdepnode hP hQ hagree
              (fun m => 2 + succLen g m)
            have hsl : succLen g dep = ds.length := by
              unfold succLen
              rw [hds]
            have hM2 : dfsM g processed (addSet in_stack dep)
                ((dep, ds) :: (topN, depsRest) :: rest) ≤ fuel := by
              unfold dfsM at hM ⊢
              simp only [List.map_cons, List.sum_cons, List.length_cons]
                at hM ⊢
              rw [hsd] at hM
              rw [hsl] at hM
              omega
            rw [findCycleLoop_push hdep_in hdep_proc hds]
            exact ih processed (addSet in_stack dep)
              ((dep, ds) :: (topN, depsRest) :: rest) hInv2 hM2

theorem findCycleOuter_nil (g : Graph N E) (fuel : Nat)
    (processed : List N) :
    findCycleOuter g fuel [] processed = .ok none := by
  rw [findCycleOuter.eq_def]

theorem findCycleOuter_skip {g : Graph N E} {fuel : Nat} {n : N}
    {rest processed : List N} (h : n ∈ processed) :
    findCycleOuter g fuel (n :: rest) processed =
      findCycleOuter g fuel rest processed := by
  rw [findCycleOuter.eq_def]
  dsimp only
  rw [if_pos h]

theorem findCycleOuter_run_none {g : Graph N E} {fuel : Nat} {n : N}
    {rest processed ds p : List N} (h : n ∉ processed)
    (hds : g.successors n = some ds)
    (hloop : findCycleLoop g fuel processed [n] [(n, ds)] =
      .ok (none, p)) :
    findCycleOuter g fuel (n :: rest) processed =
      findCycleOuter g fuel rest p := by
  rw [findCycleOuter.eq_def]
  dsimp only
  rw [if_neg h, hds]
  dsimp only
  rw [hloop]

theorem findCycleOuter_run_some {g : Graph N E} {fuel : Nat} {n : N}
    {rest processed ds p c : List N} (h : n ∉ processed)
    (hds : g.successors n = some ds)
    (hloop : findCycleLoop g fuel processed [n] [(n, ds)] =
      .ok (some c, p)) :
    findCycleOuter g fuel (n :: rest) processed = .ok (some c) := by
  rw [findCycleOuter.eq_def]
  dsimp only
  rw [if_neg h, hds]
  dsimp only
  rw [hloop]

/-- From any root within the node set, the DFS measure fits in the global
fuel budget. -/
theorem dfsM_le_fcFuel {g : Graph N E} (hg : g.WF) {n : N}
    (hn : n ∈ g.nodes) {ds : List N} (hds : g.successors n = some ds)
    (processed : List N) :
    dfsM g processed [n] [(n, ds)] ≤ fcFuel g := by
  have hsum := sum_filter_drop hg.nodes_nodup hn
    (P := fun _ => true) (Q := fun m => decide (m ≠ n)) rfl (by simp)
    (fun m hm hmd => by simp [hmd]) (fun m => 2 + succLen g m)
  rw [List.filter_true] at hsum
  have hsub : List.Sublist (g.nodes.filter
      (fun m => decide (m ∉ processed ∧ m ∉ [n])))
      (g.nodes.filter (fun m => decide (m ≠ n))) := by
    refine List.monotone_filter_right _ ?_
    intro a ha
    simp only [decide_eq_true_eq] at ha ⊢
    intro hc
    exact ha.2 (by simp [hc])
  have hle := List.Sublist.sum_le_sum
    (hsub.map (fun m => 2 + succLen g m)) (fun a _ => Nat.zero_le a)
  have hsl : succLen g n = ds.length := by
    unfold succLen
    rw [hds]
  unfold dfsM fcFuel
  simp only [List.map_cons, List.sum_cons, List.map_nil, List.sum_nil]
  rw [hsl] at hsum
  omega

/-- The root loop of `_find_cycle` succeeds: it either reports no cycle or
returns a genuine cycle. -/
theorem findCycleOuter_ok {g : Graph N E} (hg : g.WF) :
    ∀ (roots processed : List N), (∀ n ∈ roots, n ∈ g.nodes) →
      findCycleOuter g (fcFuel g) roots processed = .ok none ∨
      ∃ c, findCycleOuter g (fcFuel g) roots processed = .ok (some c) ∧
        CycleSpec g c := by
  intro roots
  induction roots with
  | nil =>
    intro processed _
    exact Or.inl (findCycleOuter_nil g (fcFuel g) processed)
  | cons n rest ih =>
    intro processed hroots
    by_cases hproc : n ∈ processed
    · rw [findCycleOuter_skip hproc]
      exact ih processed (fun m hm => hroots m (by simp [hm]))
    · have hn : n ∈ g.nodes := hroots n (by simp)
      obtain ⟨ds, hds⟩ := Graph.successors_eq_some hn
      have hInv : DfsInv g [n] [(n, ds)] := by
        refine ⟨by simp, by simp, ?_, ?_, by simp⟩
        · intro f hf
          rw [List.mem_singleton] at hf
          subst hf
          exact hn
        · intro f hf d hd
          rw [List.mem_singleton] at hf
          subst hf
          exact (Graph.mem_successors hds).1 hd
      have hM := dfsM_le_fcFuel hg hn hds processed
      rcases findCycleLoop_ok hg (fcFuel g) processed [n] [(n, ds)]
          hInv hM with ⟨p, hloop⟩ | ⟨c, p, hloop, hcs⟩
      · rw [findCycleOuter_run_none hproc hds hloop]
        exact ih p (fun m hm => hroots m (by simp [hm]))
      · exact Or.inr ⟨c, findCycleOuter_run_some hproc hds hloop, hcs⟩

/-- On a well-formed graph, `_find_cycle` never raises: it returns `none`
or a genuine cycle of the graph. -/
theorem _find_cycle_ok {g : Graph N E} (hg : g.WF) :
    _find_cycle g = .ok none ∨
    ∃ c, _find_cycle g = .ok (some c) ∧ CycleSpec g c :=
  findCycleOuter_ok hg g.nodes [] (fun _ h => h)

end DfsProof

section EdgeCounting

variable {N : Type} {E : Type} [DecidableEq N]

theorem mem_edgePairs {g : Graph N E} (hw : g.WF) {a b : N} :
    (a, b) ∈ edgePairs g ↔ g.EdgeRel a b := by
  unfold edgePairs
  rw [List.mem_bind]
  constructor
  · rintro ⟨p, hp, hmem⟩
    rcases List.mem_map.1 hmem with ⟨q, hq, hpq⟩
    rw [Prod.mk.injEq] at hpq
    have hoe : getVal? g.out_edges a = some p.2 := by
      rw [← hpq.1]
      exact getVal?_of_mem_nodup hw.2.1 (by
        rcases p with ⟨p1, p2⟩
        exact hp)
    show g.has_edge a b = true
    unfold Graph.has_edge
    rw [hoe]
    simp only [decide_eq_true_eq]
    rw [← hpq.2]
    exact mem_keysOf_of_mem hq
  · intro h
    unfold Graph.EdgeRel Graph.has_edge at h
    cases hoe : getVal? g.out_edges a with
    | none => rw [hoe] at h; cases h
    | some oe =>
      rw [hoe] at h
      simp only [decide_eq_true_eq] at h
      rcases List.mem_map.1 h with ⟨q, hq, hqb⟩
      refine ⟨(a, oe), getVal?_mem hoe, ?_⟩
      exact List.mem_map.2 ⟨q, hq, by rw [hqb]⟩

theorem edgePairs_nodup {g : Graph N E} (hw : g.WF) :
    (edgePairs g).Nodup := by
  unfold edgePairs
  rw [List.nodup_bind]
  constructor
  · intro p hp
    have hinner : (keysOf p.2).Nodup := hw.2.2.1 p hp
    have hmapeq : p.2.map (fun q => (p.1, q.1)) =
        (keysOf p.2).map (fun k => (p.1, k)) := by
      unfold keysOf
      rw [List.map_map]
      rfl
    rw [hmapeq]
    refine hinner.map ?_
    intro x y hxy
    rw [Prod.mk.injEq] at hxy
    exact hxy.2
  · have houter : g.out_edges.Pairwise (fun p p' => p.1 ≠ p'.1) := by
      have h2 := hw.2.1
      unfold Graph.nodes keysOf at h2
      rw [List.Nodup, List.pairwise_map] at h2
      exact h2
    refine houter.imp ?_
    intro p p' hne
    intro x hx hx'
    rcases List.mem_map.1 hx with ⟨q, hq, hqx⟩
    rcases List.mem_map.1 hx' with ⟨q', hq', hqx'⟩
    apply hne
    rw [← hqx'] at hqx
    rw [Prod.mk.injEq] at hqx
    exact hqx.1

theorem length_le_of_nodup_subset {l₁ l₂ : List (N × N)} (h₁ : l₁.Nodup)
    (hsub : l₁ ⊆ l₂) : l₁.length ≤ l₂.length :=
  (List.subperm_of_subset h₁ hsub).length_le

/-- Edges witnessed by consecutive entries of a chain, read backwards. -/
theorem zip_tail_of_chain {R : N → N → Prop} :
    ∀ {l : List N}, List.Chain' R l → ∀ p ∈ l.tail.zip l, R p.2 p.1 := by
  intro l
  induction l with
  | nil =>
    intro _ p hp
    cases hp
  | cons a t ih =>
    intro hch p hp
    cases t with
    | nil => cases hp
    | cons b t' =>
      rw [List.chain'_cons] at hch
      rcases List.mem_cons.1 hp with rfl | hp
      · exact hch.1
      · exact ih hch.2 p hp

/-- For every cycle reported by the DFS, one edge per cycle node: the
closing edge from the first node to the last, then one edge per
consecutive pair. -/
def cyclePairs : List N → List (N × N)
  | [] => []
  | h :: t => (h, (h :: t).getLast (List.cons_ne_nil h t)) :: t.zip (h :: t)

theorem cyclePairs_length {c : List N} : (cyclePairs c).length = c.length := by
  cases c with
  | nil => rfl
  | cons h t =>
    show (t.zip (h :: t)).length + 1 = t.length + 1
    rw [List.length_zip]
    simp only [List.length_cons]
    omega

theorem cyclePairs_map_fst {c : List N} :
    (cyclePairs c).map Prod.fst = c := by
  cases c with
  | nil => rfl
  | cons h t =>
    show h :: (t.zip (h :: t)).map Prod.fst = h :: t
    rw [List.map_fst_zip]
    simp

theorem cyclePairs_nodup {c : List N} (h : c.Nodup) :
    (cyclePairs c).Nodup := by
  refine List.Nodup.of_map Prod.fst ?_
  rw [cyclePairs_map_fst]
  exact h

theorem cyclePairs_mem_c {c : List N} {p : N × N} (hp : p ∈ cyclePairs c) :
    p.1 ∈ c ∧ p.2 ∈ c := by
  cases c with
  | nil => cases hp
  | cons h t =>
    rcases List.mem_cons.1 hp with rfl | hp
    · exact ⟨by simp, List.getLast_mem _⟩
    · obtain ⟨p1, p2⟩ := p
      have := List.of_mem_zip hp
      exact ⟨by simp [this.1], this.2⟩

theorem cyclePairs_edges {g : Graph N E} {c : List N} (hcs : CycleSpec g c) :
    ∀ p ∈ cyclePairs c, g.EdgeRel p.1 p.2 := by
  intro p hp
  cases c with
  | nil => cases hp
  | cons h t =>
    rcases List.mem_cons.1 hp with rfl | hp
    · exact hcs.closing (List.cons_ne_nil h t)
    · exact zip_tail_of_chain hcs.chain p hp

/-- Removing all edges among the members of a reported cycle drops the edge
count by at least the cycle length. -/
theorem removal_count {g g2 : Graph N E} (hw : g.WF) (hw2 : g2.WF)
    {c : List N} (hcs : CycleSpec g c)
    (hedge2 : ∀ a b, g2.edge a b =
      if a ∈ c ∧ b ∈ c then none else g.edge a b) :
    edgeCount g2 + c.length ≤ edgeCount g := by
  have hnd : (cyclePairs c ++ edgePairs g2).Nodup := by
    rw [List.nodup_append]
    refine ⟨cyclePairs_nodup hcs.nodup, edgePairs_nodup hw2, ?_⟩
    intro p hp hp2
    obtain ⟨a, b⟩ := p
    have hrel2 : g2.EdgeRel a b := (mem_edgePairs hw2).1 hp2
    rcases Graph.has_edge_iff_edge.1 hrel2 with ⟨e, he⟩
    rw [hedge2 a b, if_pos ⟨(cyclePairs_mem_c hp).1,
      (cyclePairs_mem_c hp).2⟩] at he
    cases he
  have hsub : cyclePairs c ++ edgePairs g2 ⊆ edgePairs g := by
    intro p hp
    obtain ⟨a, b⟩ := p
    rcases List.mem_append.1 hp with hp | hp
    · exact (mem_edgePairs hw).2 (cyclePairs_edges hcs (a, b) hp)
    · have hrel2 : g2.EdgeRel a b := (mem_edgePairs hw2).1 hp
      rcases Graph.has_edge_iff_edge.1 hrel2 with ⟨e, he⟩
      rw [hedge2 a b] at he
      by_cases hab : a ∈ c ∧ b ∈ c
      · rw [if_pos hab] at he
        cases he
      · rw [if_neg hab] at he
        exact (mem_edgePairs hw).2 (Graph.has_edge_iff_edge.2 ⟨e, he⟩)
  have := length_le_of_nodup_subset hnd hsub
  rw [List.length_append, cyclePairs_length] at this
  unfold edgeCount
  omega

/-- Adding one edge between existing nodes grows the edge count by at most
one. -/
theorem addition_count {g g3 : Graph N E} (hw : g.WF) (hw3 : g3.WF)
    {o d : N} {e : E}
    (hedge3 : ∀ a b, g3.edge a b =
      if a = o ∧ b = d then some e else g.edge a b) :
    edgeCount g3 ≤ edgeCount g + 1 := by
  have hsub : edgePairs g3 ⊆ (o, d) :: edgePairs g := by
    intro p hp
    obtain ⟨a, b⟩ := p
    have hrel3 : g3.EdgeRel a b := (mem_edgePairs hw3).1 hp
    rcases Graph.has_edge_iff_edge.1 hrel3 with ⟨x, hx⟩
    rw [hedge3 a b] at hx
    by_cases hab : a = o ∧ b = d
    · rw [hab.1, hab.2]
      simp
    · rw [if_neg hab] at hx
      exact List.mem_cons_of_mem _
        ((mem_edgePairs hw).2 (Graph.has_edge_iff_edge.2 ⟨x, hx⟩))
  have := length_le_of_nodup_subset (edgePairs_nodup hw3) hsub
  rw [List.length_cons] at this
  unfold edgeCount
  omega

end EdgeCounting

section ReplaceCycles

variable {N : Type} {E : Type} [DecidableEq N]

/-- The fold of `_remove_self_references` never raises and preserves
well-formedness and the node set. -/
theorem remove_self_fold :
    ∀ (ns : List N) (acc : Graph N E), acc.WF → (∀ n ∈ ns, n ∈ acc.nodes) →
      ∃ g1, ns.foldlM (fun a n => a.remove_edge n n) acc = some g1 ∧
        g1.WF ∧ g1.nodes = acc.nodes := by
  intro ns
  induction ns with
  | nil =>
    intro acc hw _
    exact ⟨acc, rfl, hw, rfl⟩
  | cons n t ih =>
    intro acc hw hmem
    obtain ⟨g1, heq1, hnodes1, _, hw1⟩ :=
      Graph.remove_edge_spec hw (hmem n (by simp)) (hmem n (by simp))
    obtain ⟨g2, heq2, hw2, hnodes2⟩ := ih g1 hw1 (fun x hx => by
      rw [hnodes1]
      exact hmem x (by simp [hx]))
    refine ⟨g2, ?_, hw2, by rw [hnodes2, hnodes1]⟩
    rw [List.foldlM_cons, heq1]
    exact heq2

/-- `_remove_self_references` succeeds on a well-formed graph and keeps it
well-formed with the same node set. -/
theorem rsr_spec {g : Graph N E} (hw : g.WF) :
    ∃ g1, _remove_self_references g = some g1 ∧ g1.WF ∧
      g1.nodes = g.nodes :=
  remove_self_fold g.nodes g hw (fun _ h => h)

/-- The inner loop of the cycle-edge removal: all edges from `node` into
`ds` go away, nothing else changes. -/
theorem remove_pairs_inner (node : N) :
    ∀ (ds : List N) (acc : Graph N E), acc.WF → node ∈ acc.nodes →
      (∀ d ∈ ds, d ∈ acc.nodes) →
      ∃ g1, ds.foldlM (fun a dep => a.remove_edge node dep) acc = some g1 ∧
        g1.WF ∧ g1.nodes = acc.nodes ∧
        ∀ a b, g1.edge a b =
          if a = node ∧ b ∈ ds then none else acc.edge a b := by
  intro ds
  induction ds with
  | nil =>
    intro acc hw _ _
    refine ⟨acc, rfl, hw, rfl, ?_⟩
    intro a b
    simp
  | cons d t ih =>
    intro acc hw hnode hds
    obtain ⟨g1, heq1, hnodes1, hedge1, hw1⟩ :=
      Graph.remove_edge_spec hw hnode (hds d (by simp))
    obtain ⟨g2, heq2, hw2, hnodes2, hedge2⟩ := ih g1 hw1
      (by rw [hnodes1]; exact hnode)
      (fun x hx => by rw [hnodes1]; exact hds x (by simp [hx]))
    refine ⟨g2, ?_, hw2, by rw [hnodes2, hnodes1], ?_⟩
    · rw [List.foldlM_cons, heq1]
      exact heq2
    · intro a b
      rw [hedge2 a b, hedge1 a b]
      by_cases han : a = node
      · subst han
        by_cases hbt : b ∈ t
        · rw [if_pos ⟨rfl, hbt⟩, if_pos ⟨rfl, by simp [hbt]⟩]
        · rw [if_neg (fun hc => hbt hc.2)]
          by_cases hbd : b = d
          · subst hbd
            rw [if_pos ⟨rfl, rfl⟩, if_pos ⟨rfl, by simp⟩]
          · rw [if_neg (fun hc => hbd hc.2), if_neg (fun hc => by
              rcases List.mem_cons.1 hc.2 with h | h
              · exact hbd h
              · exact hbt h)]
      · rw [if_neg (fun hc => han hc.1), if_neg (fun hc => han hc.1),
          if_neg (fun hc => han hc.1)]

/-- The outer loop of the cycle-edge removal. -/
theorem remove_pairs_outer {c : List N} :
    ∀ (ns : List N) (acc : Graph N E), acc.WF →
      (∀ x ∈ c, x ∈ acc.nodes) → (∀ x ∈ ns, x ∈ acc.nodes) →
      ∃ g1, ns.foldlM (fun a node => c.foldlM
          (fun a2 dep => a2.remove_edge node dep) a) acc = some g1 ∧
        g1.WF ∧ g1.nodes = acc.nodes ∧
        ∀ a b, g1.edge a b =
          if a ∈ ns ∧ b ∈ c then none else acc.edge a b := by
  intro ns
  induction ns with
  | nil =>
    intro acc hw _ _
    refine ⟨acc, rfl, hw, rfl, ?_⟩
    intro a b
    simp
  | cons n t ih =>
    intro acc hw hc hns
    obtain ⟨g1, heq1, hw1, hnodes1, hedge1⟩ :=
      remove_pairs_inner n c acc hw (hns n (by simp)) hc
    obtain ⟨g2, heq2, hw2, hnodes2, hedge2⟩ := ih g1 hw1
      (fun x hx => by rw [hnodes1]; exact hc x hx)
      (fun x hx => by rw [hnodes1]; exact hns x (by simp [hx]))
    refine ⟨g2, ?_, hw2, by rw [hnodes2, hnodes1], ?_⟩
    · rw [List.foldlM_cons, heq1]
      exact heq2
    · intro a b
      rw [hedge2 a b, hedge1 a b]
      by_cases hbc : b ∈ c
      · by_cases hat : a ∈ t
        · rw [if_pos ⟨hat, hbc⟩, if_pos ⟨by simp [hat], hbc⟩]
        · rw [if_neg (fun hc2 => hat hc2.1)]
          by_cases han : a = n
          · subst han
            rw [if_pos ⟨rfl, hbc⟩, if_pos ⟨by simp, hbc⟩]
          · rw [if_neg (fun hc2 => han hc2.1), if_neg (fun hc2 => by
              rcases List.mem_cons.1 hc2.1 with h | h
              · exact han h
              · exact hat h)]
      · rw [if_neg (fun hc2 => hbc hc2.2), if_neg (fun hc2 => hbc hc2.2),
          if_neg (fun hc2 => hbc hc2.2)]

/-- The nested removal loops of `replace_cycles` succeed and remove exactly
the edges among the cycle members. -/
theorem removeCycleEdges_spec {g : Graph N E} (hw : g.WF) {c : List N}
    (hc : ∀ x ∈ c, x ∈ g.nodes) :
    ∃ g2, removeCycleEdges g c = some g2 ∧ g2.WF ∧ g2.nodes = g.nodes ∧
      ∀ a b, g2.edge a b =
        if a ∈ c ∧ b ∈ c then none else g.edge a b :=
  remove_pairs_outer c g hw hc hc

/-- The chain-rebuilding fold of `replace_cycles` succeeds and adds at most
one edge per step. -/
theorem chainLink_fold :
    ∀ (rest : List N) (g : Graph N Bool) (prev : N), g.WF →
      (∀ x ∈ rest, x ∈ g.nodes) → prev ∈ g.nodes →
      ∃ q : Graph N Bool × N,
        rest.foldlM (fun (p : Graph N Bool × N) node =>
          (p.1.add_edge node p.2 true).map (fun g2 => (g2, node)))
          (g, prev) = some q ∧ q.1.WF ∧ q.1.nodes = g.nodes ∧
        edgeCount q.1 ≤ edgeCount g + rest.length := by
  intro rest
  induction rest with
  | nil =>
    intro g prev hw _ _
    exact ⟨(g, prev), rfl, hw, rfl, by simp⟩
  | cons n t ih =>
    intro g prev hw hmem hprev
    obtain ⟨g1, heq1, hnodes1, hedge1, hw1⟩ :=
      Graph.add_edge_spec hw true (hmem n (by simp)) hprev
    have hcount1 : edgeCount g1 ≤ edgeCount g + 1 :=
      addition_count hw hw1 hedge1
    obtain ⟨q, heq2, hwq, hnodesq, hcountq⟩ := ih g1 n hw1
      (fun x hx => by rw [hnodes1]; exact hmem x (by simp [hx]))
      (by rw [hnodes1]; exact hmem n (by simp))
    refine ⟨q, ?_, hwq, by rw [hnodesq, hnodes1], ?_⟩
    · rw [List.foldlM_cons]
      dsimp only
      rw [heq1]
      exact heq2
    · rw [List.length_cons]
      omega

/-- `chainLink` succeeds on a nonempty cycle of graph nodes, preserves
well-formedness and the node set, and adds strictly fewer edges than the
cycle has nodes. -/
theorem chainLink_spec {g : Graph N Bool} (hw : g.WF) (key : N → Nat)
    {c : List N} (hne : c ≠ []) (hc : ∀ x ∈ c, x ∈ g.nodes) :
    ∃ g3, chainLink key g c = some g3 ∧ g3.WF ∧ g3.nodes = g.nodes ∧
      edgeCount g3 + 1 ≤ edgeCount g + c.length := by
  have hperm := sortByKey_perm key c
  unfold chainLink
  cases hs : sortByKey key c with
  | nil =>
    rw [hs] at hperm
    exact absurd hperm.symm.eq_nil hne
  | cons first rest =>
    rw [hs] at hperm
    have hmem' : ∀ x ∈ first :: rest, x ∈ g.nodes :=
      fun x hx => hc x (hperm.subset hx)
    obtain ⟨q, heq, hwq, hnodesq, hcountq⟩ := chainLink_fold rest g first hw
      (fun x hx => hmem' x (by simp [hx])) (hmem' first (by simp))
    refine ⟨q.1, ?_, hwq, hnodesq, ?_⟩
    · dsimp only
      rw [heq]
      rfl
    · have hlen : rest.length + 1 = c.length := by
        have := hperm.length_eq
        simp only [List.length_cons] at this
        omega
      omega

theorem replaceLoop_found_none {key : N → Nat} {fuel : Nat}
    {g : Graph N Bool} (hfc : _find_cycle g = .ok none) :
    replaceLoop key (fuel + 1) g = .ok g := by
  rw [replaceLoop.eq_def]
  dsimp only
  rw [hfc]

theorem replaceLoop_found_some {key : N → Nat} {fuel : Nat}
    {g g2 g3 : Graph N Bool} {c : List N}
    (hfc : _find_cycle g = .ok (some c)) (hne : c ≠ [])
    (hrm : removeCycleEdges g c = some g2)
    (hcl : chainLink key g2 c = some g3) :
    replaceLoop key (fuel + 1) g = replaceLoop key fuel g3 := by
  rw [replaceLoop.eq_def]
  dsimp only
  rw [hfc]
  dsimp only
  rw [if_neg hne, hrm]
  dsimp only
  rw [hcl]

/-- The `while True:` loop of `replace_cycles` terminates once the fuel
exceeds the edge count: every iteration removes at least one more edge
than it adds. -/
theorem replaceLoop_ok (key : N → Nat) :
    ∀ (fuel : Nat) (g : Graph N Bool), g.WF → edgeCount g < fuel →
      ∃ g', replaceLoop key fuel g = .ok g' ∧ g'.WF ∧
        _find_cycle g' = .ok none := by
  intro fuel
  induction fuel with
  | zero =>
    intro g _ h
    exact absurd h (Nat.not_lt_zero _)
  | succ fuel ih =>
    intro g hw hcount
    rcases _find_cycle_ok hw with hfc | ⟨c, hfc, hcs⟩
    · exact ⟨g, replaceLoop_found_none hfc, hw, hfc⟩
    · obtain ⟨g2, hrm, hw2, hnodes2, hedge2⟩ :=
        removeCycleEdges_spec hw hcs.mem
      obtain ⟨g3, hcl, hw3, hnodes3, hcount3⟩ := chainLink_spec hw2 key
        hcs.ne (fun x hx => by rw [hnodes2]; exact hcs.mem x hx)
      have hrc : edgeCount g2 + c.length ≤ edgeCount g :=
        removal_count hw hw2 hcs hedge2
      have hlt : edgeCount g3 < fuel := by omega
      obtain ⟨g', hloop, hw', hfc'⟩ := ih g3 hw3 hlt
      refine ⟨g', ?_, hw', hfc'⟩
      rw [replaceLoop_found_some hfc hcs.ne hrm hcl]
      exact hloop

end ReplaceCycles

section DfsComplete

variable {N : Type} {E : Type} [DecidableEq N]

/-- Finish-order invariant of the `processed` list: every successor of a
processed node is processed earlier. -/
def OrderInv (g : Graph N E) (p : List N) : Prop :=
  ∀ n ∈ p, ∀ m, g.EdgeRel n m → m ∈ p ∧
    List.indexOf m p < List.indexOf n p

theorem findCycleLoop_zero_cons (g : Graph N E)
    (processed in_stack : List N) (f : N × List N)
    (rest : List (N × List N)) :
    findCycleLoop g 0 processed in_stack (f :: rest) =
      .error .fuelOut := by
  obtain ⟨a, b⟩ := f
  rw [findCycleLoop.eq_def]

theorem findCycleLoop_push_err {g : Graph N E} {fuel : Nat}
    {processed in_stack : List N} {topN dep : N} {depsRest : List N}
    {rest : List (N × List N)} (h1 : dep ∉ in_stack)
    (h2 : dep ∉ processed) (hds : g.successors dep = none) :
    findCycleLoop g (fuel + 1) processed in_stack
      ((topN, dep :: depsRest) :: rest) = .error .keyError := by
  rw [findCycleLoop.eq_def]
  dsimp only
  rw [if_neg h1, if_neg h2, hds]

/-- Completeness of the DFS loop: a run that reports no cycle has fully
processed the stack in an order in which every edge points backwards. -/
theorem findCycleLoop_complete {g : Graph N E} :
    ∀ (fuel : Nat) (processed in_stack : List N)
      (stack : List (N × List N)) (p : List N),
      DfsInv g in_stack stack →
      (∀ s₁ f s₂, stack = s₁ ++ f :: s₂ → ∀ m, g.EdgeRel f.1 m →
        m ∈ f.2 ∨ m ∈ processed ∨ m ∈ s₁.map Prod.fst) →
      (∀ f ∈ stack, f.1 ∉ processed) →
      OrderInv g processed →
      findCycleLoop g fuel processed in_stack stack = .ok (none, p) →
      processed ⊆ p ∧ (∀ f ∈ stack, f.1 ∈ p) ∧ OrderInv g p := by
  intro fuel
  induction fuel with
  | zero =>
    intro processed in_stack stack p _ _ _ hord hrun
    cases stack with
    | nil =>
      rw [findCycleLoop_nil] at hrun
      simp only [Except.ok.injEq, Prod.mk.injEq] at hrun
      rw [← hrun.2]
      exact ⟨fun x hx => hx, by simp, hord⟩
    | cons f rest =>
      rw [findCycleLoop_zero_cons] at hrun
      cases hrun
  | succ fuel ih =>
    intro processed in_stack stack p hInv h6 h7 hord hrun
    cases stack with
    | nil =>
      rw [findCycleLoop_nil] at hrun
      simp only [Except.ok.injEq, Prod.mk.injEq] at hrun
      rw [← hrun.2]
      exact ⟨fun x hx => hx, by simp, hord⟩
    | cons f rest =>
      obtain ⟨topN, topDeps⟩ := f
      cases topDeps with
      | nil =>
        have htop_in : topN ∈ in_stack := by
          rw [hInv.inv1]
          simp
        rw [findCycleLoop_frame_done htop_in] at hrun
        have htopnp : topN ∉ processed := h7 (topN, []) (by simp)
        rw [addSet_eq_append htopnp] at hrun
        have hnotin : topN ∉ (rest.map Prod.fst).reverse := by
          have h2 := hInv.inv2
          simp only [List.map_cons, List.nodup_cons] at h2
          simpa using h2.1
        have herase : in_stack.erase topN = (rest.map Prod.fst).reverse := by
          rw [hInv.inv1, List.map_cons, List.reverse_cons,
            List.erase_append_right _ hnotin, List.erase_cons_head,
            List.append_nil]
        have hInv2 : DfsInv g (in_stack.erase topN) rest := by
          rw [herase]
          refine ⟨rfl, ?_, ?_, ?_, ?_⟩
          · have h2 := hInv.inv2
            simp only [List.map_cons, List.nodup_cons] at h2
            exact h2.2
          · intro f hf
            exact hInv.inv3 f (List.mem_cons_of_mem _ hf)
          · intro f hf d hd
            exact hInv.inv4 f (List.mem_cons_of_mem _ hf) d hd
          · exact hInv.inv5.tail
        have h6n : ∀ s₁ f s₂, rest = s₁ ++ f :: s₂ → ∀ m,
            g.EdgeRel f.1 m →
            m ∈ f.2 ∨ m ∈ processed ++ [topN] ∨ m ∈ s₁.map Prod.fst := by
          intro s₁ f s₂ hsplit m hrel
          rcases h6 ((topN, []) :: s₁) f s₂ (by rw [hsplit]; rfl) m hrel
            with h | h | h
          · exact Or.inl h
          · exact Or.inr (Or.inl (by simp [h]))
          · rw [List.map_cons] at h
            rcases List.mem_cons.1 h with rfl | h
            · exact Or.inr (Or.inl (by simp))
            · exact Or.inr (Or.inr h)
        have h7n : ∀ f ∈ rest, f.1 ∉ processed ++ [topN] := by
          intro f hf
          have hp1 : f.1 ∉ processed := h7 f (by simp [hf])
          have hp2 : f.1 ≠ topN := by
            have hnd := hInv.inv2
            simp only [List.map_cons, List.nodup_cons] at hnd
            intro hc
            exact hnd.1 (hc ▸ List.mem_map_of_mem Prod.fst hf)
          simp [hp1, hp2]
        have hordn : OrderInv g (processed ++ [topN]) := by
          intro n hn m hrel
          rcases List.mem_append.1 hn with hn | hn
          · obtain ⟨hm, hlt⟩ := hord n hn m hrel
            refine ⟨by simp [hm], ?_⟩
            rw [List.indexOf_append_of_mem hm,
              List.indexOf_append_of_mem hn]
            exact hlt
          · rw [List.mem_singleton] at hn
            subst hn
            have hm : m ∈ processed := by
              rcases h6 [] (n, []) rest rfl m hrel with h | h | h
              · cases h
              · exact h
              · cases h
            refine ⟨by simp [hm], ?_⟩
            rw [List.indexOf_append_of_mem hm,
              List.indexOf_append_of_not_mem htopnp,
              List.indexOf_cons_self]
            have hlen := List.indexOf_lt_length.2 hm
            omega
        obtain ⟨hsub, hstk, hordp⟩ := ih (processed ++ [topN])
          (in_stack.erase topN) rest p hInv2 h6n h7n hordn hrun
        refine ⟨?_, ?_, hordp⟩
        · intro x hx
          exact hsub (by simp [hx])
        · intro f hf
          rcases List.mem_cons.1 hf with rfl | hf
          · exact hsub (by simp)
          · exact hstk f hf
      | cons dep depsRest =>
        by_cases hdep_in : dep ∈ in_stack
        · have hdep_in2 : dep ∈ ((topN, depsRest) :: rest).map Prod.fst := by
            have h1 : dep ∈ (((topN, dep :: depsRest) :: rest).map
                Prod.fst).reverse := hInv.inv1 ▸ hdep_in
            rw [List.mem_reverse] at h1
            simpa using h1
          rw [findCycleLoop_detect hdep_in
            (buildCycle_eq dep _ [dep] hdep_in2)] at hrun
          simp at hrun
        · by_cases hdep_proc : dep ∈ processed
          · rw [findCycleLoop_skip hdep_in hdep_proc] at hrun
            have hchain2 : List.Chain' (fun a b => g.EdgeRel b.1 a.1)
                ((topN, depsRest) :: rest) := by
              have h5 := hInv.inv5
              rw [List.chain'_cons'] at h5 ⊢
              exact ⟨h5.1, h5.2⟩
            have hinv3n : ∀ f ∈ (topN, depsRest) :: rest,
                f.1 ∈ g.nodes := by
              intro f hf
              rcases List.mem_cons.1 hf with rfl | hf
              · exact hInv.inv3 (topN, dep :: depsRest) (by simp)
              · exact hInv.inv3 f (by simp [hf])
            have hInv2 : DfsInv g in_stack ((topN, depsRest) :: rest) := by
              refine ⟨hInv.inv1, hInv.inv2, hinv3n, ?_, hchain2⟩
              intro f hf d hd
              rcases List.mem_cons.1 hf with rfl | hf
              · exact hInv.inv4 (topN, dep :: depsRest) (by simp) d
                  (by simp [hd])
              · exact hInv.inv4 f (by simp [hf]) d hd
            have h6n : ∀ s₁ f s₂,
                (topN, depsRest) :: rest = s₁ ++ f :: s₂ → ∀ m,
                g.EdgeRel f.1 m →
                m ∈ f.2 ∨ m ∈ processed ∨ m ∈ s₁.map Prod.fst := by
              intro s₁ f s₂ hsplit m hrel
              cases s₁ with
              | nil =>
                rw [List.nil_append] at hsplit
                rw [List.cons.injEq] at hsplit
                rcases h6 [] (topN, dep :: depsRest) rest rfl m
                  (by rw [← hsplit.1] at hrel; exact hrel) with h | h | h
                · rcases List.mem_cons.1 h with rfl | h
                  · exact Or.inr (Or.inl hdep_proc)
                  · rw [← hsplit.1]
                    exact Or.inl h
                · exact Or.inr (Or.inl h)
                · cases h
              | cons a s₁t =>
                rw [List.cons_append, List.cons.injEq] at hsplit
                rcases h6 ((topN, dep :: depsRest) :: s₁t) f s₂
                  (by rw [hsplit.2]; rfl) m hrel with h | h | h
                · exact Or.inl h
                · exact Or.inr (Or.inl h)
                · rw [List.map_cons] at h
                  rcases List.mem_cons.1 h with rfl | h
                  · rw [← hsplit.1]
                    exact Or.inr (Or.inr (by simp))
                  · exact Or.inr (Or.inr (by
                      rw [List.map_cons]
                      exact List.mem_cons_of_mem _ h))
            have h7n : ∀ f ∈ (topN, depsRest) :: rest,
                f.1 ∉ processed := by
              intro f hf
              rcases List.mem_cons.1 hf with rfl | hf
              · exact h7 (topN, dep :: depsRest) (by simp)
              · exact h7 f (by simp [hf])
            obtain ⟨hsub, hstk, hordp⟩ := ih processed in_stack
              ((topN, depsRest) :: rest) p hInv2 h6n h7n hord hrun
            refine ⟨hsub, ?_, hordp⟩
            intro f hf
            rcases List.mem_cons.1 hf with rfl | hf
            · exact hstk (topN, depsRest) (by simp)
            · exact hstk f (by simp [hf])
          · cases hds : g.successors dep with
            | none =>
              rw [findCycleLoop_push_err hdep_in hdep_proc hds] at hrun
              cases hrun
            | some ds =>
              rw [findCycleLoop_push hdep_in hdep_proc hds] at hrun
              have hdrawn : g.EdgeRel topN dep :=
                hInv.inv4 (topN, dep :: depsRest) (by simp) dep (by simp)
              have hdepnode : dep ∈ g.nodes := by
                have hsome : (getVal? g.out_edges dep).isSome = true := by
                  unfold Graph.successors at hds
                  rcases Option.map_eq_some'.1 hds with ⟨oe, hoe, _⟩
                  rw [hoe]
                  rfl
                exact (getVal?_isSome (l := g.out_edges)).1 hsome
              have hdep_not_stack :
                  dep ∉ ((topN, dep :: depsRest) :: rest).map Prod.fst := by
                intro hc
                apply hdep_in
                rw [hInv.inv1, List.mem_reverse]
                exact hc
              have hchain2 : List.Chain' (fun a b => g.EdgeRel b.1 a.1)
                  ((topN, depsRest) :: rest) := by
                have h5 := hInv.inv5
                rw [List.chain'_cons'] at h5 ⊢
                exact ⟨h5.1, h5.2⟩
              have hinv3n : ∀ f ∈ (topN, depsRest) :: rest,
                  f.1 ∈ g.nodes := by
                intro f hf
                rcases List.mem_cons.1 hf with rfl | hf
                · exact hInv.inv3 (topN, dep :: depsRest) (by simp)
                · exact hInv.inv3 f (by simp [hf])
              have hInv2 : DfsInv g (addSet in_stack dep)
                  ((dep, ds) :: (topN, depsRest) :: rest) := by
                refine ⟨?_, ?_, ?_, ?_, ?_⟩
                · rw [addSet_eq_append hdep_in, hInv.inv1]
                  simp
                · rw [List.map_cons, List.nodup_cons]
                  exact ⟨hdep_not_stack, hInv.inv2⟩
                · intro f hf
                  rcases List.mem_cons.1 hf with rfl | hf
                  · exact hdepnode
                  · exact hinv3n f hf
                · intro f hf d hd
                  rcases List.mem_cons.1 hf with rfl | hf
                  · exact (Graph.mem_successors hds).1 hd
                  · rcases List.mem_cons.1 hf with rfl | hf
                    · exact hInv.inv4 (topN, dep :: depsRest) (by simp) d
                        (by simp [hd])
                    · exact hInv.inv4 f (by simp [hf]) d hd
                · rw [List.chain'_cons']
                  refine ⟨?_, hchain2⟩
                  intro y hy
                  rw [List.head?_cons, Option.mem_some_iff] at hy
                  rw [← hy]
                  exact hdrawn
              have h6n : ∀ s₁ f s₂,
                  (dep, ds) :: (topN, depsRest) :: rest = s₁ ++ f :: s₂ →
                  ∀ m, g.EdgeRel f.1 m →
                  m ∈ f.2 ∨ m ∈ processed ∨ m ∈ s₁.map Prod.fst := by
                intro s₁ f s₂ hsplit m hrel
                cases s₁ with
                | nil =>
                  rw [List.nil_append, List.cons.injEq] at hsplit
                  rw [← hsplit.1] at hrel ⊢
                  exact Or.inl ((Graph.mem_successors hds).2 hrel)
                | cons a s₁t =>
                  rw [List.cons_append, List.cons.injEq] at hsplit
                  obtain ⟨ha, hsplit2⟩ := hsplit
                  cases s₁t with
                  | nil =>
                    rw [List.nil_append, List.cons.injEq] at hsplit2
                    obtain ⟨hf, _⟩ := hsplit2
                    rcases h6 [] (topN, dep :: depsRest) rest rfl m
                      (by rw [← hf] at hrel; exact hrel) with h | h | h
                    · rcases List.mem_cons.1 h with rfl | h
                      · refine Or.inr (Or.inr ?_)
                        rw [← ha]
                        simp
                      · rw [← hf]
                        exact Or.inl h
                    · exact Or.inr (Or.inl h)
                    · cases h
                  | cons b s₁tt =>
                    rw [List.cons_append, List.cons.injEq] at hsplit2
                    obtain ⟨hb, hsplit3⟩ := hsplit2
                    rcases h6 ((topN, dep :: depsRest) :: s₁tt) f s₂
                      (by rw [hsplit3]; rfl) m hrel with h | h | h
                    · exact Or.inl h
                    · exact Or.inr (Or.inl h)
                    · rw [List.map_cons] at h
                      rcases List.mem_cons.1 h with rfl | h
                      · refine Or.inr (Or.inr ?_)
                        rw [← hb]
                        simp
                      · exact Or.inr (Or.inr (by simp [h]))
              have h7n : ∀ f ∈ (dep, ds) :: (topN, depsRest) :: rest,
                  f.1 ∉ processed := by
                intro f hf
                rcases List.mem_cons.1 hf with rfl | hf
                · exact hdep_proc
                · rcases List.mem_cons.1 hf with rfl | hf
                  · exact h7 (topN, dep :: depsRest) (by simp)
                  · exact h7 f (by simp [hf])
              obtain ⟨hsub, hstk, hordp⟩ := ih processed
                (addSet in_stack dep)
                ((dep, ds) :: (topN, depsRest) :: rest) p hInv2 h6n h7n
                hord hrun
              refine ⟨hsub, ?_, hordp⟩
              intro f hf
              rcases List.mem_cons.1 hf with rfl | hf
              · exact hstk (topN, depsRest) (by simp)
              · exact hstk f (by simp [hf])

theorem findCycleOuter_succ_err {g : Graph N E} {fuel : Nat} {n : N}
    {rest processed : List N} (h : n ∉ processed)
    (hds : g.successors n = none) :
    findCycleOuter g fuel (n :: rest) processed = .error .keyError := by
  rw [findCycleOuter.eq_def]
  dsimp only
  rw [if_neg h, hds]

theorem findCycleOuter_run_err {g : Graph N E} {fuel : Nat} {n : N}
    {rest processed ds : List N} {e : FcErr} (h : n ∉ processed)
    (hds : g.successors n = some ds)
    (hloop : findCycleLoop g fuel processed [n] [(n, ds)] = .error e) :
    findCycleOuter g fuel (n :: rest) processed = .error e := by
  rw [findCycleOuter.eq_def]
  dsimp only
  rw [if_neg h, hds]
  dsimp only
  rw [hloop]

/-- Completeness of the root loop: a run that reports no cycle has
processed every root in an order in which every edge points backwards. -/
theorem findCycleOuter_complete {g : Graph N E} (fuel : Nat) :
    ∀ (roots processed : List N), (∀ n ∈ roots, n ∈ g.nodes) →
      OrderInv g processed →
      findCycleOuter g fuel roots processed = .ok none →
      ∃ p, (∀ n ∈ roots, n ∈ p) ∧ processed ⊆ p ∧ OrderInv g p := by
  intro roots
  induction roots with
  | nil =>
    intro processed _ hord _
    exact ⟨processed, by simp, fun x hx => hx, hord⟩
  | cons n rest ih =>
    intro processed hroots hord hrun
    by_cases hproc : n ∈ processed
    · rw [findCycleOuter_skip hproc] at hrun
      obtain ⟨p, hcov, hsub, hordp⟩ := ih processed
        (fun m hm => hroots m (by simp [hm])) hord hrun
      refine ⟨p, ?_, hsub, hordp⟩
      intro m hm
      rcases List.mem_cons.1 hm with rfl | hm
      · exact hsub hproc
      · exact hcov m hm
    · cases hds : g.successors n with
      | none =>
        rw [findCycleOuter_succ_err hproc hds] at hrun
        cases hrun
      | some ds =>
        cases hloop : findCycleLoop g fuel processed [n] [(n, ds)] with
        | error e =>
          rw [findCycleOuter_run_err hproc hds hloop] at hrun
          cases hrun
        | ok v =>
          obtain ⟨oc, p1⟩ := v
          cases oc with
          | some c =>
            rw [findCycleOuter_run_some hproc hds hloop] at hrun
            cases hrun
          | none =>
            rw [findCycleOuter_run_none hproc hds hloop] at hrun
            have hn : n ∈ g.nodes := hroots n (by simp)
            have hInv : DfsInv g [n] [(n, ds)] := by
              refine ⟨by simp, by simp, ?_, ?_, by simp⟩
              · intro f hf
                rw [List.mem_singleton] at hf
                subst hf
                exact hn
              · intro f hf d hd
                rw [List.mem_singleton] at hf
                subst hf
                exact (Graph.mem_successors hds).1 hd
            have h6 : ∀ s₁ f s₂, [(n, ds)] = s₁ ++ f :: s₂ → ∀ m,
                g.EdgeRel f.1 m →
                m ∈ f.2 ∨ m ∈ processed ∨ m ∈ s₁.map Prod.fst := by
              intro s₁ f s₂ hsplit m hrel
              cases s₁ with
              | nil =>
                rw [List.nil_append, List.cons.injEq] at hsplit
                rw [← hsplit.1] at hrel ⊢
                exact Or.inl ((Graph.mem_successors hds).2 hrel)
              | cons a s₁t =>
                rw [List.cons_append, List.cons.injEq] at hsplit
                exact absurd hsplit.2.symm (by simp)
            have h7 : ∀ f ∈ [(n, ds)], f.1 ∉ processed := by
              intro f hf
              rw [List.mem_singleton] at hf
              subst hf
              exact hproc
            obtain ⟨hsub1, hstk1, hord1⟩ := findCycleLoop_complete fuel
              processed [n] [(n, ds)] p1 hInv h6 h7 hord hloop
            obtain ⟨p, hcov, hsub2, hordp⟩ := ih p1
              (fun m hm => hroots m (by simp [hm])) hord1 hrun
            refine ⟨p, ?_, fun x hx => hsub2 (hsub1 hx), hordp⟩
            intro m hm
            rcases List.mem_cons.1 hm with rfl | hm
            · exact hsub2 (hstk1 (m, ds) (by simp))
            · exact hcov m hm

/-- A processed order covering all nodes rules out cycles. -/
theorem orderInv_no_cycle {g : Graph N E} {p : List N}
    (hord : OrderInv g p) (hcov : ∀ n ∈ g.nodes, n ∈ p) :
    ¬ g.HasCycle := by
  rintro ⟨n, htg⟩
  have hmono : ∀ a b, Relation.TransGen g.EdgeRel a b → a ∈ p →
      b ∈ p ∧ List.indexOf b p < List.indexOf a p := by
    intro a b htr
    induction htr with
    | single h =>
      intro ha
      exact hord a ha _ h
    | tail htr hedge ih =>
      intro ha
      obtain ⟨hb, hlt⟩ := ih ha
      obtain ⟨hc, hlt2⟩ := hord _ hb _ hedge
      exact ⟨hc, by omega⟩
  have hn : n ∈ p := by
    rcases Relation.TransGen.head'_iff.1 htg with ⟨c, hnc, _⟩
    exact hcov n (Graph.EdgeRel_left_mem hnc)
  obtain ⟨_, hlt⟩ := hmono n n htg hn
  omega

/-- If `_find_cycle` reports no cycle, the graph has none. -/
theorem acyclic_of_find_none {g : Graph N E}
    (h : _find_cycle g = .ok none) : ¬ g.HasCycle := by
  obtain ⟨p, hcov, _, hord⟩ := findCycleOuter_complete (fcFuel g) g.nodes
    [] (fun _ hx => hx) (fun n hn => absurd hn (List.not_mem_nil n)) h
  exact orderInv_no_cycle hord hcov

end DfsComplete

/-- C3: for every finite well-formed graph and every rank function,
`replace_cycles` terminates without error, and the graph it produces
contains no cycle: a subsequent call to `_find_cycle` on that graph
returns no cycle. -/
theorem claim_C3 {N : Type} [DecidableEq N] (g : Graph N Bool)
    (key : N → Nat) (hwf : g.WF) :
    ∃ g', replace_cycles g key = .ok g' ∧ ¬ g'.HasCycle ∧
      _find_cycle g' = .ok none := by
  unfold replace_cycles
  obtain ⟨g1, heq1, hw1, _⟩ := rsr_spec hwf
  rw [heq1]
  obtain ⟨g', hloop, _, hfc⟩ :=
    replaceLoop_ok key (edgeCount g1 + 1) g1 hw1 (Nat.lt_succ_self _)
  exact ⟨g', hloop, acyclic_of_find_none hfc, hfc⟩

/-- Witness for C3 on the two-node cycle with the identity rank. -/
theorem claim_C3_witness :
    gCyc2.WF ∧ ∃ g', replace_cycles gCyc2 (fun n => n) = .ok g' ∧
      ¬ g'.HasCycle ∧ _find_cycle g' = .ok none :=
  ⟨by decide, claim_C3 gCyc2 (fun n => n) (by decide)⟩
